import Mathlib

/-!
# HCPP-Trie: a shallow embedding of `trie_node.h` / `trie.h`

The C++ container is a pointer-linked tree.  The embedding keeps the ownership
tree as an inductive value and represents a node pointer by the list of edge
labels that leads from the root to the node (`none` is `nullptr`).  A `char` is
represented by its integer value: `'\0'` is `0`, and `<` on `Int` is the
comparison `a->_key < b->_key` the children set is ordered by.  With this
representation `_parent` is the path without its last label, and a pointer to
a node that has been deleted (or never existed) dereferences to nothing.

Every operation that dereferences a pointer returns a `Res`: `ok` with the
result, `fault` when the source dereferences a null or dangling pointer or
steps an iterator out of its range, and `timeout` when a loop is cut off by
the fuel it was given.
-/

namespace HCPPTrie

/-- Outcome of running a piece of the program. -/
inductive Res (α : Type) where
  | ok (a : α) : Res α
  | fault : Res α
  | timeout : Res α

/-- Node of the tree (`trie_node<_Value>`): `_key`, `_value`, `_children`.  The
`_parent` pointer is implicit in the position of the node. -/
inductive trie_node (V : Type) where
  | mk (_key : Int) (_value : Option V) (_children : List (trie_node V)) : trie_node V

/-- The container (`trie<_Value>`): it owns the root node. -/
structure trie (V : Type) where
  _base_node : trie_node V

/-- A position (`trie_iterator`): a node pointer and the marker `_current_key`. -/
structure trie_iterator where
  _ptr : Option (List Int)
  _current_key : Int
deriving DecidableEq

variable {V : Type}

/-! ## trie_node.h -/

/-- `get_node_key()`. -/
def trie_node.get_node_key : trie_node V → Int
  | .mk k _ _ => k

/-- `get_value()`. -/
def trie_node.get_value : trie_node V → Option V
  | .mk _ v _ => v

/-- The `_children` set, in its order. -/
def trie_node.children : trie_node V → List (trie_node V)
  | .mk _ _ cs => cs

/-- `get_child(key)`: the first child whose label is `key` (`std::find_if`). -/
def trie_node.get_child (n : trie_node V) (key : Int) : Option (trie_node V) :=
  n.children.find? (fun c => c.get_node_key == key)

/-- `get_children_keys()`. -/
def trie_node.get_children_keys (n : trie_node V) : List Int :=
  n.children.map trie_node.get_node_key

/-- `has_child(child_key)`. -/
def trie_node.has_child (n : trie_node V) (child_key : Int) : Bool :=
  (n.get_child child_key).isSome

/-- `has_children()`. -/
def trie_node.has_children (n : trie_node V) : Bool :=
  n.children.length != 0

/-- Reverse `std::find` followed by `ckey++; return ckey != keys.rend()`, on the
labels listed back to front.  When the label is absent the source increments
`rend()`; the resulting position is not `rend()`, so the comparison is true. -/
def rfind_has_next (child_key : Int) : List Int → Bool
  | [] => true
  | k :: ks => if k == child_key then ks.length != 0 else rfind_has_next child_key ks

/-- `has_previous_child(child_key)`. -/
def trie_node.has_previous_child (n : trie_node V) (child_key : Int) : Bool :=
  if !n.has_children then false
  else rfind_has_next child_key n.get_children_keys.reverse

/-- `assign_value(value)`. -/
def trie_node.assign_value (n : trie_node V) (value : V) : trie_node V :=
  .mk n.get_node_key (some value) n.children

/-- `erase_value()`. -/
def trie_node.erase_value (n : trie_node V) : trie_node V :=
  .mk n.get_node_key none n.children

/-- Removal of the first element labelled `key` from a children list. -/
def erase_first (key : Int) : List (trie_node V) → List (trie_node V)
  | [] => []
  | c :: cs => if c.get_node_key == key then cs else c :: erase_first key cs

/-- `erase_child(key)`: the child found by `get_child` is deleted with its
whole subtree and taken out of the set. -/
def trie_node.erase_child (n : trie_node V) (key : Int) : trie_node V :=
  if n.has_child key then .mk n.get_node_key n.get_value (erase_first key n.children)
  else n

/-- `clear_children()`. -/
def trie_node.clear_children (n : trie_node V) : trie_node V :=
  .mk n.get_node_key n.get_value []

/-- `std::set::insert` under `compare`: the element goes to its place in the
ascending order of labels, and nothing is inserted when an element with an
equivalent label is already there. -/
def set_insert (child : trie_node V) : List (trie_node V) → List (trie_node V)
  | [] => [child]
  | x :: xs =>
    if child.get_node_key < x.get_node_key then child :: x :: xs
    else if x.get_node_key < child.get_node_key then x :: set_insert child xs
    else x :: xs

/-- `insert_child(key, value)`: a fresh node `trie_node(key, value)` is offered
to the children set.  The result is the node after the call together with the
node the returned pointer refers to (always the fresh one). -/
def trie_node.insert_child (n : trie_node V) (key : Int) (value : Option V) :
    trie_node V × trie_node V :=
  (.mk n.get_node_key n.get_value (set_insert (.mk key value []) n.children),
   .mk key value [])

/-! ## Pointers into the tree -/

/-- The node reached from `n` by following the labels of `p`. -/
def trie_node.descend : trie_node V → List Int → Option (trie_node V)
  | n, [] => some n
  | n, c :: p =>
    match n.get_child c with
    | none => none
    | some m => m.descend p

/-- The node a non-null pointer refers to, if it is (still) in the tree. -/
def trie.node_at (t : trie V) (p : List Int) : Option (trie_node V) :=
  t._base_node.descend p

/-- `get_parent()` of the node at `p`: `nullptr` for the root. -/
def parent_ptr : List Int → Option (List Int)
  | [] => none
  | c :: p => some (c :: p).dropLast

/-- The pointer `get_child(key)` returns, called on the node `n` at `p`. -/
def child_ptr (p : List Int) (n : trie_node V) (key : Int) : Option (List Int) :=
  if n.has_child key then some (p ++ [key]) else none

/-- Replacement of the first element labelled `key` by its image under `f`. -/
def replace_child (key : Int) (f : trie_node V → trie_node V) :
    List (trie_node V) → List (trie_node V)
  | [] => []
  | c :: cs => if c.get_node_key == key then f c :: cs else c :: replace_child key f cs

/-- In-place update through a pointer: the node reached by `p` becomes its
image under `f`, the rest of the tree is as before. -/
def trie_node.update_at : trie_node V → List Int → (trie_node V → trie_node V) → trie_node V
  | n, [], f => f n
  | .mk k v cs, c :: p, f => .mk k v (replace_child c (fun m => m.update_at p f) cs)

/-- In-place update of the tree of `t` through the pointer `p`. -/
def trie.update_at (t : trie V) (p : List Int) (f : trie_node V → trie_node V) : trie V :=
  ⟨t._base_node.update_at p f⟩

/-! ## trie.h: the iterator -/

/-- Sequencing of two program fragments. -/
def Res.bind {α β : Type} : Res α → (α → Res β) → Res β
  | .ok a, f => f a
  | .fault, _ => .fault
  | .timeout, _ => .timeout

/-- A `while (cond) body` loop, cut off after `fuel` executions of the body. -/
def while_loop {σ : Type} (cond : σ → Res Bool) (body : σ → Res σ) : Nat → σ → Res σ
  | 0, s => (cond s).bind fun b => if b then .timeout else .ok s
  | fuel + 1, s => (cond s).bind fun b =>
      if b then (body s).bind (while_loop cond body fuel) else .ok s

/-- Forward `std::find` followed by `ckey++` and, when `ckey != keys.end()`, the
read `*ckey`.  When the label is absent `ckey` is `keys.end()` and the increment
leaves the vector. -/
def next_after (current_key : Int) : List Int → Res (Option Int)
  | [] => .fault
  | k :: ks => if k == current_key then .ok ks.head? else next_after current_key ks

/-- Forward `std::find` followed by `*(--ckey)` when `ckey != keys.begin()`;
`prev` is the element before the one under inspection.  When the label is absent
`ckey` is `keys.end()` and `--ckey` is the last element. -/
def prev_before (current_key : Int) : List Int → Option Int → Option Int
  | [], prev => prev
  | k :: ks, prev => if k == current_key then prev else prev_before current_key ks (some k)

/-- `get_next_child(dir)` on the node `n` at `p` (`dir = true` is `forward`). -/
def get_next_child (p : List Int) (n : trie_node V) (dir : Bool) (current_key : Int) :
    Res (Option (List Int)) :=
  let keys := n.get_children_keys
  if current_key == 0 then
    match (if dir then keys.head? else keys.getLast?) with
    | none => .fault
    | some k => .ok (child_ptr p n k)
  else if dir then
    match next_after current_key keys with
    | .ok (some k) => .ok (child_ptr p n k)
    | .ok none => .ok none
    | .fault => .fault
    | .timeout => .timeout
  else
    match prev_before current_key keys none with
    | some k => .ok (child_ptr p n k)
    | none => .ok none

/-- `step(dir)`. -/
def step (t : trie V) (dir : Bool) (it : trie_iterator) : Res trie_iterator :=
  match it._ptr with
  | none => .fault
  | some p =>
    match t.node_at p with
    | none => .fault
    | some n =>
      if n.has_children then
        match get_next_child p n dir it._current_key with
        | .ok (some q) => .ok ⟨some q, 0⟩
        | .ok none => .ok ⟨parent_ptr p, n.get_node_key⟩
        | .fault => .fault
        | .timeout => .timeout
      else .ok ⟨parent_ptr p, n.get_node_key⟩

/-- Loop condition of `operator++`:
`_ptr && (_ptr->get_value() == std::nullopt || _current_key != 0)`. -/
def inc_cond (t : trie V) (it : trie_iterator) : Res Bool :=
  match it._ptr with
  | none => .ok false
  | some p =>
    match t.node_at p with
    | none => .fault
    | some n => .ok (n.get_value.isNone || it._current_key != 0)

/-- Loop condition of `operator--`:
`_ptr && (_ptr->get_value() == std::nullopt || _ptr->has_previous_child(_current_key))`. -/
def dec_cond (t : trie V) (it : trie_iterator) : Res Bool :=
  match it._ptr with
  | none => .ok false
  | some p =>
    match t.node_at p with
    | none => .fault
    | some n => .ok (n.get_value.isNone || n.has_previous_child it._current_key)

/-- `operator++`. -/
def operator_inc (fuel : Nat) (t : trie V) (it : trie_iterator) : Res trie_iterator :=
  (step t true it).bind (while_loop (inc_cond t) (step t true) fuel)

/-- `operator--`. -/
def operator_dec (fuel : Nat) (t : trie V) (it : trie_iterator) : Res trie_iterator :=
  (step t false it).bind (while_loop (dec_cond t) (step t false) fuel)

/-! ## trie.h: the container -/

/-- `trie()`: a root labelled `0` without value, parent or children. -/
def trie.empty_trie : trie V :=
  ⟨.mk 0 none []⟩

/-- `end()`, `cend()`, and the base of `rend()`, `crend()`. -/
def trie_end : trie_iterator :=
  ⟨none, 0⟩

/-- `begin()`, `cbegin()`. -/
def trie.begin_ (fuel : Nat) (t : trie V) : Res trie_iterator :=
  operator_inc fuel t ⟨some [], 0⟩

/-- Loop condition of `rbegin()`: `(*it).has_children()`. -/
def rbegin_cond (t : trie V) (it : trie_iterator) : Res Bool :=
  match it._ptr with
  | none => .fault
  | some p =>
    match t.node_at p with
    | none => .fault
    | some n => .ok n.has_children

/-- `rbegin()`, `crbegin()`: the base position of the reverse iterator. -/
def trie.rbegin (fuel : Nat) (t : trie V) : Res trie_iterator :=
  while_loop (rbegin_cond t) (operator_dec fuel t) fuel ⟨some [], 0⟩

/-- The loop `for (it = start; it != end(); it++)`, with `next` for the increment:
the pointers of the positions the body is run at, in order. -/
def walk (next : trie_iterator → Res trie_iterator) : Nat → trie_iterator → Res (List (List Int))
  | _, ⟨none, _⟩ => .ok []
  | 0, ⟨some _, _⟩ => .timeout
  | fuel + 1, ⟨some p, ck⟩ =>
    (next ⟨some p, ck⟩).bind fun it => (walk next fuel it).bind fun l => .ok (p :: l)

/-- Forward iteration from `begin()` to `end()`. -/
def trie.forward_walk (fuel : Nat) (t : trie V) : Res (List (List Int)) :=
  (t.begin_ fuel).bind (walk (operator_inc fuel t) fuel)

/-- Reverse iteration from `rbegin()` to `rend()`, reading the node at `base()`. -/
def trie.reverse_walk (fuel : Nat) (t : trie V) : Res (List (List Int)) :=
  (t.rbegin fuel).bind (walk (operator_dec fuel t) fuel)

/-- `empty()`. -/
def trie.empty (t : trie V) : Bool :=
  !t._base_node.has_children

/-- `size()`. -/
def trie.size (fuel : Nat) (t : trie V) : Res Nat :=
  (t.forward_walk fuel).bind fun l => .ok l.length

/-- `clear()`. -/
def trie.clear (t : trie V) : trie V :=
  ⟨t._base_node.clear_children⟩

/-- `move_up(current_node)`. -/
def trie.move_up (t : trie V) (current_node : Option (List Int)) : Res (Option (List Int)) :=
  match current_node with
  | none => .ok none
  | some p =>
    match t.node_at p with
    | none => .fault
    | some _ => .ok (parent_ptr p)

/-- `move_down(key, current_node)`. -/
def trie.move_down (t : trie V) (key : Int) (current_node : Option (List Int)) :
    Res (Option (List Int)) :=
  match current_node with
  | none => .ok none
  | some p =>
    match t.node_at p with
    | none => .fault
    | some n => .ok (child_ptr p n key)

/-- `insert_node(current_node, key, value)`: the trie after the call, the
returned pointer and the flag. -/
def trie.insert_node (t : trie V) (current_node : List Int) (key : Int) (value : Option V) :
    Res (trie V × Option (List Int) × Bool) :=
  match t.node_at current_node with
  | none => .fault
  | some n =>
    let t1 := if !n.has_child key then
        t.update_at current_node (fun m => (m.insert_child key value).1)
      else t
    (t1.move_down key (some current_node)).bind fun node_ptr =>
      .ok (t1, node_ptr, !n.has_child key)

/-- The loop of `find`: one `move_down` per character. -/
def find_loop (t : trie V) : List Int → List Int → Res trie_iterator
  | [], current_node => .ok ⟨some current_node, 0⟩
  | c :: rest, current_node =>
    (t.move_down c (some current_node)).bind fun r =>
      match r with
      | none => .ok trie_end
      | some nxt => find_loop t rest nxt

/-- `find(key)`. -/
def trie.find (t : trie V) (key : List Int) : Res trie_iterator :=
  find_loop t key []

/-- `count(key)`. -/
def trie.count (t : trie V) (key : List Int) : Res Nat :=
  (t.find key).bind fun it => if it._ptr = trie_end._ptr then .ok 0 else .ok 1

/-- `contains(key)`. -/
def trie.contains (t : trie V) (key : List Int) : Res Bool :=
  (t.count key).bind fun c => .ok (c != 0)

/-- The first loop of `emplacer`: one `insert_node` without value per character
of the key but the last. -/
def emplacer_walk : trie V → List Int → List Int → Res (trie V × List Int)
  | t, [], current_node => .ok (t, current_node)
  | t, c :: rest, current_node =>
    (t.insert_node current_node c none).bind fun r =>
      match r.2.1 with
      | none => .fault
      | some nxt => emplacer_walk r.1 rest nxt

/-- `emplacer(key, value)`: the trie after the call, the position and the flag. -/
def trie.emplacer [Inhabited V] (t : trie V) (key : List Int) (value : Option V) :
    Res (trie V × trie_iterator × Bool) :=
  match key.getLast? with
  | none => .ok (t, ⟨none, 0⟩, false)
  | some end_char =>
    let value : V := match value with
      | none => default
      | some v => v
    (emplacer_walk t key.dropLast []).bind fun r =>
      let t1 := r.1
      let current_node := r.2
      match t1.node_at current_node with
      | none => .fault
      | some n =>
        if n.has_child end_char then
          let current_node := current_node ++ [end_char]
          match t1.node_at current_node with
          | none => .fault
          | some m =>
            if m.get_value.isNone then
              .ok (t1.update_at current_node (fun x => x.assign_value value),
                   ⟨some current_node, 0⟩, true)
            else .ok (t1, ⟨some current_node, 0⟩, false)
        else
          (t1.insert_node current_node end_char (some value)).bind fun pair =>
            .ok (pair.1, ⟨pair.2.1, 0⟩, pair.2.2)

/-- `insert(key, value)`. -/
def trie.insert [Inhabited V] (t : trie V) (key : List Int) (value : V) :
    Res (trie V × trie_iterator × Bool) :=
  t.emplacer key (some value)

/-- `emplace(args...)`: the arguments are forwarded to `emplacer`. -/
def trie.emplace [Inhabited V] (t : trie V) (key : List Int) (value : Option V) :
    Res (trie V × trie_iterator × Bool) :=
  t.emplacer key value

/-- `insert_or_assign(std::string &&key, _Value &&value)`:
`insert(std::move(key), std::move(value))`, then `assign_value(value)` through the
returned position.  `insert` move-constructs its `std::optional` from `value`, so
the object `assign_value` copies is the moved-from one: `moved_from v` is what an
object that held `v` holds after the move (`v` itself for `int`, the empty string
for `std::string`). -/
def trie.insert_or_assign [Inhabited V] (moved_from : V → V) (t : trie V) (key : List Int)
    (value : V) : Res (trie V × trie_iterator × Bool) :=
  (t.insert key value).bind fun pair =>
    match pair.2.1._ptr with
    | none => .fault
    | some p =>
      match pair.1.node_at p with
      | none => .fault
      | some _ =>
        .ok (pair.1.update_at p (fun x => x.assign_value (moved_from value)), pair.2.1,
          pair.2.2)

/-- Loop condition of `release_path`:
`!current_node->has_children() && current_node->get_value() == std::nullopt`. -/
def release_cond (s : trie V × Option (List Int)) : Res Bool :=
  match s.2 with
  | none => .fault
  | some p =>
    match s.1.node_at p with
    | none => .fault
    | some n => .ok (!n.has_children && n.get_value.isNone)

/-- Loop body of `release_path`: the node is removed from its parent, which
becomes the current node. -/
def release_body (s : trie V × Option (List Int)) : Res (trie V × Option (List Int)) :=
  match s.2 with
  | none => .fault
  | some p =>
    match s.1.node_at p with
    | none => .fault
    | some n =>
      (s.1.move_up (some p)).bind fun up =>
        match up with
        | none => .fault
        | some q => .ok (s.1.update_at q (fun m => m.erase_child n.get_node_key), some q)

/-- `release_path(current_node)`.  Each execution of the body moves one level
up, so the loop body runs at most once per label of the path and once more. -/
def trie.release_path (t : trie V) (current_node : List Int) :
    Res (trie V × Option (List Int)) :=
  while_loop release_cond release_body (current_node.length + 1) (t, some current_node)

/-- `erase_at(pos)`. -/
def trie.erase_at (t : trie V) (pos : trie_iterator) : Res (trie V) :=
  match pos._ptr with
  | none => .fault
  | some p =>
    match t.node_at p with
    | none => .fault
    | some n =>
      (t.move_up (some p)).bind fun up =>
        match up with
        | none => .fault
        | some q =>
          ((t.update_at q (fun m => m.erase_child n.get_node_key)).release_path q).bind
            fun r => .ok r.1

/-- `erase(iterator pos)`: the trie after the call and the returned position. -/
def trie.erase (fuel : Nat) (t : trie V) (pos : trie_iterator) : Res (trie V × trie_iterator) :=
  (operator_inc fuel t pos).bind fun it =>
    (t.erase_at pos).bind fun t1 => .ok (t1, it)

/-- `erase(const std::string &key)`: the trie after the call and the count. -/
def trie.erase_key (t : trie V) (key : List Int) : Res (trie V × Nat) :=
  (t.find key).bind fun it =>
    if it._ptr = trie_end._ptr then .ok (t, 0)
    else (t.erase_at it).bind fun t1 => .ok (t1, 1)

/-- Outcome of a call that may throw `std::out_of_range`. -/
inductive Thrown (α : Type) where
  | returned (a : α) : Thrown α
  | out_of_range : Thrown α

/-- `at(key)`: `std::out_of_range` when `find` returns the null position,
otherwise the value slot of the node `find` reaches. -/
def trie.at_ (t : trie V) (key : List Int) : Res (Thrown (Option V)) :=
  (t.find key).bind fun it =>
    match it._ptr with
    | none => .ok .out_of_range
    | some p =>
      match t.node_at p with
      | none => .fault
      | some n => .ok (.returned n.get_value)

/-- `operator[](std::string &&key)`: when `find` returns the null position the
key is inserted with the value `_Value()`.  The result is the trie after the
call and the pointer to the node whose value slot is returned. -/
def trie.operator_index [Inhabited V] (t : trie V) (key : List Int) :
    Res (trie V × List Int) :=
  (t.find key).bind fun it =>
    match it._ptr with
    | some p =>
      match t.node_at p with
      | none => .fault
      | some _ => .ok (t, p)
    | none =>
      (t.insert key default).bind fun r =>
        match r.2.1._ptr with
        | none => .fault
        | some p =>
          match r.1.node_at p with
          | none => .fault
          | some _ => .ok (r.1, p)

/-- The statement `t[key] = value`: the slot `operator[]` returns is assigned
the value. -/
def trie.index_assign [Inhabited V] (t : trie V) (key : List Int) (value : V) :
    Res (trie V) :=
  (t.operator_index key).bind fun r =>
    .ok (r.1.update_at r.2 (fun x => x.assign_value value))

/-- Loop condition of `get_key`: `current_node != nullptr`. -/
def get_key_cond (s : Option (List Int) × List Int) : Res Bool :=
  .ok s.1.isSome

/-- Loop body of `get_key`: the label of the current node is put in front of
the key, and the parent becomes the current node. -/
def get_key_body (t : trie V) (s : Option (List Int) × List Int) :
    Res (Option (List Int) × List Int) :=
  match s.1 with
  | none => .fault
  | some p =>
    match t.node_at p with
    | none => .fault
    | some n => .ok (parent_ptr p, n.get_node_key :: s.2)

/-- `get_key()` of the node at `p`.  Each execution of the body moves one level
up, so the body runs at most once per label of the path and once more. -/
def trie.get_key (t : trie V) (p : List Int) : Res (List Int) :=
  (while_loop get_key_cond (get_key_body t) (p.length + 1) (some p, [])).bind
    fun s => .ok s.2

/-! ## The copy constructors, on a memory of node objects

To speak of which object a parent pointer refers to, the copy is embedded over
an explicit memory: a list of node objects, the address of an object being its
index, and `new` taking the next index. -/

/-- A node object in memory: the four data members, pointers being addresses. -/
structure node_cell (V : Type) where
  _key : Int
  _value : Option V
  _parent : Option Nat
  _children : List Nat

/-- The label of the object at an address (`0` when there is none). -/
def cell_key (mem : List (node_cell V)) (a : Nat) : Int :=
  match mem[a]? with
  | some c => c._key
  | none => 0

/-- `std::set::insert` on a set of node pointers under `compare`. -/
def addr_set_insert (key : Nat → Int) (a : Nat) : List Nat → List Nat
  | [] => [a]
  | x :: xs =>
    if key a < key x then a :: x :: xs
    else if key x < key a then x :: addr_set_insert key a xs
    else x :: xs

/-- `std::set::find` under `compare`: the element whose label is equivalent to
`k`, if there is one. -/
def addr_set_find (key : Nat → Int) (k : Int) : List Nat → Option Nat
  | [] => none
  | x :: xs => if key x == k then some x else addr_set_find key k xs

/-- Replacement of the object at address `a` by its image under `f`. -/
def update_cell (mem : List (node_cell V)) (a : Nat) (f : node_cell V → node_cell V) :
    List (node_cell V) :=
  match mem[a]? with
  | some c => mem.set a (f c)
  | none => mem

mutual
/-- `new trie_node<_Value>(other_node)`: the object is allocated at the next
address and built by the copy constructor from `other_node`, which is given by
its ownership tree.  The result is the address and the memory after the call. -/
def copy_node : trie_node V → List (node_cell V) → Res (Nat × List (node_cell V))
  | .mk k v cs, mem =>
    (copy_children cs mem.length (mem ++ [⟨k, v, none, []⟩])).bind fun mem1 =>
      .ok (mem.length, mem1)
/-- The loop of the copy constructor over the children of `other_node`: each
child is copied, the copy is put in the `_children` set of `this`, and the
element of the set found for the child gets `this` as parent. -/
def copy_children : List (trie_node V) → Nat → List (node_cell V) → Res (List (node_cell V))
  | [], _, mem => .ok mem
  | c :: cs, this, mem =>
    (copy_node c mem).bind fun r =>
      let mem2 := update_cell r.2 this
        (fun x => { x with _children := addr_set_insert (cell_key r.2) r.1 x._children })
      match mem2[this]? with
      | none => .fault
      | some x =>
        match addr_set_find (cell_key mem2) c.get_node_key x._children with
        | none => .fault
        | some b =>
          copy_children cs this (update_cell mem2 b (fun y => { y with _parent := some this }))
end

/-- `trie(const trie &other_trie)`: the address of the new root and the memory
after the call. -/
def trie.copy (other_trie : trie V) (mem : List (node_cell V)) :
    Res (Nat × List (node_cell V)) :=
  copy_node other_trie._base_node mem

/-- `get_child(key)` called on the object at address `a`. -/
def cell_get_child (mem : List (node_cell V)) (a : Nat) (key : Int) : Option Nat :=
  match mem[a]? with
  | none => none
  | some c => addr_set_find (cell_key mem) key c._children

/-- The loop of `find` run on the objects in memory from the root object at `a`:
the address of the node of `key`, if there is one. -/
def cell_find (mem : List (node_cell V)) : Nat → List Int → Option Nat
  | a, [] => some a
  | a, k :: ks =>
    match cell_get_child mem a k with
    | none => none
    | some b => cell_find mem b ks

/-- The value member of the node `find` reaches for `key` in the trie whose root
object is at `a`; `none` when `find` reaches no node. -/
def cell_lookup (mem : List (node_cell V)) (a : Nat) (key : List Int) : Option (Option V) :=
  (cell_find mem a key).bind fun b => mem[b]?.map fun c => c._value

/-- `t[key] = value` on the objects in memory for a key that has a node: `find`
gives the node and its value member is assigned.  The result is `none` when the
key has no node. -/
def cell_index_assign (mem : List (node_cell V)) (a : Nat) (key : List Int) (value : V) :
    Option (List (node_cell V)) :=
  (cell_find mem a key).map fun b => update_cell mem b (fun c => { c with _value := some value })

/-- `insert_child(key, value)` called on the object at `this`, on the memory:
`new trie_node(key, value)` takes the next address with a null parent, then
`insert_child(child)` sets the parent of the new object to `this`, offers it to
the `_children` set of `this` and returns it. -/
def cell_insert_child (mem : List (node_cell V)) (this : Nat) (key : Int) (value : Option V) :
    Res (Nat × List (node_cell V)) :=
  match mem[this]? with
  | none => .fault
  | some _ =>
    let child := mem.length
    let mem1 := mem ++ [⟨key, value, none, []⟩]
    let mem2 := update_cell mem1 child (fun y => { y with _parent := some this })
    .ok (child, update_cell mem2 this
      (fun x => { x with _children := addr_set_insert (cell_key mem2) child x._children }))

/-! ## Notions used by the statements -/

/-- The value and the labels of the children of a node. -/
def node_info (n : trie_node V) : Option V × List Int :=
  (n.get_value, n.get_children_keys)

/-- Value and children labels of the node at `p`, if there is one. -/
def trie.info_at (t : trie V) (p : List Int) : Option (Option V × List Int) :=
  (t.node_at p).map node_info

/-- The value the trie holds for `key`: that of the node at path `key`, if the
node exists and carries one. -/
def trie.value_of (t : trie V) (key : List Int) : Option V :=
  (t.node_at key).bind trie_node.get_value

/-- The children of every node are in strictly ascending order of label. -/
def trie.Sorted (t : trie V) : Prop :=
  ∀ r v ks, t.info_at r = some (v, ks) → ks.Pairwise (· < ·)

/-- No edge of the tree is labelled `'\0'`. -/
def trie.NonZero (t : trie V) : Prop :=
  ∀ r v ks, t.info_at r = some (v, ks) → (0 : Int) ∉ ks

/-- The node at `r`, if there is one, carries a value or has a child. -/
def trie.Alive (t : trie V) (r : List Int) : Prop :=
  ∀ v ks, t.info_at r = some (v, ks) → v.isSome = true ∨ ks ≠ []

/-- Every non-root node carries a value or has a child. -/
def trie.NoDangling (t : trie V) : Prop :=
  ∀ r, r ≠ [] → t.Alive r

/-- The tries the public modifiers produce from the empty trie: `insert`,
`emplace`, `insert_or_assign`, `erase(key)` and `erase(position)`, each with
arbitrary arguments, whenever the call returns. -/
inductive Reachable [Inhabited V] : trie V → Prop where
  | empty : Reachable trie.empty_trie
  | insert {t t1 : trie V} {k : List Int} {v : V} {it : trie_iterator} {b : Bool} :
      Reachable t → t.insert k v = .ok (t1, it, b) → Reachable t1
  | emplace {t t1 : trie V} {k : List Int} {v : Option V} {it : trie_iterator} {b : Bool} :
      Reachable t → t.emplace k v = .ok (t1, it, b) → Reachable t1
  | insert_or_assign {moved_from : V → V} {t t1 : trie V} {k : List Int} {v : V}
      {it : trie_iterator} {b : Bool} :
      Reachable t → t.insert_or_assign moved_from k v = .ok (t1, it, b) → Reachable t1
  | erase_key {t t1 : trie V} {k : List Int} {c : Nat} :
      Reachable t → t.erase_key k = .ok (t1, c) → Reachable t1
  | erase {t t1 : trie V} {fuel : Nat} {pos it : trie_iterator} :
      Reachable t → t.erase fuel pos = .ok (t1, it) → Reachable t1

/-- A run of `body`: the states passed through from `s` (included) to `e`
(excluded). -/
inductive Trace {σ : Type} (body : σ → Res σ) : σ → List σ → σ → Prop where
  | nil (s : σ) : Trace body s [] s
  | cons {s s1 e : σ} {L : List σ} :
      body s = .ok s1 → Trace body s1 L e → Trace body s (s :: L) e

/-- The pointers of the states of a run at which an increment or decrement
comes to rest. -/
def visited (stop : trie_iterator → Bool) (L : List trie_iterator) : List (List Int) :=
  L.filterMap (fun x => if stop x then x._ptr else none)

/-- The state in which `operator++` comes to rest: past the end, or freshly
arrived at a node that carries a value. -/
def stop_inc (t : trie V) (it : trie_iterator) : Bool :=
  match it._ptr with
  | none => true
  | some p => (t.value_of p).isSome && it._current_key == 0

/-- The state in which `operator--` comes to rest: past the end, or at a node
that carries a value with no previous child left to enter. -/
def stop_dec (t : trie V) (it : trie_iterator) : Bool :=
  match it._ptr with
  | none => true
  | some p =>
    match t.node_at p with
    | none => true
    | some n => n.get_value.isSome && !n.has_previous_child it._current_key

/-- The position reached by leaving the node `n` at `p` upwards. -/
def up_state (p : List Int) (n : trie_node V) : trie_iterator :=
  ⟨parent_ptr p, n.get_node_key⟩

/-- Every state of the run points at a node of the tree. -/
def trie.ValidRun (t : trie V) (L : List trie_iterator) : Prop :=
  ∀ x ∈ L, ∃ q m, x._ptr = some q ∧ t.node_at q = some m

/-- The list `W` holds exactly the keys with a value at or below `p`, in
strictly ascending lexicographic order. -/
def trie.AscendingBelow (t : trie V) (p : List Int) (W : List (List Int)) : Prop :=
  W.Pairwise (List.Lex (· < ·)) ∧ ∀ x, x ∈ W ↔ (p <+: x ∧ (t.value_of x).isSome = true)

/-- The list `W` holds exactly the keys with a value at or below `p`, in
strictly descending lexicographic order. -/
def trie.DescendingBelow (t : trie V) (p : List Int) (W : List (List Int)) : Prop :=
  W.Pairwise (fun a b => List.Lex (· < ·) b a) ∧
    ∀ x, x ∈ W ↔ (p <+: x ∧ (t.value_of x).isSome = true)

/-- A sequence of `insert` calls, one per pair of the list, in order. -/
def trie.insert_all [Inhabited V] : trie V → List (List Int × V) → Res (trie V)
  | t, [] => .ok t
  | t, kv :: rest => (t.insert kv.1 kv.2).bind fun r => trie.insert_all r.1 rest

/-- The trie `test.cpp` builds: a:1, ab:2, ac:3, ad:4, e:5, f:6, fg:7
(`'a'` is 97). -/
def scenario : trie Nat :=
  ⟨.mk 0 none
    [.mk 97 (some 1) [.mk 98 (some 2) [], .mk 99 (some 3) [], .mk 100 (some 4) []],
     .mk 101 (some 5) [],
     .mk 102 (some 6) [.mk 103 (some 7) []]]⟩

mutual
/-- The object at address `a` and the objects it owns lie at addresses from `lo`
up to `hi`, each child above its parent, and form the tree `n`: same labels,
values and children in the same order, the parent pointer of the object being
`par` and that of every child the address of the object that owns it. -/
def represents (mem : List (node_cell V)) (hi : Nat) :
    Nat → Option Nat → Nat → trie_node V → Prop
  | lo, par, a, .mk k v cs =>
    lo ≤ a ∧ a < hi ∧ ∃ c, mem[a]? = some c ∧ c._key = k ∧ c._value = v ∧ c._parent = par ∧
      represents_all mem hi (a + 1) (some a) c._children cs
/-- The objects at the addresses `as` form the trees `ns`, one by one. -/
def represents_all (mem : List (node_cell V)) (hi : Nat) :
    Nat → Option Nat → List Nat → List (trie_node V) → Prop
  | _, _, [], [] => True
  | lo, par, a :: as, n :: ns =>
    represents mem hi lo par a n ∧ represents_all mem hi lo par as ns
  | _, _, _ :: _, [] => False
  | _, _, [], _ :: _ => False
end

/-! ## Sequencing -/

theorem Res.ok_bind {α β : Type} (a : α) (f : α → Res β) : (Res.ok a).bind f = f a := rfl

theorem Res.fault_bind {α β : Type} (f : α → Res β) : (Res.fault : Res α).bind f = .fault := rfl

theorem Res.timeout_bind {α β : Type} (f : α → Res β) :
    (Res.timeout : Res α).bind f = .timeout := rfl

/-! ## Pointers and in-place updates -/

theorem get_child_key {n m : trie_node V} {c : Int} (h : n.get_child c = some m) :
    m.get_node_key = c := by
  have h1 := List.find?_some h
  simpa using h1

theorem get_child_mem {n m : trie_node V} {c : Int} (h : n.get_child c = some m) :
    m ∈ n.children :=
  List.mem_of_find?_eq_some h

theorem has_child_iff_mem_keys (n : trie_node V) (c : Int) :
    n.has_child c = true ↔ c ∈ n.get_children_keys := by
  unfold trie_node.has_child trie_node.get_child trie_node.get_children_keys
  rw [List.find?_isSome]
  simp

theorem descend_nil (n : trie_node V) : n.descend [] = some n := rfl

theorem descend_cons (n : trie_node V) (c : Int) (p : List Int) :
    n.descend (c :: p) = (n.get_child c).bind (fun m => m.descend p) := by
  simp only [trie_node.descend]
  cases n.get_child c <;> rfl

theorem descend_append (n : trie_node V) (p q : List Int) :
    n.descend (p ++ q) = (n.descend p).bind (fun m => m.descend q) := by
  induction p generalizing n with
  | nil => simp [descend_nil]
  | cons c p ih =>
    simp only [List.cons_append, descend_cons]
    cases n.get_child c <;> simp [ih]

theorem descend_snoc_key {n m : trie_node V} {p : List Int} {c : Int}
    (h : n.descend (p ++ [c]) = some m) : m.get_node_key = c := by
  rw [descend_append] at h
  cases hp : n.descend p with
  | none => simp [hp] at h
  | some x =>
    simp only [hp, Option.some_bind, descend_cons, descend_nil] at h
    cases hx : x.get_child c with
    | none => simp [hx] at h
    | some y =>
      simp only [hx, Option.some_bind, Option.some.injEq] at h
      subst h
      exact get_child_key hx

theorem find_replace_child (g : trie_node V → trie_node V)
    (hg : ∀ m, (g m).get_node_key = m.get_node_key) (c c2 : Int) (cs : List (trie_node V)) :
    (replace_child c g cs).find? (fun x => x.get_node_key == c2) =
      if c2 = c then (cs.find? (fun x => x.get_node_key == c)).map g
      else cs.find? (fun x => x.get_node_key == c2) := by
  induction cs with
  | nil => simp [replace_child]
  | cons x xs ih =>
    by_cases hx : x.get_node_key = c
    · by_cases h2 : c2 = c
      · simp [replace_child, hx, h2, hg]
      · have h3 : ¬ c = c2 := fun h => h2 h.symm
        simp [replace_child, hx, h2, hg, h3]
    · by_cases h2 : c2 = c
      · subst h2
        simp [replace_child, hx, ih]
      · by_cases h4 : x.get_node_key = c2
        · simp [replace_child, hx, h2, h4]
        · simp [replace_child, hx, h2, h4, ih]

theorem keys_replace_child (g : trie_node V → trie_node V)
    (hg : ∀ m, (g m).get_node_key = m.get_node_key) (c : Int) (cs : List (trie_node V)) :
    (replace_child c g cs).map trie_node.get_node_key = cs.map trie_node.get_node_key := by
  induction cs with
  | nil => rfl
  | cons x xs ih =>
    by_cases hx : x.get_node_key = c
    · simp [replace_child, hx, hg]
    · simp [replace_child, hx, ih]

theorem update_at_key (f : trie_node V → trie_node V)
    (hf : ∀ m, (f m).get_node_key = m.get_node_key) (n : trie_node V) (p : List Int) :
    (n.update_at p f).get_node_key = n.get_node_key := by
  cases p with
  | nil => simp [trie_node.update_at, hf]
  | cons c p => cases n; rfl

theorem update_at_cons_value (f : trie_node V → trie_node V) (n : trie_node V) (c : Int)
    (p : List Int) : (n.update_at (c :: p) f).get_value = n.get_value := by
  cases n; rfl

theorem update_at_cons_keys (f : trie_node V → trie_node V)
    (hf : ∀ m, (f m).get_node_key = m.get_node_key) (n : trie_node V) (c : Int)
    (p : List Int) : (n.update_at (c :: p) f).get_children_keys = n.get_children_keys := by
  cases n with
  | mk k v cs =>
    simp only [trie_node.update_at, trie_node.get_children_keys, trie_node.children]
    exact keys_replace_child _ (fun m => update_at_key f hf m p) c cs

theorem get_child_update_at_cons (f : trie_node V → trie_node V)
    (hf : ∀ m, (f m).get_node_key = m.get_node_key) (n : trie_node V) (c c2 : Int)
    (p : List Int) :
    (n.update_at (c :: p) f).get_child c2 =
      if c2 = c then (n.get_child c).map (fun m => m.update_at p f) else n.get_child c2 := by
  cases n with
  | mk k v cs =>
    simp only [trie_node.update_at, trie_node.get_child, trie_node.children]
    exact find_replace_child _ (fun m => update_at_key f hf m p) c c2 cs

/-- Below the updated pointer the tree is the image of the old node. -/
theorem descend_update_at_below (f : trie_node V → trie_node V)
    (hf : ∀ m, (f m).get_node_key = m.get_node_key) (n : trie_node V) (p s : List Int) :
    (n.update_at p f).descend (p ++ s) = (n.descend p).bind (fun m => (f m).descend s) := by
  induction p generalizing n with
  | nil => simp [trie_node.update_at, descend_nil]
  | cons c p ih =>
    simp only [List.cons_append, descend_cons, get_child_update_at_cons f hf, if_true]
    cases n.get_child c with
    | none => rfl
    | some m => simpa using ih m

theorem descend_update_at_off (f : trie_node V → trie_node V)
    (hf : ∀ m, (f m).get_node_key = m.get_node_key) (n : trie_node V) (p r : List Int)
    (h : ¬ p <+: r) :
    ((n.update_at p f).descend r).map node_info = (n.descend r).map node_info := by
  induction p generalizing n r with
  | nil => exact absurd (List.nil_prefix) h
  | cons c p ih =>
    cases r with
    | nil =>
      simp [descend_nil, node_info, update_at_cons_value, update_at_cons_keys f hf]
    | cons c2 r =>
      simp only [descend_cons, get_child_update_at_cons f hf]
      by_cases h2 : c2 = c
      · subst h2
        have h3 : ¬ p <+: r := by
          intro hp
          exact h ((List.prefix_cons_inj c2).2 hp)
        simp only [if_true]
        cases n.get_child c2 with
        | none => rfl
        | some m => simpa using ih m r h3
      · simp [h2]

theorem descend_update_at_diverge (f : trie_node V → trie_node V)
    (hf : ∀ m, (f m).get_node_key = m.get_node_key) (n : trie_node V) (u s1 s2 : List Int)
    (a b : Int) (hab : a ≠ b) :
    (n.update_at (u ++ a :: s1) f).descend (u ++ b :: s2) = n.descend (u ++ b :: s2) := by
  induction u generalizing n with
  | nil =>
    have hba : ¬ b = a := fun h => hab h.symm
    simp only [List.nil_append, descend_cons, get_child_update_at_cons f hf, hba, if_false]
  | cons c u ih =>
    simp only [List.cons_append, descend_cons, get_child_update_at_cons f hf, if_true]
    cases n.get_child c with
    | none => rfl
    | some m => simpa using ih m

/-! ## The children set -/

theorem find_set_insert (new : trie_node V) (cs : List (trie_node V))
    (h : new.get_node_key ∉ cs.map trie_node.get_node_key) (c2 : Int) :
    (set_insert new cs).find? (fun x => x.get_node_key == c2) =
      if c2 = new.get_node_key then some new
      else cs.find? (fun x => x.get_node_key == c2) := by
  induction cs with
  | nil =>
    by_cases h2 : c2 = new.get_node_key
    · simp [set_insert, h2]
    · have h3 : ¬ new.get_node_key = c2 := fun e => h2 e.symm
      simp [set_insert, h2, h3]
  | cons x xs ih =>
    simp only [List.map_cons, List.mem_cons, not_or] at h
    obtain ⟨hx, hxs⟩ := h
    have ih := ih hxs
    unfold set_insert
    by_cases h1 : new.get_node_key < x.get_node_key
    · rw [if_pos h1]
      by_cases h2 : c2 = new.get_node_key
      · simp [h2]
      · have h3 : ¬ new.get_node_key = c2 := fun e => h2 e.symm
        simp [h2, h3]
    · have h4 : x.get_node_key < new.get_node_key := by omega
      rw [if_neg h1, if_pos h4]
      by_cases h5 : x.get_node_key = c2
      · have h2 : ¬ c2 = new.get_node_key := by omega
        have hb : (x.get_node_key == c2) = true := by simpa using h5
        simp only [List.find?_cons, hb, if_neg h2]
      · have hb : (x.get_node_key == c2) = false := by simpa using h5
        simp only [List.find?_cons, hb, ih]

theorem mem_keys_set_insert (new : trie_node V) (cs : List (trie_node V)) (x : Int) :
    x ∈ (set_insert new cs).map trie_node.get_node_key ↔
      x = new.get_node_key ∨ x ∈ cs.map trie_node.get_node_key := by
  induction cs with
  | nil => simp [set_insert]
  | cons y ys ih =>
    unfold set_insert
    by_cases h1 : new.get_node_key < y.get_node_key
    · rw [if_pos h1]
      simp
    · rw [if_neg h1]
      by_cases h4 : y.get_node_key < new.get_node_key
      · rw [if_pos h4]
        simp only [List.map_cons, List.mem_cons, ih]
        tauto
      · rw [if_neg h4]
        have h5 : new.get_node_key = y.get_node_key := by omega
        simp only [List.map_cons, List.mem_cons]
        constructor
        · intro hx
          exact Or.inr hx
        · intro hx
          rcases hx with hx | hx
          · exact Or.inl (hx.trans h5)
          · exact hx

theorem pairwise_keys_set_insert (new : trie_node V) (cs : List (trie_node V))
    (h : (cs.map trie_node.get_node_key).Pairwise (· < ·)) :
    ((set_insert new cs).map trie_node.get_node_key).Pairwise (· < ·) := by
  induction cs with
  | nil => simp [set_insert]
  | cons y ys ih =>
    simp only [List.map_cons, List.pairwise_cons] at h
    obtain ⟨hy, hys⟩ := h
    unfold set_insert
    by_cases h1 : new.get_node_key < y.get_node_key
    · simp only [h1, if_true, List.map_cons, List.pairwise_cons, List.mem_cons]
      refine ⟨?_, hy, hys⟩
      intro a ha
      rcases ha with ha | ha
      · omega
      · have := hy a ha
        omega
    · by_cases h4 : y.get_node_key < new.get_node_key
      · simp only [h1, h4, if_true, if_false, List.map_cons, List.pairwise_cons]
        refine ⟨?_, ih hys⟩
        intro a ha
        rcases (mem_keys_set_insert new ys a).1 ha with ha | ha
        · omega
        · exact hy a ha
      · simp only [h1, h4, if_false, List.map_cons, List.pairwise_cons]
        exact ⟨hy, hys⟩

theorem find_erase_first_ne (k c2 : Int) (h : c2 ≠ k) (cs : List (trie_node V)) :
    (erase_first k cs).find? (fun x => x.get_node_key == c2) =
      cs.find? (fun x => x.get_node_key == c2) := by
  induction cs with
  | nil => rfl
  | cons y ys ih =>
    unfold erase_first
    by_cases h1 : y.get_node_key = k
    · have hb : (y.get_node_key == c2) = false := by
        have : ¬ y.get_node_key = c2 := fun e => h (e.symm.trans h1)
        simpa using this
      have hk : (y.get_node_key == k) = true := by simpa using h1
      simp only [hk, if_true, List.find?_cons, hb]
    · have hk : (y.get_node_key == k) = false := by simpa using h1
      simp only [hk, Bool.false_eq_true, if_false, List.find?_cons, ih]

theorem keys_erase_first (k : Int) (cs : List (trie_node V)) :
    (erase_first k cs).map trie_node.get_node_key = (cs.map trie_node.get_node_key).erase k := by
  induction cs with
  | nil => rfl
  | cons y ys ih =>
    unfold erase_first
    by_cases h1 : y.get_node_key = k
    · simp [h1]
    · have h2 : ¬ (y.get_node_key == k) = true := by simpa using h1
      simp [h1, ih, List.erase_cons, h2]

theorem find_erase_first_self (k : Int) (cs : List (trie_node V))
    (h : (cs.map trie_node.get_node_key).Pairwise (· < ·)) :
    (erase_first k cs).find? (fun x => x.get_node_key == k) = none := by
  rw [List.find?_eq_none]
  intro x hx
  have hx2 : x.get_node_key ∈ (erase_first k cs).map trie_node.get_node_key :=
    List.mem_map_of_mem _ hx
  rw [keys_erase_first] at hx2
  have hnd : (cs.map trie_node.get_node_key).Nodup := h.imp (fun h => by omega)
  have := (List.Nodup.mem_erase_iff hnd).1 hx2
  simpa using this.1

/-! ## Effect of the node modifiers, seen through pointers -/

theorem insert_child_key (n : trie_node V) (c : Int) (val : Option V) :
    (n.insert_child c val).1.get_node_key = n.get_node_key := rfl

theorem assign_value_key (n : trie_node V) (v : V) :
    (n.assign_value v).get_node_key = n.get_node_key := rfl

theorem erase_child_key (n : trie_node V) (k : Int) :
    (n.erase_child k).get_node_key = n.get_node_key := by
  unfold trie_node.erase_child
  split <;> rfl

theorem node_at_append (t : trie V) (p s : List Int) :
    t.node_at (p ++ s) = (t.node_at p).bind (fun m => m.descend s) :=
  descend_append _ p s

theorem node_at_update_below (t : trie V) (f : trie_node V → trie_node V)
    (hf : ∀ m, (f m).get_node_key = m.get_node_key) (p s : List Int) (n : trie_node V)
    (hn : t.node_at p = some n) :
    (t.update_at p f).node_at (p ++ s) = (f n).descend s := by
  unfold trie.node_at at hn
  simp only [trie.node_at, trie.update_at, descend_update_at_below f hf, hn, Option.some_bind]

theorem info_at_update_off (t : trie V) (f : trie_node V → trie_node V)
    (hf : ∀ m, (f m).get_node_key = m.get_node_key) (p r : List Int) (h : ¬ p <+: r) :
    (t.update_at p f).info_at r = t.info_at r :=
  descend_update_at_off f hf _ p r h

theorem get_child_insert_child (n : trie_node V) (c : Int) (val : Option V)
    (h : n.has_child c = false) (c2 : Int) :
    (n.insert_child c val).1.get_child c2 =
      if c2 = c then some (.mk c val []) else n.get_child c2 := by
  have hk : (trie_node.mk c val ([] : List (trie_node V))).get_node_key ∉
      n.children.map trie_node.get_node_key := by
    intro hm
    have := (has_child_iff_mem_keys n c).2 hm
    rw [h] at this
    exact Bool.noConfusion this
  exact find_set_insert _ _ hk c2

theorem descend_leaf_cons (c : Int) (val : Option V) (d : Int) (s : List Int) :
    (trie_node.mk c val ([] : List (trie_node V))).descend (d :: s) = none := rfl

theorem get_child_assign_value (n : trie_node V) (v : V) (c2 : Int) :
    (n.assign_value v).get_child c2 = n.get_child c2 := rfl

theorem get_child_erase_child_ne (n : trie_node V) (k c2 : Int) (h : c2 ≠ k) :
    (n.erase_child k).get_child c2 = n.get_child c2 := by
  unfold trie_node.erase_child
  split
  · exact find_erase_first_ne k c2 h n.children
  · rfl

theorem get_child_erase_child_self (n : trie_node V) (k : Int)
    (h : n.get_children_keys.Pairwise (· < ·)) :
    (n.erase_child k).get_child k = none := by
  unfold trie_node.erase_child
  split
  · exact find_erase_first_self k n.children h
  · rename_i hc
    have : n.has_child k = false := by simpa using hc
    unfold trie_node.has_child at this
    simpa using this

theorem keys_erase_child (n : trie_node V) (k : Int) :
    (n.erase_child k).get_children_keys = n.get_children_keys.erase k := by
  unfold trie_node.erase_child
  split
  · exact keys_erase_first k n.children
  · rename_i hc
    have hk : k ∉ n.get_children_keys := fun hm => hc ((has_child_iff_mem_keys n k).2 hm)
    exact (List.erase_of_not_mem hk).symm

theorem value_erase_child (n : trie_node V) (k : Int) :
    (n.erase_child k).get_value = n.get_value := by
  unfold trie_node.erase_child
  split <;> rfl

/-- Effect of a first insertion of a child labelled `c` under the node at `cur`. -/
theorem info_at_insert_child (t : trie V) (cur : List Int) (n : trie_node V)
    (hn : t.node_at cur = some n) (c : Int) (val : Option V) (h : n.has_child c = false)
    (r : List Int) :
    (t.update_at cur (fun m => (m.insert_child c val).1)).info_at r =
      if r = cur ++ [c] then some (val, [])
      else if r = cur then
        some (n.get_value, (n.insert_child c val).1.get_children_keys)
      else t.info_at r := by
  have hf : ∀ m : trie_node V, (m.insert_child c val).1.get_node_key = m.get_node_key :=
    fun m => rfl
  by_cases hp : cur <+: r
  · obtain ⟨s, rfl⟩ := hp
    unfold trie.info_at
    rw [node_at_update_below t _ hf cur s n hn, node_at_append, hn, Option.some_bind]
    cases s with
    | nil =>
      have hv : (n.insert_child c val).1.get_value = n.get_value := rfl
      simp [descend_nil, node_info, hv]
    | cons c2 s =>
      rw [descend_cons, descend_cons, get_child_insert_child n c val h]
      by_cases h2 : c2 = c
      · subst h2
        have hg : n.get_child c2 = none := by
          unfold trie_node.has_child at h
          simpa using h
        cases s with
        | nil => simp [descend_nil, node_info, trie_node.get_value, trie_node.get_children_keys,
            trie_node.children]
        | cons d s => simp [descend_leaf_cons, hg]
      · simp [h2]
  · have h1 : r ≠ cur ++ [c] := by
      intro e
      exact hp ⟨[c], e.symm⟩
    have h2 : r ≠ cur := by
      intro e
      exact hp ⟨[], by simp [e]⟩
    rw [info_at_update_off t _ hf cur r hp, if_neg h1, if_neg h2]

/-- Effect of `assign_value` through the pointer `p`. -/
theorem info_at_assign_value (t : trie V) (p : List Int) (n : trie_node V)
    (hn : t.node_at p = some n) (v : V) (r : List Int) :
    (t.update_at p (fun m => m.assign_value v)).info_at r =
      if r = p then some (some v, n.get_children_keys) else t.info_at r := by
  have hf : ∀ m : trie_node V, (m.assign_value v).get_node_key = m.get_node_key :=
    fun m => rfl
  by_cases hp : p <+: r
  · obtain ⟨s, rfl⟩ := hp
    unfold trie.info_at
    rw [node_at_update_below t _ hf p s n hn, node_at_append, hn, Option.some_bind]
    cases s with
    | nil =>
      simp only [descend_nil, node_info, List.append_nil, if_true, Option.map_some']
      rfl
    | cons c2 s =>
      rw [descend_cons, descend_cons, get_child_assign_value]
      simp
  · have h2 : r ≠ p := by
      intro e
      exact hp ⟨[], by simp [e]⟩
    rw [info_at_update_off t _ hf p r hp, if_neg h2]

/-- Effect of `erase_child(k)` through the pointer `q`. -/
theorem info_at_erase_child (t : trie V) (q : List Int) (n : trie_node V)
    (hn : t.node_at q = some n) (k : Int) (hs : n.get_children_keys.Pairwise (· < ·))
    (r : List Int) :
    (t.update_at q (fun m => m.erase_child k)).info_at r =
      if q ++ [k] <+: r then none
      else if r = q then some (n.get_value, n.get_children_keys.erase k)
      else t.info_at r := by
  have hf : ∀ m : trie_node V, (m.erase_child k).get_node_key = m.get_node_key :=
    fun m => erase_child_key m k
  by_cases hp : q <+: r
  · obtain ⟨s, rfl⟩ := hp
    unfold trie.info_at
    rw [node_at_update_below t _ hf q s n hn, node_at_append, hn, Option.some_bind]
    cases s with
    | nil =>
      have h1 : ¬ q ++ [k] <+: q ++ [] := by
        intro hpre
        have := hpre.length_le
        simp at this
      rw [if_neg h1]
      simp [descend_nil, node_info, keys_erase_child, value_erase_child]
    | cons c2 s =>
      rw [descend_cons, descend_cons]
      by_cases h2 : c2 = k
      · subst h2
        have h1 : q ++ [c2] <+: q ++ c2 :: s := ⟨s, by simp⟩
        rw [if_pos h1, get_child_erase_child_self n c2 hs]
        rfl
      · have h1 : ¬ q ++ [k] <+: q ++ c2 :: s := by
          intro hpre
          rw [List.prefix_append_right_inj] at hpre
          have := List.cons_prefix_cons.1 hpre
          exact h2 this.1.symm
        rw [if_neg h1, get_child_erase_child_ne n k c2 h2]
        simp
  · have h1 : ¬ q ++ [k] <+: r := by
      intro hpre
      exact hp ((List.prefix_append q [k]).trans hpre)
    have h2 : r ≠ q := by
      intro e
      exact hp ⟨[], by simp [e]⟩
    rw [info_at_update_off t _ hf q r hp, if_neg h1, if_neg h2]

/-! ## insert_node, find and emplacer -/

theorem value_of_eq_info (t : trie V) (r : List Int) :
    t.value_of r = (t.info_at r).bind (fun i => i.1) := by
  unfold trie.value_of trie.info_at
  cases t.node_at r <;> rfl

theorem info_at_of_node (t : trie V) (r : List Int) (n : trie_node V)
    (h : t.node_at r = some n) : t.info_at r = some (n.get_value, n.get_children_keys) := by
  unfold trie.info_at
  rw [h]
  rfl

theorem node_of_info_at (t : trie V) (r : List Int) (v : Option V) (ks : List Int)
    (h : t.info_at r = some (v, ks)) :
    ∃ n, t.node_at r = some n ∧ n.get_value = v ∧ n.get_children_keys = ks := by
  unfold trie.info_at at h
  cases hn : t.node_at r with
  | none => simp [hn] at h
  | some n =>
    simp only [hn, Option.map_some', node_info, Option.some.injEq, Prod.mk.injEq] at h
    exact ⟨n, rfl, h.1, h.2⟩

theorem info_at_none_iff (t : trie V) (r : List Int) :
    t.info_at r = none ↔ t.node_at r = none := by
  unfold trie.info_at
  cases t.node_at r <;> simp

theorem move_down_eq (t : trie V) (c : Int) (p : List Int) (n : trie_node V)
    (hn : t.node_at p = some n) : t.move_down c (some p) = .ok (child_ptr p n c) := by
  simp only [trie.move_down, hn]

theorem node_at_snoc (t : trie V) (p : List Int) (c : Int) (n : trie_node V)
    (hn : t.node_at p = some n) : t.node_at (p ++ [c]) = n.get_child c := by
  rw [node_at_append, hn, Option.some_bind, descend_cons]
  cases n.get_child c <;> rfl

theorem insert_node_old (t : trie V) (cur : List Int) (n : trie_node V)
    (hn : t.node_at cur = some n) (c : Int) (val : Option V) (h : n.has_child c = true) :
    t.insert_node cur c val = .ok (t, some (cur ++ [c]), false) := by
  simp only [trie.insert_node, hn, h, Bool.not_true, Bool.false_eq_true, if_false,
    move_down_eq t c cur n hn, child_ptr, if_true, Res.bind]

theorem insert_node_new (t : trie V) (cur : List Int) (n : trie_node V)
    (hn : t.node_at cur = some n) (c : Int) (val : Option V) (h : n.has_child c = false) :
    t.insert_node cur c val =
      .ok (t.update_at cur (fun m => (m.insert_child c val).1), some (cur ++ [c]), true) := by
  have hf : ∀ m : trie_node V, (m.insert_child c val).1.get_node_key = m.get_node_key :=
    fun m => rfl
  have h1 : (t.update_at cur (fun m => (m.insert_child c val).1)).node_at cur =
      some (n.insert_child c val).1 := by
    have := node_at_update_below t _ hf cur [] n hn
    simpa [descend_nil] using this
  have h2 : (n.insert_child c val).1.has_child c = true := by
    unfold trie_node.has_child
    rw [get_child_insert_child n c val h]
    simp
  simp only [trie.insert_node, hn, h, Bool.not_false, if_true,
    move_down_eq _ c cur _ h1, child_ptr, h2, Res.bind]

theorem node_at_insert_child_new (t : trie V) (cur : List Int) (n : trie_node V)
    (hn : t.node_at cur = some n) (c : Int) (val : Option V) (h : n.has_child c = false) :
    (t.update_at cur (fun m => (m.insert_child c val).1)).node_at (cur ++ [c]) =
      some (.mk c val []) := by
  have hf : ∀ m : trie_node V, (m.insert_child c val).1.get_node_key = m.get_node_key :=
    fun m => rfl
  rw [node_at_update_below t _ hf cur [c] n hn, descend_cons, get_child_insert_child n c val h]
  simp [descend_nil]

theorem find_loop_eq (t : trie V) (rest cur : List Int) (n : trie_node V)
    (hn : t.node_at cur = some n) :
    find_loop t rest cur =
      .ok (if (t.node_at (cur ++ rest)).isSome then ⟨some (cur ++ rest), 0⟩ else trie_end) := by
  induction rest generalizing cur n with
  | nil => simp [find_loop, hn]
  | cons c rest ih =>
    simp only [find_loop, move_down_eq t c cur n hn, Res.bind, child_ptr]
    have hs := node_at_snoc t cur c n hn
    cases hc : n.get_child c with
    | none =>
      have h1 : n.has_child c = false := by simp [trie_node.has_child, hc]
      have h2 : t.node_at (cur ++ c :: rest) = none := by
        have : cur ++ c :: rest = (cur ++ [c]) ++ rest := by simp
        rw [this, node_at_append, hs, hc]
        rfl
      simp [h1, h2]
    | some m =>
      have h1 : n.has_child c = true := by simp [trie_node.has_child, hc]
      rw [hc] at hs
      simp only [h1, if_true]
      rw [ih (cur ++ [c]) m hs]
      simp

/-- `find(key)` returns the position of the node at path `key`, and `end()` when
there is no such node. -/
theorem find_eq (t : trie V) (key : List Int) :
    t.find key =
      .ok (if (t.node_at key).isSome then ⟨some key, 0⟩ else trie_end) := by
  have := find_loop_eq t key [] t._base_node rfl
  simpa [trie.find] using this

/-! ### A first child under an existing node -/

section grow
variable (t : trie V) (cur : List Int) (n : trie_node V) (hn : t.node_at cur = some n)
  (c : Int) (val : Option V) (h : n.has_child c = false)
include hn h

theorem grow_value_of (r : List Int) (hr : r ≠ cur ++ [c]) :
    (t.update_at cur (fun m => (m.insert_child c val).1)).value_of r = t.value_of r := by
  rw [value_of_eq_info, value_of_eq_info, info_at_insert_child t cur n hn c val h r, if_neg hr]
  by_cases h2 : r = cur
  · subst h2
    rw [if_pos rfl, info_at_of_node t r n hn]
    rfl
  · rw [if_neg h2]

theorem grow_value_new :
    (t.update_at cur (fun m => (m.insert_child c val).1)).value_of (cur ++ [c]) = val := by
  rw [value_of_eq_info, info_at_insert_child t cur n hn c val h, if_pos rfl]
  rfl

theorem grow_old_none : t.node_at (cur ++ [c]) = none := by
  rw [node_at_snoc t cur c n hn]
  unfold trie_node.has_child at h
  simpa using h

theorem grow_sorted (hs : t.Sorted) :
    (t.update_at cur (fun m => (m.insert_child c val).1)).Sorted := by
  intro r v ks hi
  rw [info_at_insert_child t cur n hn c val h r] at hi
  by_cases h1 : r = cur ++ [c]
  · rw [if_pos h1] at hi
    simp only [Option.some.injEq, Prod.mk.injEq] at hi
    rw [← hi.2]
    exact List.Pairwise.nil
  · rw [if_neg h1] at hi
    by_cases h2 : r = cur
    · rw [if_pos h2] at hi
      simp only [Option.some.injEq, Prod.mk.injEq] at hi
      rw [← hi.2]
      exact pairwise_keys_set_insert _ _ (hs cur _ _ (info_at_of_node t cur n hn))
    · rw [if_neg h2] at hi
      exact hs r v ks hi

theorem grow_nonzero (hs : t.NonZero) (hc : c ≠ 0) :
    (t.update_at cur (fun m => (m.insert_child c val).1)).NonZero := by
  intro r v ks hi
  rw [info_at_insert_child t cur n hn c val h r] at hi
  by_cases h1 : r = cur ++ [c]
  · rw [if_pos h1] at hi
    simp only [Option.some.injEq, Prod.mk.injEq] at hi
    rw [← hi.2]
    simp
  · rw [if_neg h1] at hi
    by_cases h2 : r = cur
    · rw [if_pos h2] at hi
      simp only [Option.some.injEq, Prod.mk.injEq] at hi
      rw [← hi.2]
      intro hm
      rcases (mem_keys_set_insert _ _ _).1 hm with hm | hm
      · exact hc hm.symm
      · exact hs cur _ _ (info_at_of_node t cur n hn) hm
    · rw [if_neg h2] at hi
      exact hs r v ks hi

theorem grow_alive (r : List Int) (hr : r ≠ cur ++ [c]) (ha : r ≠ cur → t.Alive r) :
    (t.update_at cur (fun m => (m.insert_child c val).1)).Alive r := by
  intro v ks hi
  rw [info_at_insert_child t cur n hn c val h r, if_neg hr] at hi
  by_cases h2 : r = cur
  · rw [if_pos h2] at hi
    simp only [Option.some.injEq, Prod.mk.injEq] at hi
    right
    rw [← hi.2]
    intro he
    have hm : c ∈ (n.insert_child c val).1.get_children_keys :=
      (mem_keys_set_insert _ _ _).2 (Or.inl rfl)
    rw [he] at hm
    exact List.not_mem_nil _ hm
  · rw [if_neg h2] at hi
    exact ha h2 v ks hi

theorem grow_alive_new (hv : val.isSome = true) :
    (t.update_at cur (fun m => (m.insert_child c val).1)).Alive (cur ++ [c]) := by
  intro v ks hi
  rw [info_at_insert_child t cur n hn c val h, if_pos rfl] at hi
  simp only [Option.some.injEq, Prod.mk.injEq] at hi
  left
  rw [← hi.1]
  exact hv

end grow

theorem alive_of_has_child (t : trie V) (cur : List Int) (n : trie_node V)
    (hn : t.node_at cur = some n) (c : Int) (h : n.has_child c = true) : t.Alive cur := by
  intro v ks hi
  rw [info_at_of_node t cur n hn] at hi
  simp only [Option.some.injEq, Prod.mk.injEq] at hi
  right
  rw [← hi.2]
  intro he
  have hm := (has_child_iff_mem_keys n c).1 h
  rw [he] at hm
  exact List.not_mem_nil _ hm

theorem update_at_root_key (t : trie V) (p : List Int) (f : trie_node V → trie_node V)
    (hf : ∀ m, (f m).get_node_key = m.get_node_key) :
    (t.update_at p f)._base_node.get_node_key = t._base_node.get_node_key :=
  update_at_key f hf _ p

/-- The first loop of `emplacer` creates the missing nodes of the path and
changes nothing else. -/
theorem emplacer_walk_spec (ks : List Int) :
    ∀ (t : trie V) (cur : List Int) (n : trie_node V), t.node_at cur = some n →
    ∃ t1 n1, emplacer_walk t ks cur = .ok (t1, cur ++ ks) ∧
      t1.node_at (cur ++ ks) = some n1 ∧
      (∀ r, t1.value_of r = t.value_of r) ∧
      ((t.node_at (cur ++ ks)).isSome = true → t1 = t) ∧
      (t.Sorted → t1.Sorted) ∧
      (t.NonZero → (0 : Int) ∉ ks → t1.NonZero) ∧
      (∀ r, r ≠ cur ++ ks → (r ≠ cur → t.Alive r) → t1.Alive r) ∧
      t1._base_node.get_node_key = t._base_node.get_node_key := by
  induction ks with
  | nil =>
    intro t cur n hn
    refine ⟨t, n, by simp [emplacer_walk], by simpa using hn, fun _ => rfl, fun _ => rfl,
      fun hs => hs, fun hs _ => hs, ?_, rfl⟩
    intro r hr ha
    exact ha (by simpa using hr)
  | cons c ks ih =>
    intro t cur n hn
    have hcat : cur ++ c :: ks = (cur ++ [c]) ++ ks := by simp
    cases hc : n.has_child c with
    | true =>
      have hm : ∃ m, t.node_at (cur ++ [c]) = some m := by
        rw [node_at_snoc t cur c n hn]
        unfold trie_node.has_child at hc
        exact Option.isSome_iff_exists.1 hc
      obtain ⟨m, hm⟩ := hm
      obtain ⟨t1, n1, h1, h2, h3, h4, h5, h6, h7, h8⟩ := ih t (cur ++ [c]) m hm
      refine ⟨t1, n1, ?_, by rw [hcat]; exact h2, h3, by rw [hcat]; exact h4, h5, ?_, ?_, h8⟩
      · simp only [emplacer_walk, insert_node_old t cur n hn c none hc, Res.bind]
        rw [h1, hcat]
      · intro hz h0
        exact h6 hz (fun hm => h0 (List.mem_cons_of_mem _ hm))
      · intro r hr ha
        rw [hcat] at hr
        apply h7 r hr
        intro hr2
        by_cases h9 : r = cur
        · rw [h9]
          exact alive_of_has_child t cur n hn c hc
        · exact ha h9
    | false =>
      have hm := node_at_insert_child_new t cur n hn c none hc
      obtain ⟨t1, n1, h1, h2, h3, h4, h5, h6, h7, h8⟩ :=
        ih (t.update_at cur (fun m => (m.insert_child c none).1)) (cur ++ [c]) _ hm
      refine ⟨t1, n1, ?_, by rw [hcat]; exact h2, ?_, ?_, ?_, ?_, ?_, ?_⟩
      · simp only [emplacer_walk, insert_node_new t cur n hn c none hc, Res.bind]
        rw [h1, hcat]
      · intro r
        rw [h3 r]
        by_cases hr : r = cur ++ [c]
        · rw [hr, grow_value_new t cur n hn c none hc]
          unfold trie.value_of
          rw [grow_old_none t cur n hn c hc]
          rfl
        · exact grow_value_of t cur n hn c none hc r hr
      · intro hex
        exfalso
        rw [hcat, node_at_append, grow_old_none t cur n hn c hc] at hex
        simp at hex
      · intro hs
        exact h5 (grow_sorted t cur n hn c none hc hs)
      · intro hz h0
        have hc0 : c ≠ 0 := by
          intro e
          exact h0 (by simp [e])
        exact h6 (grow_nonzero t cur n hn c none hc hz hc0)
          (fun hm => h0 (List.mem_cons_of_mem _ hm))
      · intro r hr ha
        rw [hcat] at hr
        apply h7 r hr
        intro hr2
        exact grow_alive t cur n hn c none hc r hr2 ha
      · rw [h8]
        exact update_at_root_key t cur _ (fun m => rfl)

theorem assign_value_of (t : trie V) (p : List Int) (n : trie_node V)
    (hn : t.node_at p = some n) (v : V) (r : List Int) :
    (t.update_at p (fun m => m.assign_value v)).value_of r =
      if r = p then some v else t.value_of r := by
  rw [value_of_eq_info, info_at_assign_value t p n hn v r]
  by_cases h : r = p
  · rw [if_pos h, if_pos h]
    rfl
  · rw [if_neg h, if_neg h, value_of_eq_info]

theorem assign_sorted (t : trie V) (p : List Int) (n : trie_node V)
    (hn : t.node_at p = some n) (v : V) (hs : t.Sorted) :
    (t.update_at p (fun m => m.assign_value v)).Sorted := by
  intro r w ks hi
  rw [info_at_assign_value t p n hn v r] at hi
  by_cases h : r = p
  · rw [if_pos h] at hi
    simp only [Option.some.injEq, Prod.mk.injEq] at hi
    rw [← hi.2]
    exact hs p _ _ (info_at_of_node t p n hn)
  · rw [if_neg h] at hi
    exact hs r w ks hi

theorem assign_nonzero (t : trie V) (p : List Int) (n : trie_node V)
    (hn : t.node_at p = some n) (v : V) (hs : t.NonZero) :
    (t.update_at p (fun m => m.assign_value v)).NonZero := by
  intro r w ks hi
  rw [info_at_assign_value t p n hn v r] at hi
  by_cases h : r = p
  · rw [if_pos h] at hi
    simp only [Option.some.injEq, Prod.mk.injEq] at hi
    rw [← hi.2]
    exact hs p _ _ (info_at_of_node t p n hn)
  · rw [if_neg h] at hi
    exact hs r w ks hi

theorem assign_alive (t : trie V) (p : List Int) (n : trie_node V)
    (hn : t.node_at p = some n) (v : V) (r : List Int) (ha : r ≠ p → t.Alive r) :
    (t.update_at p (fun m => m.assign_value v)).Alive r := by
  intro w ks hi
  rw [info_at_assign_value t p n hn v r] at hi
  by_cases h : r = p
  · rw [if_pos h] at hi
    simp only [Option.some.injEq, Prod.mk.injEq] at hi
    left
    rw [← hi.1]
    rfl
  · rw [if_neg h] at hi
    exact ha h w ks hi

theorem node_at_assign (t : trie V) (p : List Int) (n : trie_node V)
    (hn : t.node_at p = some n) (v : V) :
    (t.update_at p (fun m => m.assign_value v)).node_at p = some (n.assign_value v) := by
  have := node_at_update_below t (fun m => m.assign_value v) (fun m => rfl) p [] n hn
  simpa [descend_nil] using this

theorem value_of_of_node (t : trie V) (p : List Int) (n : trie_node V)
    (hn : t.node_at p = some n) : t.value_of p = n.get_value := by
  simp [trie.value_of, hn]

theorem node_of_value_of (t : trie V) (p : List Int) (h : (t.value_of p).isSome = true) :
    (t.node_at p).isSome = true := by
  unfold trie.value_of at h
  cases hn : t.node_at p with
  | none => simp [hn] at h
  | some n => rfl

theorem node_at_prefix (t : trie V) (p s : List Int) (h : (t.node_at (p ++ s)).isSome = true) :
    (t.node_at p).isSome = true := by
  rw [node_at_append] at h
  cases hn : t.node_at p with
  | none => simp [hn] at h
  | some n => rfl

/-- What `emplacer` does on a non-empty key. -/
theorem emplacer_spec [Inhabited V] (t : trie V) (key : List Int) (hk : key ≠ [])
    (value : Option V) :
    ∃ t1, t.emplacer key value = .ok (t1, ⟨some key, 0⟩, (t.value_of key).isNone) ∧
      (t1.value_of key =
        if (t.value_of key).isNone then some (value.getD default) else t.value_of key) ∧
      (∀ r, r ≠ key → t1.value_of r = t.value_of r) ∧
      ((t.value_of key).isNone = false → t1 = t) ∧
      (t.Sorted → t1.Sorted) ∧
      (t.NonZero → (0 : Int) ∉ key → t1.NonZero) ∧
      (t.NoDangling → t1.NoDangling) ∧
      t1._base_node.get_node_key = t._base_node.get_node_key := by
  obtain ⟨ks, e, rfl⟩ : ∃ ks e, key = ks ++ [e] := by
    rcases List.eq_nil_or_concat key with h | ⟨ks, e, h⟩
    · exact absurd h hk
    · exact ⟨ks, e, by simpa using h⟩
  have hv : (match value with | none => (default : V) | some v => v) = value.getD default := by
    cases value <;> rfl
  obtain ⟨t1, n1, h1, h2, h3, h4, h5, h6, h7, h8⟩ := emplacer_walk_spec ks t [] t._base_node rfl
  simp only [List.nil_append] at h1 h2 h4 h7
  have hlast : (ks ++ [e]).getLast? = some e := by simp
  have hdrop : (ks ++ [e]).dropLast = ks := by simp
  have hval : t.value_of (ks ++ [e]) = t1.value_of (ks ++ [e]) := (h3 _).symm
  cases hc : n1.has_child e with
  | true =>
    obtain ⟨m, hm⟩ : ∃ m, t1.node_at (ks ++ [e]) = some m := by
      rw [node_at_snoc t1 ks e n1 h2]
      unfold trie_node.has_child at hc
      exact Option.isSome_iff_exists.1 hc
    have hvm := value_of_of_node t1 _ m hm
    cases hmv : m.get_value with
    | none =>
      have hb : (t.value_of (ks ++ [e])).isNone = true := by rw [hval, hvm, hmv]; rfl
      refine ⟨t1.update_at (ks ++ [e]) (fun x => x.assign_value (value.getD default)),
        ?_, ?_, ?_, ?_, ?_, ?_, ?_, ?_⟩
      · simp only [trie.emplacer, hlast, hdrop, h1, Res.bind, h2, hc, if_true, hm, hmv,
          Option.isNone_none, hv, hb]
      · rw [hb, if_pos rfl, assign_value_of t1 _ m hm, if_pos rfl]
      · intro r hr
        rw [assign_value_of t1 _ m hm, if_neg hr, h3]
      · intro hf
        rw [hb] at hf
        exact Bool.noConfusion hf
      · intro hs
        exact assign_sorted t1 _ m hm _ (h5 hs)
      · intro hz h0
        exact assign_nonzero t1 _ m hm _ (h6 hz (fun hx => h0 (by simp [hx])))
      · intro hnd r hr
        apply assign_alive t1 _ m hm
        intro hr2
        by_cases hr3 : r = ks
        · rw [hr3]
          exact alive_of_has_child t1 ks n1 h2 e hc
        · exact h7 r hr3 (fun _ => hnd r hr)
      · rw [← h8]
        exact update_at_root_key t1 _ _ (fun m => rfl)
    | some w =>
      have hb : (t.value_of (ks ++ [e])).isNone = false := by rw [hval, hvm, hmv]; rfl
      have ht : t1 = t := by
        apply h4
        apply node_at_prefix t ks [e]
        apply node_of_value_of
        rw [hval, hvm, hmv]
        rfl
      refine ⟨t1, ?_, ?_, ?_, ?_, ?_, ?_, ?_, ?_⟩
      · simp only [trie.emplacer, hlast, hdrop, h1, Res.bind, h2, hc, if_true, hm, hmv,
          Option.isNone_some, hb, Bool.false_eq_true, if_false]
      · rw [hb, if_neg (by simp), hval]
      · intro r _
        exact h3 r
      · intro _
        exact ht
      · exact h5
      · intro hz h0
        exact h6 hz (fun hx => h0 (by simp [hx]))
      · intro hnd
        rw [ht]
        exact hnd
      · exact h8
  | false =>
    have hnone := grow_old_none t1 ks n1 h2 e hc
    have hb : (t.value_of (ks ++ [e])).isNone = true := by
      rw [hval]
      unfold trie.value_of
      rw [hnone]
      rfl
    refine ⟨t1.update_at ks (fun m => (m.insert_child e (some (value.getD default))).1),
      ?_, ?_, ?_, ?_, ?_, ?_, ?_, ?_⟩
    · simp only [trie.emplacer, hlast, hdrop, h1, Res.bind, h2, hc, Bool.false_eq_true,
        if_false, insert_node_new t1 ks n1 h2 e _ hc, hv, hb]
    · rw [hb, if_pos rfl, grow_value_new t1 ks n1 h2 e _ hc]
    · intro r hr
      rw [grow_value_of t1 ks n1 h2 e _ hc r hr, h3]
    · intro hf
      rw [hb] at hf
      exact Bool.noConfusion hf
    · intro hs
      exact grow_sorted t1 ks n1 h2 e _ hc (h5 hs)
    · intro hz h0
      have he0 : e ≠ 0 := by
        intro he
        exact h0 (by simp [he])
      exact grow_nonzero t1 ks n1 h2 e _ hc (h6 hz (fun hx => h0 (by simp [hx]))) he0
    · intro hnd r hr
      by_cases hr2 : r = ks ++ [e]
      · rw [hr2]
        exact grow_alive_new t1 ks n1 h2 e _ hc rfl
      · apply grow_alive t1 ks n1 h2 e _ hc r hr2
        intro hr3
        exact h7 r hr3 (fun _ => hnd r hr)
    · rw [← h8]
      exact update_at_root_key t1 _ _ (fun m => rfl)

/-- What `insert_or_assign` does on a non-empty key. -/
theorem insert_or_assign_spec [Inhabited V] (moved_from : V → V) (t : trie V)
    (key : List Int) (hk : key ≠ []) (value : V) :
    ∃ t2, t.insert_or_assign moved_from key value =
        .ok (t2, ⟨some key, 0⟩, (t.value_of key).isNone) ∧
      t2.value_of key = some (moved_from value) ∧
      (∀ r, r ≠ key → t2.value_of r = t.value_of r) ∧
      (t.Sorted → t2.Sorted) ∧
      (t.NonZero → (0 : Int) ∉ key → t2.NonZero) ∧
      (t.NoDangling → t2.NoDangling) ∧
      t2._base_node.get_node_key = t._base_node.get_node_key := by
  obtain ⟨t1, h1, h2, h3, _, h5, h6, h7, h8⟩ := emplacer_spec t key hk (some value)
  have hex : (t1.node_at key).isSome = true := by
    apply node_of_value_of
    rw [h2]
    cases hb : (t.value_of key).isNone with
    | true => rfl
    | false =>
      simp only [Bool.false_eq_true, if_false]
      cases hv : t.value_of key with
      | none => simp [hv] at hb
      | some w => rfl
  obtain ⟨m, hm⟩ := Option.isSome_iff_exists.1 hex
  refine ⟨t1.update_at key (fun x => x.assign_value (moved_from value)),
    ?_, ?_, ?_, ?_, ?_, ?_, ?_⟩
  · simp only [trie.insert_or_assign, trie.insert, h1, Res.bind, hm]
  · rw [assign_value_of t1 key m hm, if_pos rfl]
  · intro r hr
    rw [assign_value_of t1 key m hm, if_neg hr, h3 r hr]
  · intro hs
    exact assign_sorted t1 key m hm _ (h5 hs)
  · intro hz h0
    exact assign_nonzero t1 key m hm _ (h6 hz h0)
  · intro hnd r hr
    exact assign_alive t1 key m hm _ r (fun _ => h7 hnd r hr)
  · rw [← h8]
    exact update_at_root_key t1 _ _ (fun m => rfl)

/-- The position `find` returns for a key that holds the value `v`. -/
theorem find_of_value_of (t : trie V) (key : List Int) (v : V)
    (h : t.value_of key = some v) :
    ∃ n, t.find key = .ok ⟨some key, 0⟩ ∧ t.node_at key = some n ∧ n.get_value = some v := by
  have hex : (t.node_at key).isSome = true := node_of_value_of t key (by rw [h]; rfl)
  obtain ⟨n, hn⟩ := Option.isSome_iff_exists.1 hex
  refine ⟨n, ?_, hn, ?_⟩
  · rw [find_eq, hex, if_pos rfl]
  · rw [← value_of_of_node t key n hn, h]

/-- C1. If `insert(k, v)` reports success, `find(k)` on the resulting trie
returns a position different from `end()` whose node carries exactly `v`. -/
theorem insert_success_then_find [Inhabited V] (t t1 : trie V) (k : List Int) (v : V)
    (it : trie_iterator) (h : t.insert k v = .ok (t1, it, true)) :
    ∃ pos p n, t1.find k = .ok pos ∧ pos._ptr ≠ trie_end._ptr ∧ pos._ptr = some p ∧
      t1.node_at p = some n ∧ n.get_value = some v := by
  have hk : k ≠ [] := by
    intro e
    subst e
    simp [trie.insert, trie.emplacer] at h
  obtain ⟨t2, h1, h2, _⟩ := emplacer_spec t k hk (some v)
  unfold trie.insert at h
  rw [h1] at h
  simp only [Res.ok.injEq, Prod.mk.injEq] at h
  obtain ⟨ht, _, hb⟩ := h
  subst ht
  rw [hb, if_pos rfl] at h2
  obtain ⟨n, hf, hn, hv⟩ := find_of_value_of t2 k v h2
  exact ⟨⟨some k, 0⟩, k, n, hf, by simp [trie_end], rfl, hn, hv⟩

theorem insert_success_then_find_witness :
    (trie.empty_trie : trie Nat).insert [97, 98] 2 =
        .ok (⟨.mk 0 none [.mk 97 none [.mk 98 (some 2) []]]⟩, ⟨some [97, 98], 0⟩, true) ∧
      ∃ pos p n, (⟨.mk 0 none [.mk 97 none [.mk 98 (some 2) []]]⟩ : trie Nat).find [97, 98]
          = .ok pos ∧ pos._ptr ≠ trie_end._ptr ∧ pos._ptr = some p ∧
        (⟨.mk 0 none [.mk 97 none [.mk 98 (some 2) []]]⟩ : trie Nat).node_at p = some n ∧
        n.get_value = some 2 :=
  ⟨rfl, insert_success_then_find trie.empty_trie _ [97, 98] 2 ⟨some [97, 98], 0⟩ rfl⟩

/-- C3. `insert(k, v)` and `emplace(k, v)` report success exactly when `k` is
non-empty and the trie holds no value for `k` (no node, or a node without
value); when they report failure the trie is unchanged, and for the empty key
the returned position is `end()`. -/
theorem insert_flag_iff [Inhabited V] (t : trie V) (k : List Int) (v : V) :
    ∃ t1 pos b, t.insert k v = .ok (t1, pos, b) ∧ t.emplace k (some v) = .ok (t1, pos, b) ∧
      (b = true ↔ k ≠ [] ∧
        (t.node_at k = none ∨ ∃ n, t.node_at k = some n ∧ n.get_value = none)) ∧
      (b = false → t1 = t) ∧
      (k = [] → pos = trie_end) := by
  by_cases hk : k = []
  · subst hk
    exact ⟨t, trie_end, false, rfl, rfl, by simp, fun _ => rfl, fun _ => rfl⟩
  · obtain ⟨t1, h1, _, _, h4, _⟩ := emplacer_spec t k hk (some v)
    refine ⟨t1, ⟨some k, 0⟩, (t.value_of k).isNone, h1, h1, ?_, h4, fun e => absurd e hk⟩
    unfold trie.value_of
    cases hn : t.node_at k with
    | none => simp [hk]
    | some n => cases hv : n.get_value <;> simp [hk, hv]

/-- C9, the code at the failing input. `insert_or_assign` hands `value` to `insert`
by `std::move` and then passes the same, moved-from object to `assign_value`. In a
trie of strings, whose move leaves the source empty, `insert_or_assign("a", "hello")`
returns the position of "a" and `find("a")` succeeds, but the node carries the empty
string, not "hello", on the empty trie and on the trie that held "a" already, while
`insert("a", "hello")` alone stores "hello".  In general, on a non-empty key the call
returns, `find(k)` succeeds, the node carries the moved-from state of `v`, which is
`v` when the move leaves its source as it was (as for `int`), and every other key
keeps the value it had. -/
theorem insert_or_assign_stores_moved_from_value :
    (trie.empty_trie : trie String).insert_or_assign (fun _ => "") [97] "hello" =
        .ok (⟨.mk 0 none [.mk 97 (some "") []]⟩, ⟨some [97], 0⟩, true) ∧
      (⟨.mk 0 none [.mk 97 (some "x") []]⟩ : trie String).insert_or_assign (fun _ => "")
          [97] "hello" =
        .ok (⟨.mk 0 none [.mk 97 (some "") []]⟩, ⟨some [97], 0⟩, false) ∧
      (⟨.mk 0 none [.mk 97 (some "") []]⟩ : trie String).find [97] = .ok ⟨some [97], 0⟩ ∧
      (⟨.mk 0 none [.mk 97 (some "") []]⟩ : trie String).value_of [97] = some "" ∧
      (some "" : Option String) ≠ some "hello" ∧
      (trie.empty_trie : trie String).insert [97] "hello" =
        .ok (⟨.mk 0 none [.mk 97 (some "hello") []]⟩, ⟨some [97], 0⟩, true) ∧
      (∀ (V : Type) [Inhabited V] (moved_from : V → V) (t : trie V) (k : List Int) (v : V),
        k ≠ [] →
        ∃ t1 it b, t.insert_or_assign moved_from k v = .ok (t1, it, b) ∧
          (∃ pos p n, t1.find k = .ok pos ∧ pos._ptr ≠ trie_end._ptr ∧ pos._ptr = some p ∧
            t1.node_at p = some n ∧ n.get_value = some (moved_from v) ∧
            (moved_from v = v → n.get_value = some v)) ∧
          ∀ r, r ≠ k → t1.value_of r = t.value_of r) := by
  refine ⟨rfl, rfl, rfl, rfl, by decide, rfl, ?_⟩
  intro V _ moved_from t k v hk
  obtain ⟨t2, h1, h2, h3, _⟩ := insert_or_assign_spec moved_from t k hk v
  obtain ⟨n, hf, hn, hv⟩ := find_of_value_of t2 k (moved_from v) h2
  exact ⟨t2, _, _, h1,
    ⟨⟨some k, 0⟩, k, n, hf, by simp [trie_end], rfl, hn, hv, fun e => by rw [hv, e]⟩, h3⟩

/-- C10, as the code has it. The flag `insert_or_assign(k, v)` returns on a
non-empty key is true exactly when `k` held no value before the call: it had no
node, or its node was a junction without value. -/
theorem insert_or_assign_flag_iff [Inhabited V] (moved_from : V → V) (t : trie V)
    (k : List Int) (v : V) (hk : k ≠ []) :
    ∃ t1 it b, t.insert_or_assign moved_from k v = .ok (t1, it, b) ∧
      (b = true ↔
        (t.node_at k = none ∨ ∃ n, t.node_at k = some n ∧ n.get_value = none)) := by
  obtain ⟨t2, h1, _⟩ := insert_or_assign_spec moved_from t k hk v
  refine ⟨t2, _, _, h1, ?_⟩
  unfold trie.value_of
  cases hn : t.node_at k with
  | none => simp
  | some n => cases hv : n.get_value <;> simp [hv]

theorem insert_or_assign_flag_iff_witness :
    ([97] : List Int) ≠ [] ∧
    ∃ t1 it b, (⟨.mk 0 none [.mk 97 none [.mk 98 (some 2) []]]⟩ : trie Nat).insert_or_assign
        id [97] 1 = .ok (t1, it, b) ∧
      (b = true ↔
        ((⟨.mk 0 none [.mk 97 none [.mk 98 (some 2) []]]⟩ : trie Nat).node_at [97] = none ∨
          ∃ n, (⟨.mk 0 none [.mk 97 none [.mk 98 (some 2) []]]⟩ : trie Nat).node_at [97]
            = some n ∧ n.get_value = none)) :=
  ⟨by decide, insert_or_assign_flag_iff id _ [97] 1 (by decide)⟩

/-- C10, counterexample. On the trie that holds only "ab", the key "a" already
has a node (a junction without value), yet `insert_or_assign("a", 1)` returns
the flag `true`. -/
theorem insert_or_assign_flag_junction :
    (⟨.mk 0 none [.mk 97 none [.mk 98 (some 2) []]]⟩ : trie Nat).insert_or_assign id [97] 1 =
        .ok (⟨.mk 0 none [.mk 97 (some 1) [.mk 98 (some 2) []]]⟩, ⟨some [97], 0⟩, true) ∧
      ((⟨.mk 0 none [.mk 97 none [.mk 98 (some 2) []]]⟩ : trie Nat).node_at [97]).isSome
        = true ∧
      (trie.empty_trie : trie Nat).insert [97, 98] 2 =
        .ok (⟨.mk 0 none [.mk 97 none [.mk 98 (some 2) []]]⟩, ⟨some [97, 98], 0⟩, true) :=
  ⟨rfl, rfl, rfl⟩

/-! ## Erasure and path release -/

theorem erase_child_sorted (t : trie V) (q : List Int) (n : trie_node V)
    (hn : t.node_at q = some n) (k : Int) (hs : t.Sorted) :
    (t.update_at q (fun m => m.erase_child k)).Sorted := by
  have hq := hs q _ _ (info_at_of_node t q n hn)
  intro r v ks hi
  rw [info_at_erase_child t q n hn k hq r] at hi
  by_cases h1 : q ++ [k] <+: r
  · rw [if_pos h1] at hi
    exact Option.noConfusion hi
  · rw [if_neg h1] at hi
    by_cases h2 : r = q
    · rw [if_pos h2] at hi
      simp only [Option.some.injEq, Prod.mk.injEq] at hi
      rw [← hi.2]
      exact hq.sublist (List.erase_sublist _ _)
    · rw [if_neg h2] at hi
      exact hs r v ks hi

theorem erase_child_alive (t : trie V) (q : List Int) (n : trie_node V)
    (hn : t.node_at q = some n) (k : Int) (hs : t.Sorted) (r : List Int) (hr : r ≠ q)
    (ha : t.Alive r) : (t.update_at q (fun m => m.erase_child k)).Alive r := by
  have hq := hs q _ _ (info_at_of_node t q n hn)
  intro v ks hi
  rw [info_at_erase_child t q n hn k hq r] at hi
  by_cases h1 : q ++ [k] <+: r
  · rw [if_pos h1] at hi
    exact Option.noConfusion hi
  · rw [if_neg h1, if_neg hr] at hi
    exact ha v ks hi

theorem erase_child_gone (t : trie V) (q : List Int) (n : trie_node V)
    (hn : t.node_at q = some n) (k : Int) (hs : t.Sorted) (s : List Int) :
    (t.update_at q (fun m => m.erase_child k)).info_at (q ++ k :: s) = none := by
  have hq := hs q _ _ (info_at_of_node t q n hn)
  rw [info_at_erase_child t q n hn k hq, if_pos ⟨s, by simp⟩]

theorem node_at_erase_child (t : trie V) (q : List Int) (n : trie_node V)
    (hn : t.node_at q = some n) (k : Int) :
    (t.update_at q (fun m => m.erase_child k)).node_at q = some (n.erase_child k) := by
  have := node_at_update_below t (fun m => m.erase_child k)
    (fun m => erase_child_key m k) q [] n hn
  simpa [descend_nil] using this

theorem parent_ptr_eq_some {p q : List Int} (h : parent_ptr p = some q) :
    p = q ++ [p.getLastD 0] ∧ p ≠ [] := by
  cases p with
  | nil => exact Option.noConfusion h
  | cons c p =>
    simp only [parent_ptr, Option.some.injEq] at h
    subst h
    exact ⟨(List.dropLast_append_getLast (List.cons_ne_nil c p)).symm, List.cons_ne_nil _ _⟩

theorem parent_ptr_snoc (q : List Int) (k : Int) : parent_ptr (q ++ [k]) = some q := by
  cases q with
  | nil => rfl
  | cons c q =>
    show some ((c :: q) ++ [k]).dropLast = some (c :: q)
    rw [List.dropLast_concat]

theorem has_children_iff_keys (n : trie_node V) :
    n.has_children = true ↔ n.get_children_keys ≠ [] := by
  unfold trie_node.has_children trie_node.get_children_keys
  cases n.children <;> simp

/-- State of the `release_path` loop: the tree is sorted, and every non-root
node other than the current one is alive. -/
theorem release_loop_inv (fuel : Nat) :
    ∀ (t : trie V) (q : List Int), t.Sorted → (∀ r, r ≠ [] → r ≠ q → t.Alive r) →
      ∀ res, while_loop release_cond release_body fuel (t, some q) = .ok res →
        res.1.Sorted ∧ res.1.NoDangling := by
  induction fuel with
  | zero =>
    intro t q hs ha res h
    simp only [while_loop, release_cond] at h
    cases hn : t.node_at q with
    | none => simp [hn, Res.bind] at h
    | some n =>
      simp only [hn, Res.bind] at h
      split at h
      · exact Res.noConfusion h
      · rename_i hb
        simp only [Res.ok.injEq] at h
        subst h
        refine ⟨hs, ?_⟩
        intro r hr
        by_cases hq : r = q
        · subst hq
          intro v ks hi
          rw [info_at_of_node t r n hn] at hi
          simp only [Option.some.injEq, Prod.mk.injEq] at hi
          rw [← hi.1, ← hi.2, ← has_children_iff_keys]
          cases hv : n.get_value with
          | some w => left; rfl
          | none =>
            right
            cases hc : n.has_children with
            | true => rfl
            | false => simp [hv, hc] at hb
        · exact ha r hr hq
  | succ f ih =>
    intro t q hs ha res h
    simp only [while_loop, release_cond] at h
    cases hn : t.node_at q with
    | none => simp [hn, Res.bind] at h
    | some n =>
      simp only [hn, Res.bind] at h
      split at h
      · simp only [release_body, hn, trie.move_up, Res.bind] at h
        cases hp : parent_ptr q with
        | none => simp [hp] at h
        | some q1 =>
          simp only [hp] at h
          obtain ⟨hq, _⟩ := parent_ptr_eq_some hp
          have hn1 : (t.node_at q1).isSome = true := by
            apply node_at_prefix t q1 [q.getLastD 0]
            rw [← hq, hn]
            rfl
          obtain ⟨n1, hn1⟩ := Option.isSome_iff_exists.1 hn1
          have hk : n.get_node_key = q.getLastD 0 := by
            rw [hq] at hn
            exact descend_snoc_key hn
          rw [hk] at h
          apply ih _ q1 (erase_child_sorted t q1 n1 hn1 _ hs) _ res h
          intro r hr hr1
          by_cases hrq : q1 ++ [q.getLastD 0] <+: r
          · obtain ⟨s, rfl⟩ := hrq
            intro v ks hi
            have := erase_child_gone t q1 n1 hn1 (q.getLastD 0) hs s
            simp only [List.append_assoc, List.singleton_append] at hi
            rw [this] at hi
            exact Option.noConfusion hi
          · apply erase_child_alive t q1 n1 hn1 _ hs r hr1
            apply ha r hr
            intro e
            apply hrq
            rw [e]
            conv_rhs => rw [hq]
      · rename_i hb
        simp only [Res.ok.injEq] at h
        subst h
        refine ⟨hs, ?_⟩
        intro r hr
        by_cases hq : r = q
        · subst hq
          intro v ks hi
          rw [info_at_of_node t r n hn] at hi
          simp only [Option.some.injEq, Prod.mk.injEq] at hi
          rw [← hi.1, ← hi.2, ← has_children_iff_keys]
          cases hv : n.get_value with
          | some w => left; rfl
          | none =>
            right
            cases hc : n.has_children with
            | true => rfl
            | false => simp [hv, hc] at hb
        · exact ha r hr hq

/-- `erase_at` keeps the order of the children and leaves no dangling node. -/
theorem erase_at_inv (t t1 : trie V) (pos : trie_iterator) (hs : t.Sorted)
    (hd : t.NoDangling) (h : t.erase_at pos = .ok t1) : t1.Sorted ∧ t1.NoDangling := by
  unfold trie.erase_at at h
  cases hp : pos._ptr with
  | none => simp [hp] at h
  | some p =>
    simp only [hp] at h
    cases hn : t.node_at p with
    | none => simp [hn] at h
    | some n =>
      simp only [hn, trie.move_up, Res.bind] at h
      cases hq : parent_ptr p with
      | none => simp [hq] at h
      | some q =>
        simp only [hq] at h
        obtain ⟨hpq, _⟩ := parent_ptr_eq_some hq
        have hn1 : (t.node_at q).isSome = true := by
          apply node_at_prefix t q [p.getLastD 0]
          rw [← hpq, hn]
          rfl
        obtain ⟨n1, hn1⟩ := Option.isSome_iff_exists.1 hn1
        cases hr : (t.update_at q (fun m => m.erase_child n.get_node_key)).release_path q with
        | fault => simp [hr] at h
        | timeout => simp [hr] at h
        | ok res =>
          simp only [hr, Res.ok.injEq] at h
          subst h
          unfold trie.release_path at hr
          apply release_loop_inv _ _ q (erase_child_sorted t q n1 hn1 _ hs) _ res hr
          intro r hr0 hr1
          exact erase_child_alive t q n1 hn1 _ hs r hr1 (hd r hr0)

/-- The bound on the loop of `release_path` is never reached: the model of the
loop ends by its condition or by a fault, as the source does. -/
theorem release_path_no_timeout (t : trie V) (q : List Int) :
    t.release_path q ≠ .timeout := by
  have key : ∀ (fuel : Nat) (t : trie V) (q : List Int), q.length < fuel →
      while_loop release_cond release_body fuel (t, some q) ≠ .timeout := by
    intro fuel
    induction fuel with
    | zero => intro t q h; omega
    | succ f ih =>
      intro t q h
      simp only [while_loop, release_cond]
      cases hn : t.node_at q with
      | none => simp [Res.bind]
      | some n =>
        simp only [Res.ok_bind]
        split
        · simp only [release_body, hn, trie.move_up, Res.ok_bind]
          cases hp : parent_ptr q with
          | none => simp [Res.fault_bind]
          | some q1 =>
            simp only [Res.ok_bind]
            apply ih
            obtain ⟨hq, _⟩ := parent_ptr_eq_some hp
            have : q.length = q1.length + 1 := by
              conv_lhs => rw [hq]
              simp
            omega
        · simp
  exact key _ t q (by omega)

theorem empty_trie_info (r : List Int) :
    (trie.empty_trie : trie V).info_at r = if r = [] then some (none, []) else none := by
  cases r with
  | nil => rfl
  | cons c r => rfl

theorem empty_trie_sorted : (trie.empty_trie : trie V).Sorted := by
  intro r v ks hi
  rw [empty_trie_info] at hi
  split at hi
  · simp only [Option.some.injEq, Prod.mk.injEq] at hi
    rw [← hi.2]
    exact List.Pairwise.nil
  · exact Option.noConfusion hi

theorem empty_trie_nonzero : (trie.empty_trie : trie V).NonZero := by
  intro r v ks hi
  rw [empty_trie_info] at hi
  split at hi
  · simp only [Option.some.injEq, Prod.mk.injEq] at hi
    rw [← hi.2]
    simp
  · exact Option.noConfusion hi

theorem empty_trie_no_dangling : (trie.empty_trie : trie V).NoDangling := by
  intro r hr v ks hi
  rw [empty_trie_info, if_neg hr] at hi
  exact Option.noConfusion hi

theorem emplacer_inv [Inhabited V] (t t1 : trie V) (k : List Int) (v : Option V)
    (it : trie_iterator) (b : Bool) (hs : t.Sorted) (hd : t.NoDangling)
    (h : t.emplacer k v = .ok (t1, it, b)) : t1.Sorted ∧ t1.NoDangling := by
  by_cases hk : k = []
  · subst hk
    simp only [trie.emplacer, List.getLast?_nil, Res.ok.injEq, Prod.mk.injEq] at h
    rw [← h.1]
    exact ⟨hs, hd⟩
  · obtain ⟨t2, h1, _, _, _, h5, _, h7, _⟩ := emplacer_spec t k hk v
    rw [h1] at h
    simp only [Res.ok.injEq, Prod.mk.injEq] at h
    rw [← h.1]
    exact ⟨h5 hs, h7 hd⟩

theorem reachable_inv [Inhabited V] (t : trie V) (h : Reachable t) :
    t.Sorted ∧ t.NoDangling := by
  induction h with
  | empty => exact ⟨empty_trie_sorted, empty_trie_no_dangling⟩
  | insert _ h ih => exact emplacer_inv _ _ _ _ _ _ ih.1 ih.2 h
  | emplace _ h ih => exact emplacer_inv _ _ _ _ _ _ ih.1 ih.2 h
  | @insert_or_assign mf t t1 k v it b _ h ih =>
    by_cases hk : k = []
    · subst hk
      simp [trie.insert_or_assign, trie.insert, trie.emplacer, Res.bind] at h
    · obtain ⟨t2, h1, _, _, h4, _, h6, _⟩ := insert_or_assign_spec mf t k hk v
      rw [h1] at h
      simp only [Res.ok.injEq, Prod.mk.injEq] at h
      rw [← h.1]
      exact ⟨h4 ih.1, h6 ih.2⟩
  | @erase_key t t1 k c _ h ih =>
    simp only [trie.erase_key, find_eq, Res.bind] at h
    cases hex : (t.node_at k).isSome with
    | false =>
      simp only [hex, Bool.false_eq_true, if_false, if_true, Res.ok.injEq, Prod.mk.injEq] at h
      rw [← h.1]
      exact ih
    | true =>
      have hne : ¬ (some k = trie_end._ptr) := by simp [trie_end]
      simp only [hex, if_true, if_neg hne] at h
      cases he : t.erase_at ⟨some k, 0⟩ with
      | fault => simp [he] at h
      | timeout => simp [he] at h
      | ok t2 =>
        simp only [he, Res.ok.injEq, Prod.mk.injEq] at h
        rw [← h.1]
        exact erase_at_inv t t2 _ ih.1 ih.2 he
  | @erase t t1 fuel pos it _ h ih =>
    simp only [trie.erase] at h
    cases hi : operator_inc fuel t pos with
    | fault => simp [hi, Res.bind] at h
    | timeout => simp [hi, Res.bind] at h
    | ok it1 =>
      simp only [hi, Res.bind] at h
      cases he : t.erase_at pos with
      | fault => simp [he] at h
      | timeout => simp [he] at h
      | ok t2 =>
        simp only [he, Res.ok.injEq, Prod.mk.injEq] at h
        rw [← h.1]
        exact erase_at_inv t t2 _ ih.1 ih.2 he

/-- C7. In every trie reachable from the empty trie by `insert`, `emplace`,
`insert_or_assign`, `erase(key)` and `erase(position)` calls, every non-root
node carries a value or has at least one child. -/
theorem no_dangling_of_reachable [Inhabited V] (t : trie V) (h : Reachable t)
    (p : List Int) (n : trie_node V) (hp : p ≠ []) (hn : t.node_at p = some n) :
    n.get_value.isSome = true ∨ n.has_children = true := by
  have := (reachable_inv t h).2 p hp _ _ (info_at_of_node t p n hn)
  rw [has_children_iff_keys]
  exact this

theorem no_dangling_of_reachable_witness :
    Reachable (⟨.mk 0 none [.mk 101 (some 5) []]⟩ : trie Nat) ∧ ([101] : List Int) ≠ [] ∧
      (⟨.mk 0 none [.mk 101 (some 5) []]⟩ : trie Nat).node_at [101]
        = some (.mk 101 (some 5) []) ∧
      ((trie_node.mk 101 (some 5) [] : trie_node Nat).get_value.isSome = true ∨
        (trie_node.mk 101 (some 5) [] : trie_node Nat).has_children = true) :=
  have h1 : Reachable (⟨.mk 0 none [.mk 97 none [.mk 98 (some 2) []]]⟩ : trie Nat) :=
    @Reachable.insert Nat _ trie.empty_trie _ [97, 98] 2 ⟨some [97, 98], 0⟩ true
      Reachable.empty rfl
  have h2 : Reachable (⟨.mk 0 none [.mk 97 none [.mk 98 (some 2) []],
      .mk 101 (some 5) []]⟩ : trie Nat) :=
    @Reachable.insert Nat _ _ _ [101] 5 ⟨some [101], 0⟩ true h1 rfl
  have h3 : Reachable (⟨.mk 0 none [.mk 101 (some 5) []]⟩ : trie Nat) :=
    @Reachable.erase_key Nat _ _ _ [97, 98] 1 h2 rfl
  ⟨h3, by decide, rfl, no_dangling_of_reachable _ h3 [101] _ (by decide) rfl⟩

/-! ## Loops and runs -/

theorem Trace.append {σ : Type} {body : σ → Res σ} {s m e : σ} {L1 L2 : List σ}
    (h1 : Trace body s L1 m) (h2 : Trace body m L2 e) : Trace body s (L1 ++ L2) e := by
  induction h1 with
  | nil s => exact h2
  | cons hb _ ih => exact Trace.cons hb (ih h2)

theorem while_loop_exit {σ : Type} (cond : σ → Res Bool) (body : σ → Res σ) (fuel : Nat)
    (s : σ) (h : cond s = .ok false) : while_loop cond body fuel s = .ok s := by
  cases fuel <;> simp [while_loop, h, Res.bind]

theorem while_loop_iter {σ : Type} (cond : σ → Res Bool) (body : σ → Res σ) (fuel : Nat)
    (s s1 : σ) (h : cond s = .ok true) (hb : body s = .ok s1) :
    while_loop cond body (fuel + 1) s = while_loop cond body fuel s1 := by
  simp [while_loop, h, hb, Res.bind]

theorem walk_end (next : trie_iterator → Res trie_iterator) (n : Nat) (e : trie_iterator)
    (he : e._ptr = none) : walk next n e = .ok [] := by
  cases e with
  | mk p ck =>
    simp only at he
    subst he
    cases n <;> rfl

/-- A run that ends past the end determines what the iteration loop visits:
the states of the run at which the increment comes to rest. -/
theorem walk_of_trace (cond : trie_iterator → Res Bool)
    (body : trie_iterator → Res trie_iterator) (stop : trie_iterator → Bool)
    (e : trie_iterator) (he : e._ptr = none) (hce : cond e = .ok false) (F : Nat) :
    ∀ (L : List trie_iterator) (s1 : trie_iterator) (f n : Nat), Trace body s1 L e →
      (∀ x ∈ L, (∃ p, x._ptr = some p) ∧ cond x = .ok (!stop x)) →
      L.length ≤ f → L.length ≤ F → L.length ≤ n →
      ∃ m, while_loop cond body f s1 = .ok m ∧
        walk (fun it => (body it).bind (while_loop cond body F)) n m = .ok (visited stop L) := by
  intro L
  induction L with
  | nil =>
    intro s1 f n htr _ _ _ _
    cases htr
    exact ⟨e, while_loop_exit cond body f e hce, walk_end _ n e he⟩
  | cons x L ih =>
    intro s1 f n htr hx hf hF hn
    cases htr with
    | cons hb htr =>
      rename_i s2
      obtain ⟨⟨p, hp⟩, hc⟩ := hx x (List.mem_cons_self _ _)
      have hx2 : ∀ y ∈ L, (∃ p, y._ptr = some p) ∧ cond y = .ok (!stop y) :=
        fun y hy => hx y (List.mem_cons_of_mem _ hy)
      simp only [List.length_cons] at hf hF hn
      cases hs : stop x with
      | true =>
        rw [hs] at hc
        refine ⟨x, while_loop_exit cond body f x hc, ?_⟩
        obtain ⟨n1, rfl⟩ : ∃ n1, n = n1 + 1 := ⟨n - 1, by omega⟩
        obtain ⟨m, hm1, hm2⟩ := ih s2 F n1 htr hx2 (by omega) (by omega) (by omega)
        cases x with
        | mk xp xck =>
          simp only at hp
          subst hp
          simp only [walk, hb, Res.ok_bind, hm1, hm2, visited, List.filterMap_cons, hs, if_true]
      | false =>
        rw [hs] at hc
        obtain ⟨f1, rfl⟩ : ∃ f1, f = f1 + 1 := ⟨f - 1, by omega⟩
        obtain ⟨m, hm1, hm2⟩ := ih s2 f1 n htr hx2 (by omega) (by omega) (by omega)
        refine ⟨m, ?_, ?_⟩
        · rw [while_loop_iter cond body f1 x s2 hc hb, hm1]
        · rw [hm2]
          simp [visited, List.filterMap_cons, hs]

/-! ## Single steps of the iterator -/

theorem sizeOf_child_lt (n m : trie_node V) (h : m ∈ n.children) : sizeOf m < sizeOf n := by
  cases n with
  | mk k v cs =>
    simp only [trie_node.children] at h
    have := List.sizeOf_lt_of_mem h
    simp only [trie_node.mk.sizeOf_spec]
    omega

theorem next_after_split (c : Int) (pre post : List Int) (h : c ∉ pre) :
    next_after c (pre ++ c :: post) = .ok post.head? := by
  induction pre with
  | nil => simp [next_after]
  | cons a pre ih =>
    simp only [List.mem_cons, not_or] at h
    have ha : (a == c) = false := by
      have : ¬ a = c := fun e => h.1 e.symm
      simpa using this
    simp only [List.cons_append, next_after, ha, Bool.false_eq_true, if_false]
    exact ih h.2

theorem prev_before_split (c : Int) (pre post : List Int) (h : c ∉ pre) (prev : Option Int) :
    prev_before c (pre ++ c :: post) prev =
      match pre.getLast? with
      | some d => some d
      | none => prev := by
  induction pre generalizing prev with
  | nil => simp [prev_before]
  | cons a pre ih =>
    simp only [List.mem_cons, not_or] at h
    have ha : (a == c) = false := by
      have : ¬ a = c := fun e => h.1 e.symm
      simpa using this
    show prev_before c (a :: (pre ++ c :: post)) prev = _
    simp only [prev_before, ha, Bool.false_eq_true, if_false]
    rw [ih h.2]
    cases pre with
    | nil => rfl
    | cons b pre =>
      simp only [List.getLast?_cons_cons]
      rw [List.getLast?_eq_getLast (b :: pre) (List.cons_ne_nil _ _)]

theorem rfind_has_next_absent (c : Int) (ks : List Int) (h : c ∉ ks) :
    rfind_has_next c ks = true := by
  induction ks with
  | nil => rfl
  | cons a ks ih =>
    simp only [List.mem_cons, not_or] at h
    have ha : (a == c) = false := by
      have : ¬ a = c := fun e => h.1 e.symm
      simpa using this
    simp only [rfind_has_next, ha, Bool.false_eq_true, if_false]
    exact ih h.2

theorem rfind_has_next_split (c : Int) (pre post : List Int) (h : c ∉ pre) :
    rfind_has_next c (pre ++ c :: post) = (post.length != 0) := by
  induction pre with
  | nil => simp [rfind_has_next]
  | cons a pre ih =>
    simp only [List.mem_cons, not_or] at h
    have ha : (a == c) = false := by
      have : ¬ a = c := fun e => h.1 e.symm
      simpa using this
    simp only [List.cons_append, rfind_has_next, ha, Bool.false_eq_true, if_false]
    exact ih h.2

theorem child_ptr_of_mem (p : List Int) (n : trie_node V) (d : Int)
    (h : d ∈ n.get_children_keys) : child_ptr p n d = some (p ++ [d]) := by
  simp [child_ptr, (has_child_iff_mem_keys n d).2 h]

theorem get_child_of_mem (n : trie_node V) (d : Int) (h : d ∈ n.get_children_keys) :
    ∃ m, n.get_child d = some m := by
  have := (has_child_iff_mem_keys n d).2 h
  unfold trie_node.has_child at this
  exact Option.isSome_iff_exists.1 this

theorem mem_keys_of_get_child (n m : trie_node V) (d : Int) (h : n.get_child d = some m) :
    d ∈ n.get_children_keys := by
  apply (has_child_iff_mem_keys n d).1
  simp [trie_node.has_child, h]

theorem step_leaf (t : trie V) (dir : Bool) (p : List Int) (ck : Int) (n : trie_node V)
    (hn : t.node_at p = some n) (h : n.get_children_keys = []) :
    step t dir ⟨some p, ck⟩ = .ok (up_state p n) := by
  have hc : n.has_children = false := by
    cases hh : n.has_children with
    | false => rfl
    | true => exact absurd h ((has_children_iff_keys n).1 hh)
  simp [step, hn, hc, up_state]

theorem step_forward_first (t : trie V) (p : List Int) (n : trie_node V)
    (hn : t.node_at p = some n) (k0 : Int) (rest : List Int)
    (h : n.get_children_keys = k0 :: rest) :
    step t true ⟨some p, 0⟩ = .ok ⟨some (p ++ [k0]), 0⟩ := by
  have hc : n.has_children = true := (has_children_iff_keys n).2 (by simp [h])
  have hp := child_ptr_of_mem p n k0 (by simp [h])
  simp [step, hn, hc, get_next_child, h, hp]

theorem step_forward_next (t : trie V) (p : List Int) (n : trie_node V)
    (hn : t.node_at p = some n) (c d : Int) (pre post : List Int) (hc0 : c ≠ 0)
    (hpre : c ∉ pre) (h : n.get_children_keys = pre ++ c :: d :: post) :
    step t true ⟨some p, c⟩ = .ok ⟨some (p ++ [d]), 0⟩ := by
  have hc : n.has_children = true := (has_children_iff_keys n).2 (by simp [h])
  have hp := child_ptr_of_mem p n d (by simp [h])
  have hb : (c == 0) = false := by simpa using hc0
  simp only [step, hn, hc, if_true, get_next_child, hb, Bool.false_eq_true, if_false, h,
    next_after_split c pre (d :: post) hpre, List.head?_cons, hp]

theorem step_forward_up (t : trie V) (p : List Int) (n : trie_node V)
    (hn : t.node_at p = some n) (c : Int) (pre : List Int) (hc0 : c ≠ 0)
    (hpre : c ∉ pre) (h : n.get_children_keys = pre ++ [c]) :
    step t true ⟨some p, c⟩ = .ok (up_state p n) := by
  have hc : n.has_children = true := (has_children_iff_keys n).2 (by simp [h])
  have hb : (c == 0) = false := by simpa using hc0
  simp only [step, hn, hc, if_true, get_next_child, hb, Bool.false_eq_true, if_false, h,
    next_after_split c pre [] hpre, List.head?_nil, up_state]

theorem step_backward_last (t : trie V) (p : List Int) (n : trie_node V)
    (hn : t.node_at p = some n) (kl : Int) (pre : List Int)
    (h : n.get_children_keys = pre ++ [kl]) :
    step t false ⟨some p, 0⟩ = .ok ⟨some (p ++ [kl]), 0⟩ := by
  have hc : n.has_children = true := (has_children_iff_keys n).2 (by simp [h])
  have hp := child_ptr_of_mem p n kl (by simp [h])
  simp [step, hn, hc, get_next_child, h, hp]

theorem step_backward_prev (t : trie V) (p : List Int) (n : trie_node V)
    (hn : t.node_at p = some n) (c d : Int) (pre post : List Int) (hc0 : c ≠ 0)
    (hpre : c ∉ pre ++ [d]) (h : n.get_children_keys = (pre ++ [d]) ++ c :: post) :
    step t false ⟨some p, c⟩ = .ok ⟨some (p ++ [d]), 0⟩ := by
  have hc : n.has_children = true := (has_children_iff_keys n).2 (by simp [h])
  have hp := child_ptr_of_mem p n d (by simp [h])
  have hb : (c == 0) = false := by simpa using hc0
  simp only [step, hn, hc, if_true, get_next_child, hb, Bool.false_eq_true, if_false, h,
    prev_before_split c (pre ++ [d]) post hpre, List.getLast?_append, List.getLast?_singleton,
    Option.or, hp]

theorem step_backward_up (t : trie V) (p : List Int) (n : trie_node V)
    (hn : t.node_at p = some n) (c : Int) (post : List Int) (hc0 : c ≠ 0)
    (h : n.get_children_keys = c :: post) :
    step t false ⟨some p, c⟩ = .ok (up_state p n) := by
  have hc : n.has_children = true := (has_children_iff_keys n).2 (by simp [h])
  have hb : (c == 0) = false := by simpa using hc0
  have := prev_before_split c [] post (by simp) none
  simp only [List.nil_append, List.getLast?_nil] at this
  simp only [step, hn, hc, if_true, get_next_child, hb, Bool.false_eq_true, if_false, h, this,
    up_state]

theorem inc_cond_eq (t : trie V) (x : trie_iterator) (q : List Int) (m : trie_node V)
    (hq : x._ptr = some q) (hm : t.node_at q = some m) :
    inc_cond t x = .ok (!stop_inc t x) := by
  simp only [inc_cond, stop_inc, hq, hm, value_of_of_node t q m hm]
  by_cases h : x._current_key = 0 <;> cases m.get_value <;> simp [h, bne]

theorem dec_cond_eq (t : trie V) (x : trie_iterator) (q : List Int) (m : trie_node V)
    (hq : x._ptr = some q) (hm : t.node_at q = some m) :
    dec_cond t x = .ok (!stop_dec t x) := by
  simp only [dec_cond, stop_dec, hq, hm]
  cases m.get_value <;> cases (m.has_previous_child x._current_key) <;> simp

/-! ## Lexicographic order of paths -/

theorem lex_extend (p s : List Int) (hs : s ≠ []) : List.Lex (· < ·) p (p ++ s) := by
  induction p with
  | nil =>
    cases s with
    | nil => exact absurd rfl hs
    | cons a s => exact List.Lex.nil
  | cons a p ih => exact List.Lex.cons ih

theorem lex_diverge (p s1 s2 : List Int) (d1 d2 : Int) (h : d1 < d2) :
    List.Lex (· < ·) (p ++ d1 :: s1) (p ++ d2 :: s2) := by
  induction p with
  | nil => exact List.Lex.rel h
  | cons a p ih => exact List.Lex.cons ih

theorem lex_of_prefixes (p a b : List Int) (d1 d2 : Int) (h : d1 < d2)
    (ha : p ++ [d1] <+: a) (hb : p ++ [d2] <+: b) : List.Lex (· < ·) a b := by
  obtain ⟨s1, rfl⟩ := ha
  obtain ⟨s2, rfl⟩ := hb
  simpa using lex_diverge p s1 s2 d1 d2 h

theorem lex_of_below (p b : List Int) (d : Int) (hb : p ++ [d] <+: b) :
    List.Lex (· < ·) p b := by
  obtain ⟨s, rfl⟩ := hb
  simpa using lex_extend p (d :: s) (List.cons_ne_nil _ _)

/-! ## Forward runs through a subtree -/

theorem visited_append (stop : trie_iterator → Bool) (A B : List trie_iterator) :
    visited stop (A ++ B) = visited stop A ++ visited stop B :=
  List.filterMap_append _ _ _

theorem visited_cons_skip (stop : trie_iterator → Bool) (x : trie_iterator)
    (L : List trie_iterator) (h : stop x = false) : visited stop (x :: L) = visited stop L := by
  simp [visited, List.filterMap_cons, h]

theorem visited_cons_stop (stop : trie_iterator → Bool) (x : trie_iterator)
    (L : List trie_iterator) (p : List Int) (h : stop x = true) (hp : x._ptr = some p) :
    visited stop (x :: L) = p :: visited stop L := by
  simp [visited, List.filterMap_cons, h, hp]

theorem keys_split_facts {pre post : List Int} {c : Int}
    (h : (pre ++ c :: post).Pairwise (· < ·)) :
    c ∉ pre ∧ (∀ d ∈ post, c < d) ∧ c ∉ post := by
  rw [List.pairwise_append] at h
  obtain ⟨_, h2, h3⟩ := h
  rw [List.pairwise_cons] at h2
  refine ⟨?_, h2.1, ?_⟩
  · intro hm
    have := h3 c hm c (List.mem_cons_self _ _)
    omega
  · intro hm
    have := h2.1 c hm
    omega

theorem stop_inc_marked (t : trie V) (p : List Int) (c : Int) (hc : c ≠ 0) :
    stop_inc t ⟨some p, c⟩ = false := by
  have hb : (c == 0) = false := by simpa using hc
  simp [stop_inc, hb]

theorem children_forward (t : trie V) (hs : t.Sorted) (hz : t.NonZero) (p : List Int)
    (n : trie_node V) (hn : t.node_at p = some n)
    (IH : ∀ d m, n.get_child d = some m →
      ∃ L, Trace (step t true) ⟨some (p ++ [d]), 0⟩ L ⟨some p, d⟩ ∧ t.ValidRun L ∧
        t.AscendingBelow (p ++ [d]) (visited (stop_inc t) L)) :
    ∀ (post pre : List Int) (c : Int), n.get_children_keys = pre ++ c :: post →
      ∃ L, Trace (step t true) ⟨some p, c⟩ L (up_state p n) ∧ t.ValidRun L ∧
        (visited (stop_inc t) L).Pairwise (List.Lex (· < ·)) ∧
        ∀ x, x ∈ visited (stop_inc t) L ↔
          ((∃ d ∈ post, p ++ [d] <+: x) ∧ (t.value_of x).isSome = true) := by
  intro post
  induction post with
  | nil =>
    intro pre c hk
    have hsk := hs p _ _ (info_at_of_node t p n hn)
    rw [hk] at hsk
    obtain ⟨hpre, _, _⟩ := keys_split_facts hsk
    have hc0 : c ≠ 0 := by
      intro e
      apply hz p _ _ (info_at_of_node t p n hn)
      rw [hk, ← e]
      simp
    refine ⟨[⟨some p, c⟩], Trace.cons (step_forward_up t p n hn c pre hc0 hpre hk) (Trace.nil _),
      ?_, ?_, ?_⟩
    · intro x hx
      simp only [List.mem_singleton] at hx
      subst hx
      exact ⟨p, n, rfl, hn⟩
    · rw [visited_cons_skip _ _ _ (stop_inc_marked t p c hc0)]
      exact List.Pairwise.nil
    · intro x
      rw [visited_cons_skip _ _ _ (stop_inc_marked t p c hc0)]
      simp [visited]
  | cons d post ih =>
    intro pre c hk
    have hsk := hs p _ _ (info_at_of_node t p n hn)
    rw [hk] at hsk
    obtain ⟨hpre, hlt, _⟩ := keys_split_facts hsk
    have hc0 : c ≠ 0 := by
      intro e
      apply hz p _ _ (info_at_of_node t p n hn)
      rw [hk, ← e]
      simp
    have hd : d ∈ n.get_children_keys := by rw [hk]; simp
    obtain ⟨m, hm⟩ := get_child_of_mem n d hd
    obtain ⟨L1, htr1, hv1, hp1, hm1⟩ := IH d m hm
    have hk2 : n.get_children_keys = (pre ++ [c]) ++ d :: post := by rw [hk]; simp
    obtain ⟨L2, htr2, hv2, hp2, hm2⟩ := ih (pre ++ [c]) d hk2
    have hsk2 := hs p _ _ (info_at_of_node t p n hn)
    rw [hk2] at hsk2
    obtain ⟨_, hlt2, _⟩ := keys_split_facts hsk2
    refine ⟨⟨some p, c⟩ :: (L1 ++ L2),
      Trace.cons (step_forward_next t p n hn c d pre post hc0 hpre hk) (htr1.append htr2),
      ?_, ?_, ?_⟩
    · intro x hx
      simp only [List.mem_cons, List.mem_append] at hx
      rcases hx with hx | hx | hx
      · subst hx
        exact ⟨p, n, rfl, hn⟩
      · exact hv1 x hx
      · exact hv2 x hx
    · rw [visited_cons_skip _ _ _ (stop_inc_marked t p c hc0), visited_append,
        List.pairwise_append]
      refine ⟨hp1, hp2, ?_⟩
      intro a ha b hb
      obtain ⟨⟨d2, hd2, hb2⟩, _⟩ := (hm2 b).1 hb
      exact lex_of_prefixes p a b d d2 (hlt2 d2 hd2) ((hm1 a).1 ha).1 hb2
    · intro x
      rw [visited_cons_skip _ _ _ (stop_inc_marked t p c hc0), visited_append,
        List.mem_append, hm1 x, hm2 x]
      constructor
      · intro h
        rcases h with ⟨h1, h2⟩ | ⟨⟨d2, hd2, h1⟩, h2⟩
        · exact ⟨⟨d, List.mem_cons_self _ _, h1⟩, h2⟩
        · exact ⟨⟨d2, List.mem_cons_of_mem _ hd2, h1⟩, h2⟩
      · intro ⟨⟨d2, hd2, h1⟩, h2⟩
        rcases List.mem_cons.1 hd2 with e | hd3
        · subst e
          exact Or.inl ⟨h1, h2⟩
        · exact Or.inr ⟨⟨d2, hd3, h1⟩, h2⟩

theorem below_cases (t : trie V) (p x : List Int) (n : trie_node V)
    (hn : t.node_at p = some n) (hx : p <+: x) (hv : (t.value_of x).isSome = true) :
    x = p ∨ ∃ d ∈ n.get_children_keys, p ++ [d] <+: x := by
  obtain ⟨s, rfl⟩ := hx
  cases s with
  | nil => left; simp
  | cons d s =>
    right
    refine ⟨d, ?_, ⟨s, by simp⟩⟩
    have hex := node_of_value_of t _ hv
    have h2 : (t.node_at (p ++ [d])).isSome = true := by
      apply node_at_prefix t (p ++ [d]) s
      simpa using hex
    rw [node_at_snoc t p d n hn] at h2
    obtain ⟨m, hm⟩ := Option.isSome_iff_exists.1 h2
    exact mem_keys_of_get_child n m d hm

theorem stop_inc_fresh (t : trie V) (p : List Int) :
    stop_inc t ⟨some p, 0⟩ = (t.value_of p).isSome := by
  simp [stop_inc]

/-- A forward run that enters the node at `p` leaves it upwards after visiting
the keys with a value at or below `p` in ascending order. -/
theorem subtree_forward (t : trie V) (hs : t.Sorted) (hz : t.NonZero) :
    ∀ (k : Nat) (n : trie_node V) (p : List Int), sizeOf n < k → t.node_at p = some n →
      ∃ L, Trace (step t true) ⟨some p, 0⟩ L (up_state p n) ∧ t.ValidRun L ∧
        t.AscendingBelow p (visited (stop_inc t) L) := by
  intro k
  induction k with
  | zero => intro n p h; omega
  | succ k ih =>
    intro n p hk hn
    cases hkeys : n.get_children_keys with
    | nil =>
      refine ⟨[⟨some p, 0⟩], Trace.cons (step_leaf t true p 0 n hn hkeys) (Trace.nil _), ?_, ?_, ?_⟩
      · intro x hx
        simp only [List.mem_singleton] at hx
        subst hx
        exact ⟨p, n, rfl, hn⟩
      · cases hv : (t.value_of p).isSome with
        | true =>
          rw [visited_cons_stop _ _ _ p (by rw [stop_inc_fresh, hv]) rfl]
          simp [visited]
        | false =>
          rw [visited_cons_skip _ _ _ (by rw [stop_inc_fresh, hv])]
          simp [visited]
      · intro x
        constructor
        · intro hx
          cases hv : (t.value_of p).isSome with
          | true =>
            rw [visited_cons_stop _ _ _ p (by rw [stop_inc_fresh, hv]) rfl] at hx
            simp only [visited, List.filterMap_nil, List.mem_singleton] at hx
            subst hx
            exact ⟨List.prefix_refl _, hv⟩
          | false =>
            rw [visited_cons_skip _ _ _ (by rw [stop_inc_fresh, hv])] at hx
            simp [visited] at hx
        · intro ⟨hx, hv⟩
          rcases below_cases t p x n hn hx hv with e | ⟨d, hd, _⟩
          · subst e
            rw [visited_cons_stop _ _ _ x (by rw [stop_inc_fresh, hv]) rfl]
            simp
          · rw [hkeys] at hd
            exact absurd hd (List.not_mem_nil _)
    | cons k0 rest =>
      have IH : ∀ d m, n.get_child d = some m →
          ∃ L, Trace (step t true) ⟨some (p ++ [d]), 0⟩ L ⟨some p, d⟩ ∧ t.ValidRun L ∧
            t.AscendingBelow (p ++ [d]) (visited (stop_inc t) L) := by
        intro d m hm
        have hsz := sizeOf_child_lt n m (get_child_mem hm)
        have hnm : t.node_at (p ++ [d]) = some m := by rw [node_at_snoc t p d n hn, hm]
        obtain ⟨L, h1, h2, h3⟩ := ih m (p ++ [d]) (by omega) hnm
        refine ⟨L, ?_, h2, h3⟩
        simpa [up_state, parent_ptr_snoc, get_child_key hm] using h1
      obtain ⟨m0, hm0⟩ := get_child_of_mem n k0 (by rw [hkeys]; simp)
      obtain ⟨L1, htr1, hv1, hp1, hm1⟩ := IH k0 m0 hm0
      obtain ⟨L2, htr2, hv2, hp2, hm2⟩ :=
        children_forward t hs hz p n hn IH rest [] k0 (by simpa using hkeys)
      have hsk := hs p _ _ (info_at_of_node t p n hn)
      rw [hkeys] at hsk
      have hlt : ∀ d ∈ rest, k0 < d := (List.pairwise_cons.1 hsk).1
      refine ⟨⟨some p, 0⟩ :: (L1 ++ L2),
        Trace.cons (step_forward_first t p n hn k0 rest hkeys) (htr1.append htr2), ?_, ?_, ?_⟩
      · intro x hx
        simp only [List.mem_cons, List.mem_append] at hx
        rcases hx with hx | hx | hx
        · subst hx
          exact ⟨p, n, rfl, hn⟩
        · exact hv1 x hx
        · exact hv2 x hx
      · have hrest : (visited (stop_inc t) (L1 ++ L2)).Pairwise (List.Lex (· < ·)) := by
          rw [visited_append, List.pairwise_append]
          refine ⟨hp1, hp2, ?_⟩
          intro a ha b hb
          obtain ⟨⟨d2, hd2, hb2⟩, _⟩ := (hm2 b).1 hb
          exact lex_of_prefixes p a b k0 d2 (hlt d2 hd2) ((hm1 a).1 ha).1 hb2
        have hall : ∀ b ∈ visited (stop_inc t) (L1 ++ L2), List.Lex (· < ·) p b := by
          intro b hb
          rw [visited_append, List.mem_append] at hb
          rcases hb with hb | hb
          · exact lex_of_below p b k0 ((hm1 b).1 hb).1
          · obtain ⟨⟨d2, _, hb2⟩, _⟩ := (hm2 b).1 hb
            exact lex_of_below p b d2 hb2
        cases hv : (t.value_of p).isSome with
        | true =>
          rw [visited_cons_stop _ _ _ p (by rw [stop_inc_fresh, hv]) rfl]
          exact List.Pairwise.cons hall hrest
        | false =>
          rw [visited_cons_skip _ _ _ (by rw [stop_inc_fresh, hv])]
          exact hrest
      · intro x
        have hcons : visited (stop_inc t) (⟨some p, 0⟩ :: (L1 ++ L2)) =
            visited (stop_inc t) [⟨some p, 0⟩] ++ visited (stop_inc t) (L1 ++ L2) := by
          rw [← visited_append]
          rfl
        rw [hcons, visited_append, List.mem_append, List.mem_append, hm1 x, hm2 x]
        constructor
        · intro h
          rcases h with h | ⟨h1, h2⟩ | ⟨⟨d2, hd2, h1⟩, h2⟩
          · cases hv : (t.value_of p).isSome with
            | true =>
              rw [visited_cons_stop _ _ _ p (by rw [stop_inc_fresh, hv]) rfl] at h
              simp only [visited, List.filterMap_nil, List.mem_singleton] at h
              subst h
              exact ⟨List.prefix_refl _, hv⟩
            | false =>
              rw [visited_cons_skip _ _ _ (by rw [stop_inc_fresh, hv])] at h
              simp [visited] at h
          · exact ⟨(List.prefix_append p [k0]).trans h1, h2⟩
          · exact ⟨(List.prefix_append p [d2]).trans h1, h2⟩
        · intro ⟨hx, hv⟩
          rcases below_cases t p x n hn hx hv with e | ⟨d, hd, hdx⟩
          · subst e
            left
            rw [visited_cons_stop _ _ _ x (by rw [stop_inc_fresh, hv]) rfl]
            simp
          · right
            rw [hkeys] at hd
            rcases List.mem_cons.1 hd with e | hd2
            · subst e
              exact Or.inl ⟨hdx, hv⟩
            · exact Or.inr ⟨⟨d, hd2, hdx⟩, hv⟩

/-! ## Forward iteration over the whole trie -/

theorem lex_irrefl (a : List Int) : ¬ List.Lex (· < ·) a a := by
  intro h
  exact (List.Lex.isAsymm (fun a b : Int => a < b)).asymm a a h h

theorem lex_asymm (a b : List Int) (h1 : List.Lex (· < ·) a b) (h2 : List.Lex (· < ·) b a) :
    False :=
  (List.Lex.isAsymm (fun a b : Int => a < b)).asymm a b h1 h2

theorem trace_root_split (t : trie V) (dir : Bool) (L : List trie_iterator)
    (e : trie_iterator) (he : e._ptr = none)
    (h : Trace (step t dir) ⟨some [], 0⟩ L e) :
    ∃ s1 L1, L = ⟨some [], 0⟩ :: L1 ∧ step t dir ⟨some [], 0⟩ = .ok s1 ∧
      Trace (step t dir) s1 L1 e := by
  cases h with
  | nil => simp at he
  | cons hb htr => exact ⟨_, _, rfl, hb, htr⟩

/-- Forward iteration over a sorted trie without `'\0'` labels and without a
value at the root terminates and visits the keys with a value in ascending
order. -/
theorem forward_walk_spec (t : trie V) (hs : t.Sorted) (hz : t.NonZero)
    (hr : t.value_of [] = none) :
    ∃ N W, (∀ fuel, N ≤ fuel → t.forward_walk fuel = .ok W) ∧ t.AscendingBelow [] W := by
  obtain ⟨L, htr, hv, hspec⟩ :=
    subtree_forward t hs hz (sizeOf t._base_node + 1) t._base_node [] (by omega) rfl
  obtain ⟨s1, L1, rfl, hb, htr1⟩ := trace_root_split t true L _ rfl htr
  have hskip : visited (stop_inc t) (⟨some [], 0⟩ :: L1) = visited (stop_inc t) L1 := by
    apply visited_cons_skip
    rw [stop_inc_fresh, hr]
    rfl
  rw [hskip] at hspec
  refine ⟨L1.length, visited (stop_inc t) L1, ?_, hspec⟩
  intro fuel hf
  have hx : ∀ x ∈ L1, (∃ p, x._ptr = some p) ∧ inc_cond t x = .ok (!stop_inc t x) := by
    intro x hx
    obtain ⟨q, m, hq, hm⟩ := hv x (List.mem_cons_of_mem _ hx)
    exact ⟨⟨q, hq⟩, inc_cond_eq t x q m hq hm⟩
  obtain ⟨m, hm1, hm2⟩ := walk_of_trace (inc_cond t) (step t true) (stop_inc t)
    (up_state [] t._base_node) rfl rfl fuel L1 s1 fuel fuel htr1 hx hf hf hf
  unfold trie.forward_walk trie.begin_
  have hinc : operator_inc fuel t ⟨some [], 0⟩ = .ok m := by
    unfold operator_inc
    rw [hb, Res.ok_bind, hm1]
  rw [hinc, Res.ok_bind]
  exact hm2

theorem insert_all_spec [Inhabited V] (kvs : List (List Int × V))
    (hk : ∀ kv ∈ kvs, kv.1 ≠ [] ∧ (0 : Int) ∉ kv.1) :
    ∀ t : trie V, t.Sorted → t.NonZero → t.NoDangling → t.value_of [] = none →
      ∃ t1, t.insert_all kvs = .ok t1 ∧ t1.Sorted ∧ t1.NonZero ∧ t1.NoDangling ∧
        t1.value_of [] = none ∧
        (∀ x, (t.value_of x).isSome = true → (t1.value_of x).isSome = true) ∧
        (∀ kv ∈ kvs, (t1.value_of kv.1).isSome = true) := by
  induction kvs with
  | nil =>
    intro t h1 h2 h3 h4
    exact ⟨t, rfl, h1, h2, h3, h4, fun _ h => h, fun _ h => absurd h (List.not_mem_nil _)⟩
  | cons kv kvs ih =>
    intro t h1 h2 h3 h4
    obtain ⟨hne, h0⟩ := hk kv (List.mem_cons_self _ _)
    obtain ⟨t1, e1, e2, e3, _, e5, e6, e7, _⟩ := emplacer_spec t kv.1 hne (some kv.2)
    have hroot : t1.value_of [] = none := by
      rw [e3 [] (fun e => hne e.symm), h4]
    have hkeep : ∀ x, (t.value_of x).isSome = true → (t1.value_of x).isSome = true := by
      intro x hx
      by_cases hxk : x = kv.1
      · subst hxk
        rw [e2]
        split
        · rfl
        · exact hx
      · rw [e3 x hxk]
        exact hx
    have hnew : (t1.value_of kv.1).isSome = true := by
      rw [e2]
      split
      · rfl
      · rename_i hb
        cases hv : t.value_of kv.1 with
        | none => simp [hv] at hb
        | some w => rfl
    obtain ⟨t2, f1, f2, f3, f4, f5, f6, f7⟩ :=
      ih (fun kv2 h => hk kv2 (List.mem_cons_of_mem _ h)) t1 (e5 h1) (e6 h2 h0) (e7 h3) hroot
    refine ⟨t2, ?_, f2, f3, f4, f5, fun x hx => f6 x (hkeep x hx), ?_⟩
    · simp only [trie.insert_all, trie.insert, e1, Res.ok_bind]
      exact f1
    · intro kv2 hkv2
      rcases List.mem_cons.1 hkv2 with e | hm
      · rw [e]
        exact f6 _ hnew
      · exact f7 kv2 hm

theorem empty_trie_root_value : (trie.empty_trie : trie V).value_of [] = none := rfl

/-- C2. For every trie built from the empty trie by `insert` calls with
non-empty keys that do not contain `'\0'`, stepping with `operator++` from
`begin()` until `end()` terminates and visits exactly the nodes that carry a
value, each once, their keys in strictly ascending lexicographic order; for
the scenario of `test.cpp` the visited sequence is a1 ab2 ac3 ad4 e5 f6 fg7. -/
theorem forward_iteration_ascending :
    (∀ (V : Type) [Inhabited V] (kvs : List (List Int × V)),
      (∀ kv ∈ kvs, kv.1 ≠ [] ∧ (0 : Int) ∉ kv.1) →
      ∃ (t : trie V) (N : Nat) (W : List (List Int)),
        trie.empty_trie.insert_all kvs = .ok t ∧
        (∀ fuel, N ≤ fuel → t.forward_walk fuel = .ok W) ∧
        (∀ x, x ∈ W ↔ (t.value_of x).isSome = true) ∧
        W.Nodup ∧ W.Pairwise (List.Lex (· < ·))) ∧
    (trie.empty_trie.insert_all
        [([97], 1), ([101], 5), ([102], 6), ([97, 98], 2), ([97, 99], 3), ([97, 100], 4),
          ([102, 103], 7)] = .ok scenario ∧
      scenario.forward_walk 20 =
        .ok [[97], [97, 98], [97, 99], [97, 100], [101], [102], [102, 103]] ∧
      [[97], [97, 98], [97, 99], [97, 100], [101], [102], [102, 103]].map scenario.value_of =
        [some 1, some 2, some 3, some 4, some 5, some 6, some 7]) := by
  refine ⟨?_, rfl, rfl, rfl⟩
  intro V _ kvs hk
  obtain ⟨t, h1, h2, h3, _, h5, _, _⟩ := insert_all_spec kvs hk trie.empty_trie
    empty_trie_sorted empty_trie_nonzero empty_trie_no_dangling empty_trie_root_value
  obtain ⟨N, W, hw, hp, hm⟩ := forward_walk_spec t h2 h3 h5
  refine ⟨t, N, W, h1, hw, ?_, ?_, hp⟩
  · intro x
    rw [hm x]
    simp
  · refine hp.imp ?_
    intro a b h e
    rw [e] at h
    exact lex_irrefl b h

theorem forward_iteration_ascending_witness :
    (∀ kv ∈ [(([97, 98] : List Int), (2 : Nat)), ([97], 1)], kv.1 ≠ [] ∧ (0 : Int) ∉ kv.1) ∧
    ∃ (t : trie Nat) (N : Nat) (W : List (List Int)),
      trie.empty_trie.insert_all [([97, 98], 2), ([97], 1)] = .ok t ∧
      (∀ fuel, N ≤ fuel → t.forward_walk fuel = .ok W) ∧
      (∀ x, x ∈ W ↔ (t.value_of x).isSome = true) ∧
      W.Nodup ∧ W.Pairwise (List.Lex (· < ·)) :=
  ⟨by decide, forward_iteration_ascending.1 Nat [([97, 98], 2), ([97], 1)] (by decide)⟩

/-! ## Erasure by key -/

/-- C4, the code at the failing input. In the scenario, "a" holds a value and has
the stored extensions "ab", "ac", "ad": `erase("a")` returns 1 and `find("a")`
fails afterwards, but `size()` drops from 7 to 3, because the node is deleted with
its subtree.  (Erasing the only key of a trie does not return at all:
`release_path` climbs to the root's null parent.) -/
theorem erase_key_drops_descendants :
    scenario.value_of [97] = some 1 ∧
      scenario.size 20 = .ok 7 ∧
      scenario.erase_key [97] =
        .ok (⟨.mk 0 none [.mk 101 (some 5) [], .mk 102 (some 6) [.mk 103 (some 7) []]]⟩, 1) ∧
      (⟨.mk 0 none [.mk 101 (some 5) [], .mk 102 (some 6) [.mk 103 (some 7) []]]⟩ :
        trie Nat).find [97] = .ok trie_end ∧
      (⟨.mk 0 none [.mk 101 (some 5) [], .mk 102 (some 6) [.mk 103 (some 7) []]]⟩ :
        trie Nat).size 20 = .ok 3 ∧
      (⟨.mk 0 none [.mk 97 (some 1) []]⟩ : trie Nat).erase_key [97] = .fault :=
  ⟨rfl, rfl, rfl, rfl, rfl, rfl⟩

/-- C5, the code at the failing input. In the scenario "ab" holds the value 2;
after `erase("a")` the key "ab", an extension of "a", is not found any more.
Erasing "ab" itself keeps the siblings "ac" and "ad". -/
theorem erase_key_loses_extension :
    scenario.value_of [97, 98] = some 2 ∧
      scenario.erase_key [97] =
        .ok (⟨.mk 0 none [.mk 101 (some 5) [], .mk 102 (some 6) [.mk 103 (some 7) []]]⟩, 1) ∧
      (⟨.mk 0 none [.mk 101 (some 5) [], .mk 102 (some 6) [.mk 103 (some 7) []]]⟩ :
        trie Nat).find [97, 98] = .ok trie_end ∧
      (∃ t1, scenario.erase_key [97, 98] = .ok (t1, 1) ∧ t1.find [97, 98] = .ok trie_end ∧
        t1.value_of [97, 99] = some 3 ∧ t1.value_of [97, 100] = some 4) :=
  ⟨rfl, rfl, rfl, ⟨_, rfl, rfl, rfl, rfl⟩⟩

/-- C6, as the code has it. For a key that has no node in the trie, `erase(key)`
returns 0 and leaves the trie as it is. -/
theorem erase_key_without_node (t : trie V) (k : List Int) (h : t.node_at k = none) :
    t.erase_key k = .ok (t, 0) := by
  simp [trie.erase_key, find_eq, h, Res.ok_bind]

theorem erase_key_without_node_witness :
    scenario.node_at [120, 121, 122] = none ∧
      scenario.erase_key [120, 121, 122] = .ok (scenario, 0) :=
  ⟨rfl, erase_key_without_node scenario [120, 121, 122] rfl⟩

/-- C6, counterexample. In the trie that holds "ab" and "e", the key "a" holds no
value (it is only a prefix of "ab"), yet `erase("a")` returns 1 and the trie has
changed. -/
theorem erase_key_junction :
    trie.empty_trie.insert_all [([97, 98], 2), ([101], 5)] =
        .ok (⟨.mk 0 none [.mk 97 none [.mk 98 (some 2) []], .mk 101 (some 5) []]⟩ : trie Nat) ∧
      (⟨.mk 0 none [.mk 97 none [.mk 98 (some 2) []], .mk 101 (some 5) []]⟩ :
        trie Nat).value_of [97] = none ∧
      (⟨.mk 0 none [.mk 97 none [.mk 98 (some 2) []], .mk 101 (some 5) []]⟩ :
        trie Nat).erase_key [97] = .ok (⟨.mk 0 none [.mk 101 (some 5) []]⟩, 1) :=
  ⟨rfl, rfl, rfl⟩

/-! ## Backward runs through a subtree -/

theorem has_previous_child_leaf (n : trie_node V) (ck : Int) (h : n.get_children_keys = []) :
    n.has_previous_child ck = false := by
  have hc : n.has_children = false := by
    cases hh : n.has_children with
    | false => rfl
    | true => exact absurd h ((has_children_iff_keys n).1 hh)
  simp [trie_node.has_previous_child, hc]

theorem has_previous_child_absent (n : trie_node V) (ck : Int) (h : n.get_children_keys ≠ [])
    (ha : ck ∉ n.get_children_keys) : n.has_previous_child ck = true := by
  have hc : n.has_children = true := (has_children_iff_keys n).2 h
  simp only [trie_node.has_previous_child, hc, Bool.not_true, Bool.false_eq_true, if_false]
  exact rfind_has_next_absent ck _ (by simpa using ha)

theorem has_previous_child_split (n : trie_node V) (c : Int) (pre post : List Int)
    (h : n.get_children_keys = pre ++ c :: post) (hp : c ∉ post) :
    n.has_previous_child c = (pre.length != 0) := by
  have hc : n.has_children = true := (has_children_iff_keys n).2 (by simp [h])
  simp only [trie_node.has_previous_child, hc, Bool.not_true, Bool.false_eq_true, if_false, h]
  have hr : (pre ++ c :: post).reverse = post.reverse ++ c :: pre.reverse := by simp
  rw [hr, rfind_has_next_split c post.reverse pre.reverse (by simpa using hp)]
  simp

theorem stop_dec_first (t : trie V) (p : List Int) (n : trie_node V)
    (hn : t.node_at p = some n) (c : Int) (post : List Int)
    (h : n.get_children_keys = c :: post) (hp : c ∉ post) :
    stop_dec t ⟨some p, c⟩ = (t.value_of p).isSome := by
  have := has_previous_child_split n c [] post (by simpa using h) hp
  simp only [List.length_nil, bne_self_eq_false] at this
  simp [stop_dec, hn, this, value_of_of_node t p n hn]

theorem stop_dec_later (t : trie V) (p : List Int) (n : trie_node V)
    (hn : t.node_at p = some n) (c d : Int) (pre post : List Int)
    (h : n.get_children_keys = (pre ++ [d]) ++ c :: post) (hp : c ∉ post) :
    stop_dec t ⟨some p, c⟩ = false := by
  have := has_previous_child_split n c (pre ++ [d]) post h hp
  have h2 : ((pre ++ [d]).length != 0) = true := by simp
  rw [h2] at this
  simp [stop_dec, hn, this]

theorem stop_dec_leaf (t : trie V) (p : List Int) (n : trie_node V)
    (hn : t.node_at p = some n) (ck : Int) (h : n.get_children_keys = []) :
    stop_dec t ⟨some p, ck⟩ = (t.value_of p).isSome := by
  simp [stop_dec, hn, has_previous_child_leaf n ck h, value_of_of_node t p n hn]

theorem stop_dec_fresh (t : trie V) (hz : t.NonZero) (p : List Int) (n : trie_node V)
    (hn : t.node_at p = some n) (h : n.get_children_keys ≠ []) :
    stop_dec t ⟨some p, 0⟩ = false := by
  have := has_previous_child_absent n 0 h (hz p _ _ (info_at_of_node t p n hn))
  simp [stop_dec, hn, this]

theorem children_backward (t : trie V) (hs : t.Sorted) (hz : t.NonZero) (p : List Int)
    (n : trie_node V) (hn : t.node_at p = some n)
    (IH : ∀ d m, n.get_child d = some m →
      ∃ L, Trace (step t false) ⟨some (p ++ [d]), 0⟩ L ⟨some p, d⟩ ∧ t.ValidRun L ∧
        t.DescendingBelow (p ++ [d]) (visited (stop_dec t) L)) :
    ∀ (pre post : List Int) (c : Int), n.get_children_keys = pre ++ c :: post →
      ∃ L, Trace (step t false) ⟨some p, c⟩ L (up_state p n) ∧ t.ValidRun L ∧
        (visited (stop_dec t) L).Pairwise (fun a b => List.Lex (· < ·) b a) ∧
        ∀ x, x ∈ visited (stop_dec t) L ↔
          ((x = p ∨ ∃ d ∈ pre, p ++ [d] <+: x) ∧ (t.value_of x).isSome = true) := by
  intro pre
  induction pre using List.reverseRecOn with
  | nil =>
    intro post c hk
    have hsk := hs p _ _ (info_at_of_node t p n hn)
    rw [hk] at hsk
    obtain ⟨_, _, hpost⟩ := keys_split_facts hsk
    have hc0 : c ≠ 0 := by
      intro e
      apply hz p _ _ (info_at_of_node t p n hn)
      rw [hk, ← e]
      simp
    have hk1 : n.get_children_keys = c :: post := by simpa using hk
    have hstop := stop_dec_first t p n hn c post hk1 hpost
    refine ⟨[⟨some p, c⟩], Trace.cons (step_backward_up t p n hn c post hc0 hk1) (Trace.nil _),
      ?_, ?_, ?_⟩
    · intro x hx
      simp only [List.mem_singleton] at hx
      subst hx
      exact ⟨p, n, rfl, hn⟩
    · cases hv : (t.value_of p).isSome with
      | true =>
        rw [visited_cons_stop _ _ _ p (by rw [hstop, hv]) rfl]
        simp [visited]
      | false =>
        rw [visited_cons_skip _ _ _ (by rw [hstop, hv])]
        simp [visited]
    · intro x
      cases hv : (t.value_of p).isSome with
      | true =>
        rw [visited_cons_stop _ _ _ p (by rw [hstop, hv]) rfl]
        simp only [visited, List.filterMap_nil, List.mem_singleton, List.not_mem_nil,
          false_and, exists_false, or_false]
        constructor
        · intro e
          subst e
          exact ⟨rfl, hv⟩
        · intro h
          exact h.1
      | false =>
        rw [visited_cons_skip _ _ _ (by rw [hstop, hv])]
        simp only [visited, List.filterMap_nil, List.not_mem_nil, false_and, exists_false,
          or_false, false_iff, not_and]
        intro e
        subst e
        rw [hv]
        simp
  | append_singleton pre d ih =>
    intro post c hk
    have hsk := hs p _ _ (info_at_of_node t p n hn)
    rw [hk] at hsk
    obtain ⟨hpre, _, hpost⟩ := keys_split_facts hsk
    have hc0 : c ≠ 0 := by
      intro e
      apply hz p _ _ (info_at_of_node t p n hn)
      rw [hk, ← e]
      simp
    have hd : d ∈ n.get_children_keys := by rw [hk]; simp
    obtain ⟨m, hm⟩ := get_child_of_mem n d hd
    obtain ⟨L1, htr1, hv1, hp1, hm1⟩ := IH d m hm
    have hk2 : n.get_children_keys = pre ++ d :: (c :: post) := by rw [hk]; simp
    obtain ⟨L2, htr2, hv2, hp2, hm2⟩ := ih (c :: post) d hk2
    have hsk2 := hs p _ _ (info_at_of_node t p n hn)
    rw [hk2] at hsk2
    have hlt : ∀ d2 ∈ pre, d2 < d := by
      intro d2 hd2
      exact (List.pairwise_append.1 hsk2).2.2 d2 hd2 d (List.mem_cons_self _ _)
    have hstop := stop_dec_later t p n hn c d pre post hk hpost
    refine ⟨⟨some p, c⟩ :: (L1 ++ L2),
      Trace.cons (step_backward_prev t p n hn c d pre post hc0 hpre hk) (htr1.append htr2),
      ?_, ?_, ?_⟩
    · intro x hx
      simp only [List.mem_cons, List.mem_append] at hx
      rcases hx with hx | hx | hx
      · subst hx
        exact ⟨p, n, rfl, hn⟩
      · exact hv1 x hx
      · exact hv2 x hx
    · rw [visited_cons_skip _ _ _ hstop, visited_append, List.pairwise_append]
      refine ⟨hp1, hp2, ?_⟩
      intro a ha b hb
      have ha1 := ((hm1 a).1 ha).1
      rcases ((hm2 b).1 hb).1 with e | ⟨d2, hd2, hb2⟩
      · subst e
        exact lex_of_below b a d ha1
      · exact lex_of_prefixes p b a d2 d (hlt d2 hd2) hb2 ha1
    · intro x
      rw [visited_cons_skip _ _ _ hstop, visited_append, List.mem_append, hm1 x, hm2 x]
      constructor
      · intro h
        rcases h with ⟨h1, h2⟩ | ⟨h1, h2⟩
        · exact ⟨Or.inr ⟨d, by simp, h1⟩, h2⟩
        · refine ⟨?_, h2⟩
          rcases h1 with e | ⟨d2, hd2, h1⟩
          · exact Or.inl e
          · exact Or.inr ⟨d2, by simp [hd2], h1⟩
      · intro ⟨h1, h2⟩
        rcases h1 with e | ⟨d2, hd2, h1⟩
        · exact Or.inr ⟨Or.inl e, h2⟩
        · rcases List.mem_append.1 hd2 with hd3 | hd3
          · exact Or.inr ⟨Or.inr ⟨d2, hd3, h1⟩, h2⟩
          · simp only [List.mem_singleton] at hd3
            subst hd3
            exact Or.inl ⟨h1, h2⟩

/-- A backward run that enters the node at `p` leaves it upwards after visiting
the keys with a value at or below `p` in descending order. -/
theorem subtree_backward (t : trie V) (hs : t.Sorted) (hz : t.NonZero) :
    ∀ (k : Nat) (n : trie_node V) (p : List Int), sizeOf n < k → t.node_at p = some n →
      ∃ L, Trace (step t false) ⟨some p, 0⟩ L (up_state p n) ∧ t.ValidRun L ∧
        t.DescendingBelow p (visited (stop_dec t) L) := by
  intro k
  induction k with
  | zero => intro n p h; omega
  | succ k ih =>
    intro n p hk hn
    rcases List.eq_nil_or_concat n.get_children_keys with hkeys | ⟨pre, kl, hkeys⟩
    · have hstop := stop_dec_leaf t p n hn 0 hkeys
      refine ⟨[⟨some p, 0⟩], Trace.cons (step_leaf t false p 0 n hn hkeys) (Trace.nil _),
        ?_, ?_, ?_⟩
      · intro x hx
        simp only [List.mem_singleton] at hx
        subst hx
        exact ⟨p, n, rfl, hn⟩
      · cases hv : (t.value_of p).isSome with
        | true =>
          rw [visited_cons_stop _ _ _ p (by rw [hstop, hv]) rfl]
          simp [visited]
        | false =>
          rw [visited_cons_skip _ _ _ (by rw [hstop, hv])]
          simp [visited]
      · intro x
        constructor
        · intro hx
          cases hv : (t.value_of p).isSome with
          | true =>
            rw [visited_cons_stop _ _ _ p (by rw [hstop, hv]) rfl] at hx
            simp only [visited, List.filterMap_nil, List.mem_singleton] at hx
            subst hx
            exact ⟨List.prefix_refl _, hv⟩
          | false =>
            rw [visited_cons_skip _ _ _ (by rw [hstop, hv])] at hx
            simp [visited] at hx
        · intro ⟨hx, hv⟩
          rcases below_cases t p x n hn hx hv with e | ⟨d, hd, _⟩
          · subst e
            rw [visited_cons_stop _ _ _ x (by rw [hstop, hv]) rfl]
            simp
          · rw [hkeys] at hd
            exact absurd hd (List.not_mem_nil _)
    · have hkeys1 : n.get_children_keys = pre ++ [kl] := by simpa using hkeys
      have IH : ∀ d m, n.get_child d = some m →
          ∃ L, Trace (step t false) ⟨some (p ++ [d]), 0⟩ L ⟨some p, d⟩ ∧ t.ValidRun L ∧
            t.DescendingBelow (p ++ [d]) (visited (stop_dec t) L) := by
        intro d m hm
        have hsz := sizeOf_child_lt n m (get_child_mem hm)
        have hnm : t.node_at (p ++ [d]) = some m := by rw [node_at_snoc t p d n hn, hm]
        obtain ⟨L, h1, h2, h3⟩ := ih m (p ++ [d]) (by omega) hnm
        refine ⟨L, ?_, h2, h3⟩
        simpa [up_state, parent_ptr_snoc, get_child_key hm] using h1
      obtain ⟨m0, hm0⟩ := get_child_of_mem n kl (by rw [hkeys1]; simp)
      obtain ⟨L1, htr1, hv1, hp1, hm1⟩ := IH kl m0 hm0
      obtain ⟨L2, htr2, hv2, hp2, hm2⟩ :=
        children_backward t hs hz p n hn IH pre [] kl hkeys1
      have hsk := hs p _ _ (info_at_of_node t p n hn)
      rw [hkeys1] at hsk
      have hlt : ∀ d ∈ pre, d < kl := by
        intro d hd
        exact (List.pairwise_append.1 hsk).2.2 d hd kl (List.mem_singleton_self _)
      have hstop := stop_dec_fresh t hz p n hn (by rw [hkeys1]; simp)
      refine ⟨⟨some p, 0⟩ :: (L1 ++ L2),
        Trace.cons (step_backward_last t p n hn kl pre hkeys1) (htr1.append htr2), ?_, ?_, ?_⟩
      · intro x hx
        simp only [List.mem_cons, List.mem_append] at hx
        rcases hx with hx | hx | hx
        · subst hx
          exact ⟨p, n, rfl, hn⟩
        · exact hv1 x hx
        · exact hv2 x hx
      · rw [visited_cons_skip _ _ _ hstop, visited_append, List.pairwise_append]
        refine ⟨hp1, hp2, ?_⟩
        intro a ha b hb
        have ha1 := ((hm1 a).1 ha).1
        rcases ((hm2 b).1 hb).1 with e | ⟨d2, hd2, hb2⟩
        · subst e
          exact lex_of_below b a kl ha1
        · exact lex_of_prefixes p b a d2 kl (hlt d2 hd2) hb2 ha1
      · intro x
        rw [visited_cons_skip _ _ _ hstop, visited_append, List.mem_append, hm1 x, hm2 x]
        constructor
        · intro h
          rcases h with ⟨h1, h2⟩ | ⟨h1, h2⟩
          · exact ⟨(List.prefix_append p [kl]).trans h1, h2⟩
          · refine ⟨?_, h2⟩
            rcases h1 with e | ⟨d2, _, h1⟩
            · rw [e]
            · exact (List.prefix_append p [d2]).trans h1
        · intro ⟨hx, hv⟩
          rcases below_cases t p x n hn hx hv with e | ⟨d, hd, hdx⟩
          · exact Or.inr ⟨Or.inl e, hv⟩
          · rw [hkeys1] at hd
            rcases List.mem_append.1 hd with hd2 | hd2
            · exact Or.inr ⟨Or.inr ⟨d, hd2, hdx⟩, hv⟩
            · simp only [List.mem_singleton] at hd2
              subst hd2
              exact Or.inl ⟨hdx, hv⟩

/-- From a freshly entered non-root node `operator--` keeps descending into the
last child and comes to rest at a node without children. -/
theorem descend_to_last_leaf (t : trie V) (hz : t.NonZero) (hd : t.NoDangling) :
    ∀ (k : Nat) (n : trie_node V) (p : List Int), sizeOf n < k → p ≠ [] →
      t.node_at p = some n → ∀ f, k ≤ f →
      ∃ q m, while_loop (dec_cond t) (step t false) f ⟨some p, 0⟩ = .ok ⟨some q, 0⟩ ∧
        t.node_at q = some m ∧ m.get_children_keys = [] := by
  intro k
  induction k with
  | zero => intro n p h; omega
  | succ k ih =>
    intro n p hk hp hn f hf
    rcases List.eq_nil_or_concat n.get_children_keys with hkeys | ⟨pre, kl, hkeys⟩
    · refine ⟨p, n, ?_, hn, hkeys⟩
      apply while_loop_exit
      rw [dec_cond_eq t _ p n rfl hn, stop_dec_leaf t p n hn 0 hkeys]
      have := hd p hp _ _ (info_at_of_node t p n hn)
      rcases this with h | h
      · rw [value_of_of_node t p n hn, h]
        rfl
      · exact absurd hkeys h
    · have hkeys1 : n.get_children_keys = pre ++ [kl] := by simpa using hkeys
      obtain ⟨m0, hm0⟩ := get_child_of_mem n kl (by rw [hkeys1]; simp)
      have hsz := sizeOf_child_lt n m0 (get_child_mem hm0)
      have hnm : t.node_at (p ++ [kl]) = some m0 := by rw [node_at_snoc t p kl n hn, hm0]
      obtain ⟨f1, rfl⟩ : ∃ f1, f = f1 + 1 := ⟨f - 1, by omega⟩
      obtain ⟨q, m, h1, h2, h3⟩ := ih m0 (p ++ [kl]) (by omega) (by simp) hnm f1 (by omega)
      refine ⟨q, m, ?_, h2, h3⟩
      have hc : dec_cond t ⟨some p, 0⟩ = .ok true := by
        rw [dec_cond_eq t _ p n rfl hn, stop_dec_fresh t hz p n hn (by rw [hkeys1]; simp)]
        rfl
      rw [while_loop_iter _ _ f1 _ _ hc (step_backward_last t p n hn kl pre hkeys1)]
      exact h1

/-- Reverse iteration over a trie that stores at least one key terminates and
visits the keys with a value in descending order. -/
theorem reverse_walk_spec (t : trie V) (hs : t.Sorted) (hz : t.NonZero) (hd : t.NoDangling)
    (hne : t._base_node.get_children_keys ≠ []) :
    ∃ N W, (∀ fuel, N ≤ fuel → t.reverse_walk fuel = .ok W) ∧ t.DescendingBelow [] W := by
  obtain ⟨L, htr, hv, hspec⟩ :=
    subtree_backward t hs hz (sizeOf t._base_node + 1) t._base_node [] (by omega) rfl
  obtain ⟨s1, L1, rfl, hb, htr1⟩ := trace_root_split t false L _ rfl htr
  have hskip : visited (stop_dec t) (⟨some [], 0⟩ :: L1) = visited (stop_dec t) L1 :=
    visited_cons_skip _ _ _ (stop_dec_fresh t hz [] t._base_node rfl hne)
  rw [hskip] at hspec
  refine ⟨L1.length + sizeOf t._base_node + 1, visited (stop_dec t) L1, ?_, hspec⟩
  intro fuel hf
  have hx : ∀ x ∈ L1, (∃ p, x._ptr = some p) ∧ dec_cond t x = .ok (!stop_dec t x) := by
    intro x hx
    obtain ⟨q, m, hq, hm⟩ := hv x (List.mem_cons_of_mem _ hx)
    exact ⟨⟨q, hq⟩, dec_cond_eq t x q m hq hm⟩
  obtain ⟨m, hm1, hm2⟩ := walk_of_trace (dec_cond t) (step t false) (stop_dec t)
    (up_state [] t._base_node) rfl rfl fuel L1 s1 fuel fuel htr1 hx (by omega) (by omega)
    (by omega)
  obtain ⟨pre, kl, hkeys⟩ : ∃ pre kl, t._base_node.get_children_keys = pre ++ [kl] := by
    rcases List.eq_nil_or_concat t._base_node.get_children_keys with h | ⟨pre, kl, h⟩
    · exact absurd h hne
    · exact ⟨pre, kl, by simpa using h⟩
  have hstep := step_backward_last t [] t._base_node rfl kl pre hkeys
  rw [hb] at hstep
  simp only [Res.ok.injEq, List.nil_append] at hstep
  obtain ⟨m0, hm0⟩ := get_child_of_mem t._base_node kl (by rw [hkeys]; simp)
  have hsz := sizeOf_child_lt t._base_node m0 (get_child_mem hm0)
  have hnm : t.node_at [kl] = some m0 := by
    have := node_at_snoc t [] kl t._base_node rfl
    simpa [hm0] using this
  obtain ⟨q, ml, h1, h2, h3⟩ := descend_to_last_leaf t hz hd (sizeOf t._base_node) m0 [kl]
    hsz (by simp) hnm fuel (by omega)
  rw [hstep, h1] at hm1
  simp only [Res.ok.injEq] at hm1
  subst hm1
  have hdec : operator_dec fuel t ⟨some [], 0⟩ = .ok ⟨some q, 0⟩ := by
    unfold operator_dec
    rw [hb, Res.ok_bind, hstep, h1]
  have hroot : rbegin_cond t ⟨some [], 0⟩ = .ok true := by
    have : t.node_at [] = some t._base_node := rfl
    simp [rbegin_cond, this, (has_children_iff_keys _).2 hne]
  have hleaf : rbegin_cond t ⟨some q, 0⟩ = .ok false := by
    have hc : ml.has_children = false := by
      cases hh : ml.has_children with
      | false => rfl
      | true => exact absurd h3 ((has_children_iff_keys ml).1 hh)
    simp [rbegin_cond, h2, hc]
  obtain ⟨f1, rfl⟩ : ∃ f1, fuel = f1 + 1 := ⟨fuel - 1, by omega⟩
  have hrb : t.rbegin (f1 + 1) = .ok ⟨some q, 0⟩ := by
    unfold trie.rbegin
    rw [while_loop_iter _ _ f1 _ _ hroot hdec]
    exact while_loop_exit _ _ _ _ hleaf
  unfold trie.reverse_walk
  rw [hrb, Res.ok_bind]
  exact hm2

theorem ascending_unique (W1 W2 : List (List Int))
    (h1 : W1.Pairwise (List.Lex (· < ·))) (h2 : W2.Pairwise (List.Lex (· < ·)))
    (hm : ∀ x, x ∈ W1 ↔ x ∈ W2) : W1 = W2 := by
  induction W1 generalizing W2 with
  | nil =>
    cases W2 with
    | nil => rfl
    | cons b W2 => exact absurd ((hm b).2 (List.mem_cons_self _ _)) (List.not_mem_nil _)
  | cons a W1 ih =>
    cases W2 with
    | nil => exact absurd ((hm a).1 (List.mem_cons_self _ _)) (List.not_mem_nil _)
    | cons b W2 =>
      rw [List.pairwise_cons] at h1 h2
      have hab : a = b := by
        rcases List.mem_cons.1 ((hm a).1 (List.mem_cons_self _ _)) with e | ha
        · exact e
        · rcases List.mem_cons.1 ((hm b).2 (List.mem_cons_self _ _)) with e | hb
          · exact e.symm
          · exact absurd (h1.1 b hb) (fun h => lex_asymm a b h (h2.1 a ha))
      subst hab
      congr 1
      apply ih W2 h1.2 h2.2
      intro x
      constructor
      · intro hx
        rcases List.mem_cons.1 ((hm x).1 (List.mem_cons_of_mem _ hx)) with e | h
        · subst e
          exact absurd (h1.1 x hx) (lex_irrefl x)
        · exact h
      · intro hx
        rcases List.mem_cons.1 ((hm x).2 (List.mem_cons_of_mem _ hx)) with e | h
        · subst e
          exact absurd (h2.1 x hx) (lex_irrefl x)
        · exact h

/-- On a trie built by at least one `insert` call, with non-empty keys that do not
contain `'\0'`, the walk from `rbegin()` to `rend()` terminates and visits the
nodes that carry a value in the exact reverse of the order of the walk from
`begin()` to `end()`.  (In `has_previous_child` the comparison after the
increment of `rend()` is read as true, see `rfind_has_next`.) -/
theorem reverse_walk_mirror (V : Type) [Inhabited V] (kvs : List (List Int × V))
    (hne : kvs ≠ []) (hk : ∀ kv ∈ kvs, kv.1 ≠ [] ∧ (0 : Int) ∉ kv.1) :
    ∃ (t : trie V) (N : Nat) (W : List (List Int)),
      trie.empty_trie.insert_all kvs = .ok t ∧
      (∀ fuel, N ≤ fuel → t.forward_walk fuel = .ok W ∧ t.reverse_walk fuel = .ok W.reverse) ∧
      (∀ x, x ∈ W ↔ (t.value_of x).isSome = true) := by
  obtain ⟨t, h1, h2, h3, h4, h5, _, h7⟩ := insert_all_spec kvs hk trie.empty_trie
    empty_trie_sorted empty_trie_nonzero empty_trie_no_dangling empty_trie_root_value
  have hroot : t._base_node.get_children_keys ≠ [] := by
    obtain ⟨kv, kvs1, rfl⟩ := List.exists_cons_of_ne_nil hne
    have hv := h7 kv (List.mem_cons_self _ _)
    obtain ⟨hkv, _⟩ := hk kv (List.mem_cons_self _ _)
    rcases below_cases t [] kv.1 t._base_node rfl List.nil_prefix hv with e | ⟨d, hd, _⟩
    · exact absurd e hkv
    · intro he
      rw [he] at hd
      exact List.not_mem_nil _ hd
  obtain ⟨N1, W1, hw1, hp1, hm1⟩ := forward_walk_spec t h2 h3 h5
  obtain ⟨N2, W2, hw2, hp2, hm2⟩ := reverse_walk_spec t h2 h3 h4 hroot
  have he : W2.reverse = W1 := by
    apply ascending_unique _ _ (List.pairwise_reverse.2 hp2) hp1
    intro x
    rw [List.mem_reverse, hm1 x, hm2 x]
  refine ⟨t, max N1 N2, W1, h1, ?_, ?_⟩
  · intro fuel hf
    refine ⟨hw1 fuel (by omega), ?_⟩
    rw [hw2 fuel (by omega), ← he, List.reverse_reverse]
  · intro x
    rw [hm1 x]
    simp

/-- C8, the code at the failing input. On the empty trie `rbegin()` is the root
position and differs from `rend()`: the reverse walk visits the root node, which
carries no value, while the forward walk visits nothing. -/
theorem reverse_walk_empty_trie :
    (trie.empty_trie.insert_all [] = .ok (trie.empty_trie : trie Nat)) ∧
      (∀ fuel, 1 ≤ fuel →
        (trie.empty_trie : trie Nat).rbegin fuel = .ok ⟨some [], 0⟩ ∧
        (trie.empty_trie : trie Nat).forward_walk fuel = .ok [] ∧
        (trie.empty_trie : trie Nat).reverse_walk fuel = .ok [[]]) ∧
      (trie.empty_trie : trie Nat).value_of [] = none := by
  refine ⟨rfl, ?_, rfl⟩
  intro fuel hf
  obtain ⟨f, rfl⟩ : ∃ f, fuel = f + 1 := ⟨fuel - 1, by omega⟩
  have hrb : (trie.empty_trie : trie Nat).rbegin (f + 1) = .ok ⟨some [], 0⟩ := rfl
  have hdec : operator_dec (f + 1) (trie.empty_trie : trie Nat) ⟨some [], 0⟩ = .ok ⟨none, 0⟩ := rfl
  have hinc : operator_inc (f + 1) (trie.empty_trie : trie Nat) ⟨some [], 0⟩ = .ok ⟨none, 0⟩ := rfl
  refine ⟨hrb, ?_, ?_⟩
  · unfold trie.forward_walk trie.begin_
    rw [hinc, Res.ok_bind]
    exact walk_end _ _ _ rfl
  · unfold trie.reverse_walk
    rw [hrb, Res.ok_bind]
    have hw := walk_end (operator_dec (f + 1) (trie.empty_trie : trie Nat)) f ⟨none, 0⟩ rfl
    simp only [walk, hdec, Res.ok_bind, hw]

/-! ## Element access and lookup -/

theorem find_end_iff (t : trie V) (k : List Int) :
    t.find k = .ok trie_end ↔ t.node_at k = none := by
  rw [find_eq]
  cases h : t.node_at k with
  | none => simp
  | some n => simp [trie_end]

theorem at_eq (t : trie V) (k : List Int) :
    t.at_ k = .ok (match t.node_at k with
      | none => .out_of_range
      | some n => .returned n.get_value) := by
  unfold trie.at_
  rw [find_eq, Res.ok_bind]
  cases h : t.node_at k with
  | none => simp [trie_end]
  | some n => simp [h]

theorem insert_success_value [Inhabited V] (t0 t : trie V) (k : List Int) (v : V)
    (it : trie_iterator) (h : t0.insert k v = .ok (t, it, true)) : t.value_of k = some v := by
  have hk : k ≠ [] := by
    intro e
    subst e
    simp [trie.insert, trie.emplacer] at h
  obtain ⟨t2, h1, h2, _⟩ := emplacer_spec t0 k hk (some v)
  unfold trie.insert at h
  rw [h1] at h
  simp only [Res.ok.injEq, Prod.mk.injEq] at h
  obtain ⟨ht, _, hb⟩ := h
  subst ht
  rw [hb, if_pos rfl] at h2
  exact h2

/-- C11. `at(k)` raises `out_of_range` exactly when `find(k)` fails, that is when
no node exists at path `k`; otherwise it returns the value slot of that node as
it is: the stored value after a successful `insert(k, v)`, and an empty slot for
a junction without value. -/
theorem at_out_of_range_iff [Inhabited V] (t : trie V) (k : List Int) :
    (t.at_ k = .ok .out_of_range ↔ t.find k = .ok trie_end) ∧
      (t.find k = .ok trie_end ↔ t.node_at k = none) ∧
      (∀ n, t.node_at k = some n → t.at_ k = .ok (.returned n.get_value)) ∧
      (∀ (t0 : trie V) (v : V) (it : trie_iterator),
        t0.insert k v = .ok (t, it, true) → t.at_ k = .ok (.returned (some v))) := by
  refine ⟨?_, find_end_iff t k, ?_, ?_⟩
  · rw [find_end_iff, at_eq]
    cases h : t.node_at k with
    | none => simp
    | some n => simp
  · intro n hn
    rw [at_eq, hn]
  · intro t0 v it h
    obtain ⟨n, _, hn, hv⟩ := find_of_value_of t k v (insert_success_value t0 t k v it h)
    rw [at_eq, hn]
    simp only [hv]

theorem at_out_of_range_iff_witness :
    (trie.empty_trie : trie Nat).insert [97, 98] 2 =
        .ok (⟨.mk 0 none [.mk 97 none [.mk 98 (some 2) []]]⟩, ⟨some [97, 98], 0⟩, true) ∧
      (⟨.mk 0 none [.mk 97 none [.mk 98 (some 2) []]]⟩ : trie Nat).at_ [97, 98] =
        .ok (.returned (some 2)) ∧
      (⟨.mk 0 none [.mk 97 none [.mk 98 (some 2) []]]⟩ : trie Nat).at_ [97] =
        .ok (.returned none) ∧
      (⟨.mk 0 none [.mk 97 none [.mk 98 (some 2) []]]⟩ : trie Nat).at_ [98] =
        .ok .out_of_range :=
  ⟨rfl,
   (at_out_of_range_iff (⟨.mk 0 none [.mk 97 none [.mk 98 (some 2) []]]⟩ : trie Nat)
      [97, 98]).2.2.2 trie.empty_trie 2 ⟨some [97, 98], 0⟩ rfl,
   (at_out_of_range_iff (⟨.mk 0 none [.mk 97 none [.mk 98 (some 2) []]]⟩ : trie Nat)
      [97]).2.2.1 (.mk 97 none [.mk 98 (some 2) []]) rfl,
   (at_out_of_range_iff (⟨.mk 0 none [.mk 97 none [.mk 98 (some 2) []]]⟩ : trie Nat)
      [98]).1.2 rfl⟩

/-- C12, as the code has it. For a non-empty key without node, `t[k]` creates the
path for `k` and returns the value slot of its node, which holds the value
`_Value()`; every other key keeps its value.  For a key whose node exists it
returns the slot of that node and the trie is unchanged. -/
theorem operator_index_spec [Inhabited V] (t : trie V) (k : List Int) :
    (k ≠ [] → t.node_at k = none →
      ∃ t1, t.operator_index k = .ok (t1, k) ∧ t1.value_of k = some default ∧
        (∀ r, r ≠ k → t1.value_of r = t.value_of r)) ∧
    (∀ n, t.node_at k = some n → t.operator_index k = .ok (t, k)) := by
  constructor
  · intro hk hn
    obtain ⟨t1, h1, h2, h3, _⟩ := emplacer_spec t k hk (some default)
    have hv : t.value_of k = none := by simp [trie.value_of, hn]
    rw [hv] at h1 h2
    simp only [Option.isNone_none, if_true, Option.getD_some] at h1 h2
    obtain ⟨m, _, hm, _⟩ := find_of_value_of t1 k default h2
    refine ⟨t1, ?_, h2, h3⟩
    unfold trie.operator_index
    rw [find_eq, hn, Res.ok_bind]
    simp only [Option.isSome_none, Bool.false_eq_true, if_false, trie_end, trie.insert, h1,
      Res.ok_bind, hm]
  · intro n hn
    unfold trie.operator_index
    rw [find_eq, hn, Res.ok_bind]
    simp [hn]

theorem operator_index_spec_witness :
    ([120] : List Int) ≠ [] ∧ scenario.node_at [120] = none ∧
      (∃ t1, scenario.operator_index [120] = .ok (t1, [120]) ∧
        t1.value_of [120] = some default ∧
        (∀ r, r ≠ [120] → t1.value_of r = scenario.value_of r)) ∧
      scenario.operator_index [97, 98] = .ok (scenario, [97, 98]) :=
  ⟨by decide, rfl, (operator_index_spec scenario [120]).1 (by decide) rfl,
    (operator_index_spec scenario [97, 98]).2 (.mk 98 (some 2) []) rfl⟩

/-- C12, counterexample. In the scenario "xyz" has no node; `t["xyz"]` returns a
slot that holds the value 0, not an empty slot (`test.cpp` asserts
`new_trie["xyz"].value_or(-1) == 0`). -/
theorem operator_index_default_value :
    scenario.node_at [120, 121, 122] = none ∧
      ∃ t1, scenario.operator_index [120, 121, 122] = .ok (t1, [120, 121, 122]) ∧
        t1.value_of [120, 121, 122] = some 0 :=
  ⟨rfl, _, rfl, rfl⟩

/-- C13, the code on the empty key. `find("")` runs no step of its loop and returns
the root position, which is not `end()`; so `count("")` is 1 and `contains("")`
is true, on every trie. -/
theorem find_empty_key (t : trie V) :
    t.find [] = .ok ⟨some [], 0⟩ ∧ (⟨some [], 0⟩ : trie_iterator)._ptr ≠ trie_end._ptr ∧
      t.count [] = .ok 1 ∧ t.contains [] = .ok true :=
  ⟨rfl, by simp [trie_end], rfl, rfl⟩

theorem count_eq (t : trie V) (k : List Int) :
    t.count k = .ok (if (t.node_at k).isSome then 1 else 0) := by
  unfold trie.count
  rw [find_eq, Res.ok_bind]
  cases h : (t.node_at k).isSome <;> simp [trie_end]

theorem contains_eq (t : trie V) (k : List Int) :
    t.contains k = .ok (t.node_at k).isSome := by
  unfold trie.contains
  rw [count_eq, Res.ok_bind]
  cases h : (t.node_at k).isSome <;> simp

/-- C14, as the code has it. For a non-empty key, `contains(k)` is true and
`count(k)` is 1 exactly when `k` has a node in the trie, and `count(k)` is 0 and
`contains(k)` false exactly when it has none; in particular they are 1 and true
for every key that holds a value. -/
theorem count_contains_iff_node (t : trie V) (k : List Int) (_hk : k ≠ []) :
    ((t.count k = .ok 1 ∧ t.contains k = .ok true) ↔ (t.node_at k).isSome = true) ∧
      ((t.count k = .ok 0 ∧ t.contains k = .ok false) ↔ t.node_at k = none) ∧
      ((t.value_of k).isSome = true → t.count k = .ok 1 ∧ t.contains k = .ok true) := by
  rw [count_eq, contains_eq]
  cases h : t.node_at k with
  | none => simp [trie.value_of, h]
  | some n => simp [trie.value_of, h]

theorem count_contains_iff_node_witness :
    ([97, 98] : List Int) ≠ [] ∧
      ((scenario.count [97, 98] = .ok 1 ∧ scenario.contains [97, 98] = .ok true) ↔
        (scenario.node_at [97, 98]).isSome = true) ∧
      ((scenario.count [97, 98] = .ok 0 ∧ scenario.contains [97, 98] = .ok false) ↔
        scenario.node_at [97, 98] = none) ∧
      ((scenario.value_of [97, 98]).isSome = true →
        scenario.count [97, 98] = .ok 1 ∧ scenario.contains [97, 98] = .ok true) :=
  ⟨by decide, count_contains_iff_node scenario [97, 98] (by decide)⟩

/-- C14, counterexample. In the trie that holds only "ab", the key "a" is a proper
prefix of a stored key and holds no value, yet `count("a")` is 1 and
`contains("a")` is true. -/
theorem count_junction :
    (trie.empty_trie : trie Nat).insert [97, 98] 2 =
        .ok (⟨.mk 0 none [.mk 97 none [.mk 98 (some 2) []]]⟩, ⟨some [97, 98], 0⟩, true) ∧
      (⟨.mk 0 none [.mk 97 none [.mk 98 (some 2) []]]⟩ : trie Nat).value_of [97] = none ∧
      (⟨.mk 0 none [.mk 97 none [.mk 98 (some 2) []]]⟩ : trie Nat).count [97] = .ok 1 ∧
      (⟨.mk 0 none [.mk 97 none [.mk 98 (some 2) []]]⟩ : trie Nat).contains [97] = .ok true :=
  ⟨rfl, rfl, rfl, rfl⟩

/-! ## get_key -/

theorem get_key_loop_eq (t : trie V) (q : List Int) :
    ∀ (key : List Int) (fuel : Nat), (t.node_at q).isSome = true → q.length < fuel →
      while_loop get_key_cond (get_key_body t) fuel (some q, key) =
        .ok (none, t._base_node.get_node_key :: (q ++ key)) := by
  induction q using List.reverseRecOn with
  | nil =>
    intro key fuel _ hf
    obtain ⟨f, rfl⟩ : ∃ f, fuel = f + 1 := ⟨fuel - 1, by omega⟩
    have hb : get_key_body t (some [], key) = .ok (none, t._base_node.get_node_key :: key) := rfl
    rw [while_loop_iter get_key_cond (get_key_body t) f (some [], key) _ rfl hb]
    exact while_loop_exit _ _ _ _ rfl
  | append_singleton q c ih =>
    intro key fuel hn hf
    obtain ⟨f, rfl⟩ : ∃ f, fuel = f + 1 := ⟨fuel - 1, by omega⟩
    obtain ⟨n, hn⟩ := Option.isSome_iff_exists.1 hn
    have hk : n.get_node_key = c := by
      unfold trie.node_at at hn
      exact descend_snoc_key hn
    have hb : get_key_body t (some (q ++ [c]), key) = .ok (some q, c :: key) := by
      simp [get_key_body, hn, hk, parent_ptr_snoc]
    rw [while_loop_iter get_key_cond (get_key_body t) f (some (q ++ [c]), key) _ rfl hb]
    have hq : (t.node_at q).isSome = true := by
      apply node_at_prefix t q [c]
      rw [hn]
      rfl
    simp only [List.length_append, List.length_singleton] at hf
    rw [ih (c :: key) f hq (by omega)]
    simp

/-- `get_key()` of a node of the tree is the label of the root followed by the
labels of the path to the node. -/
theorem get_key_eq (t : trie V) (p : List Int) (h : (t.node_at p).isSome = true) :
    t.get_key p = .ok (t._base_node.get_node_key :: p) := by
  unfold trie.get_key
  rw [get_key_loop_eq t p [] (p.length + 1) h (by omega), Res.ok_bind]
  simp

/-- C17, the code at the failing input. In the scenario `find("ab")` is the node at
path a, b, and its `get_key()` is the three characters `'\0'`, a, b: the loop
runs up to and including the root and puts the root label in front. -/
theorem get_key_starts_with_root_label :
    scenario.find [97, 98] = .ok ⟨some [97, 98], 0⟩ ∧
      scenario.get_key [97, 98] = .ok [0, 97, 98] ∧
      ([0, 97, 98] : List Int) ≠ [97, 98] :=
  ⟨rfl, get_key_eq scenario [97, 98] rfl, by decide⟩

/-! ## Erasure by position, the root, and the last key -/

/-- C18, the code at the failing input. In the scenario `erase(find("a"))` returns
the position of "ab", computed before the removal; the node of "ab" is deleted
with the subtree of "a", so the returned position refers to no node of the
resulting trie, while the smallest remaining key above "a" is "e".  Erasing the
leaf "ab" returns the position of "ac", which stays in the trie. -/
theorem erase_returns_deleted_position :
    scenario.erase 20 ⟨some [97], 0⟩ =
        .ok (⟨.mk 0 none [.mk 101 (some 5) [], .mk 102 (some 6) [.mk 103 (some 7) []]]⟩,
          ⟨some [97, 98], 0⟩) ∧
      (⟨.mk 0 none [.mk 101 (some 5) [], .mk 102 (some 6) [.mk 103 (some 7) []]]⟩ :
        trie Nat).node_at [97, 98] = none ∧
      (⟨.mk 0 none [.mk 101 (some 5) [], .mk 102 (some 6) [.mk 103 (some 7) []]]⟩ :
        trie Nat).forward_walk 20 = .ok [[101], [102], [102, 103]] ∧
      (∃ t1, scenario.erase 20 ⟨some [97, 98], 0⟩ = .ok (t1, ⟨some [97, 99], 0⟩) ∧
        t1.value_of [97, 99] = some 3) :=
  ⟨rfl, rfl, rfl, ⟨_, rfl, rfl⟩⟩

/-- C19, the code at the failing input. `find("")` is the root position, so
`t[""] = v` assigns the value slot of the root: on every trie the root carries the
value `v` afterwards. -/
theorem index_assign_empty_key_sets_root [Inhabited V] (t : trie V) (v : V) :
    t.index_assign [] v = .ok (t.update_at [] (fun x => x.assign_value v)) ∧
      (t.update_at [] (fun x => x.assign_value v)).value_of [] = some v ∧
      (trie.empty_trie : trie Nat).index_assign [] 5 = .ok ⟨.mk 0 (some 5) []⟩ := by
  refine ⟨rfl, ?_, rfl⟩
  rw [assign_value_of t [] t._base_node rfl v, if_pos rfl]

/-- When the root has neither children nor value, `release_path` enters its loop at
the root and calls `erase_child` on the root's null parent. -/
theorem release_path_at_bare_root (t : trie V) (hc : t._base_node.has_children = false)
    (hv : t._base_node.get_value = none) : t.release_path [] = .fault := by
  have hn : t.node_at [] = some t._base_node := rfl
  simp [trie.release_path, while_loop, release_cond, release_body, hn, hc, hv, trie.move_up,
    parent_ptr, Res.bind]

/-- C20, the code at the failing input. Erasing the only key of a one-key trie does
not return: after the node is removed the root has neither children nor value,
and `release_path` follows the root's null parent.  The same happens when the
path to the only key has junctions. -/
theorem erase_last_key_faults :
    (trie.empty_trie : trie Nat).insert [97] 1 =
        .ok (⟨.mk 0 none [.mk 97 (some 1) []]⟩, ⟨some [97], 0⟩, true) ∧
      (⟨.mk 0 none [.mk 97 (some 1) []]⟩ : trie Nat).value_of [97] = some 1 ∧
      (⟨.mk 0 none [.mk 97 (some 1) []]⟩ : trie Nat).erase_key [97] = .fault ∧
      (⟨.mk 0 none []⟩ : trie Nat).release_path [] = .fault ∧
      (⟨.mk 0 none [.mk 97 none [.mk 98 (some 2) []]]⟩ : trie Nat).erase_key [97, 98]
        = .fault :=
  ⟨rfl, rfl, rfl, release_path_at_bare_root _ rfl rfl, rfl⟩

/-! ## size, empty and clear -/

theorem update_cell_length (mem : List (node_cell V)) (a : Nat)
    (f : node_cell V → node_cell V) : (update_cell mem a f).length = mem.length := by
  unfold update_cell
  split <;> simp

theorem update_cell_get (mem : List (node_cell V)) (a : Nat)
    (f : node_cell V → node_cell V) (i : Nat) :
    (update_cell mem a f)[i]? = if i = a then (mem[a]?).map f else mem[i]? := by
  unfold update_cell
  cases h : mem[a]? with
  | none =>
    by_cases hi : i = a
    · subst hi
      simp [h]
    · simp [hi]
  | some c =>
    by_cases hi : i = a
    · subst hi
      have hlt : i < mem.length := by
        rcases Nat.lt_or_ge i mem.length with h1 | h1
        · exact h1
        · rw [List.getElem?_eq_none h1] at h
          exact Option.noConfusion h
      simp [List.getElem?_set, hlt]
    · have : ¬ a = i := fun e => hi e.symm
      simp [List.getElem?_set, hi, this]

mutual
theorem represents_frame (mem mem2 : List (node_cell V)) (hi hi2 : Nat) (hh : hi ≤ hi2) :
    ∀ (n : trie_node V) (lo : Nat) (par : Option Nat) (a : Nat),
      (∀ i, lo ≤ i → i < hi → mem2[i]? = mem[i]?) →
      represents mem hi lo par a n → represents mem2 hi2 lo par a n
  | .mk k v cs, lo, par, a, hf, h => by
    unfold represents at h ⊢
    obtain ⟨h1, h2, c, h3, h4, h5, h6, h7⟩ := h
    refine ⟨h1, by omega, c, ?_, h4, h5, h6, ?_⟩
    · rw [hf a h1 h2, h3]
    · exact represents_all_frame mem mem2 hi hi2 hh cs (a + 1) (some a) c._children
        (fun i hi1 hi2 => hf i (by omega) hi2) h7
theorem represents_all_frame (mem mem2 : List (node_cell V)) (hi hi2 : Nat) (hh : hi ≤ hi2) :
    ∀ (ns : List (trie_node V)) (lo : Nat) (par : Option Nat) (as : List Nat),
      (∀ i, lo ≤ i → i < hi → mem2[i]? = mem[i]?) →
      represents_all mem hi lo par as ns → represents_all mem2 hi2 lo par as ns
  | [], lo, par, [], _, _ => by
    unfold represents_all
    trivial
  | [], lo, par, a :: as, _, h => by
    unfold represents_all at h
    exact h.elim
  | n :: ns, lo, par, [], _, h => by
    unfold represents_all at h
    exact h.elim
  | n :: ns, lo, par, a :: as, hf, h => by
    unfold represents_all at h ⊢
    exact ⟨represents_frame mem mem2 hi hi2 hh n lo par a hf h.1,
      represents_all_frame mem mem2 hi hi2 hh ns lo par as hf h.2⟩
end

theorem represents_lower (mem : List (node_cell V)) (hi lo lo2 : Nat) (par : Option Nat)
    (a : Nat) (n : trie_node V) (hl : lo2 ≤ lo) (h : represents mem hi lo par a n) :
    represents mem hi lo2 par a n := by
  cases n with
  | mk k v cs =>
    unfold represents at h ⊢
    obtain ⟨h1, h2⟩ := h
    exact ⟨by omega, h2⟩

theorem represents_reparent (mem : List (node_cell V)) (hi lo : Nat) (par p : Option Nat)
    (a : Nat) (n : trie_node V) (h : represents mem hi lo par a n) :
    represents (update_cell mem a (fun y => { y with _parent := p })) hi lo p a n := by
  cases n with
  | mk k v cs =>
    unfold represents at h ⊢
    obtain ⟨h1, h2, c, h3, h4, h5, _, h7⟩ := h
    refine ⟨h1, h2, { c with _parent := p }, ?_, h4, h5, rfl, ?_⟩
    · rw [update_cell_get, if_pos rfl, h3]
      rfl
    · apply represents_all_frame mem _ hi hi (Nat.le_refl _) cs (a + 1) (some a) _ _ h7
      intro i hi1 _
      rw [update_cell_get, if_neg (by omega)]

theorem represents_all_snoc (mem : List (node_cell V)) (hi lo : Nat) (par : Option Nat)
    (a : Nat) (n : trie_node V) (hn : represents mem hi lo par a n) :
    ∀ (ns : List (trie_node V)) (as : List Nat), represents_all mem hi lo par as ns →
      represents_all mem hi lo par (as ++ [a]) (ns ++ [n])
  | [], [], _ => by
    simp only [List.nil_append]
    unfold represents_all
    exact ⟨hn, by unfold represents_all; trivial⟩
  | [], _ :: _, h => by
    unfold represents_all at h
    exact h.elim
  | _ :: _, [], h => by
    unfold represents_all at h
    exact h.elim
  | m :: ns, b :: as, h => by
    unfold represents_all at h
    simp only [List.cons_append]
    unfold represents_all
    exact ⟨h.1, represents_all_snoc mem hi lo par a n hn ns as h.2⟩

theorem represents_key (mem : List (node_cell V)) (hi lo : Nat) (par : Option Nat)
    (a : Nat) (n : trie_node V) (h : represents mem hi lo par a n) :
    cell_key mem a = n.get_node_key ∧ lo ≤ a ∧ a < hi := by
  cases n with
  | mk k v cs =>
    unfold represents at h
    obtain ⟨h1, h2, c, h3, h4, _⟩ := h
    refine ⟨?_, h1, h2⟩
    simp [cell_key, h3, h4, trie_node.get_node_key]

theorem represents_all_keys (mem : List (node_cell V)) (hi lo : Nat) (par : Option Nat) :
    ∀ (ns : List (trie_node V)) (as : List Nat), represents_all mem hi lo par as ns →
      ∀ x ∈ as, cell_key mem x ∈ ns.map trie_node.get_node_key ∧ lo ≤ x ∧ x < hi
  | [], [], _ => by
    intro x hx
    exact absurd hx (List.not_mem_nil _)
  | [], _ :: _, h => by
    unfold represents_all at h
    exact h.elim
  | _ :: _, [], h => by
    unfold represents_all at h
    exact h.elim
  | m :: ns, b :: as, h => by
    unfold represents_all at h
    intro x hx
    rcases List.mem_cons.1 hx with e | hx2
    · subst e
      obtain ⟨k1, k2, k3⟩ := represents_key mem hi lo par x m h.1
      exact ⟨by simp [k1], k2, k3⟩
    · obtain ⟨k1, k2, k3⟩ := represents_all_keys mem hi lo par ns as h.2 x hx2
      exact ⟨List.mem_cons_of_mem _ k1, k2, k3⟩

theorem addr_set_insert_last (key : Nat → Int) (a : Nat) (as : List Nat)
    (h : ∀ x ∈ as, key x < key a) : addr_set_insert key a as = as ++ [a] := by
  induction as with
  | nil => rfl
  | cons x xs ih =>
    have hx := h x (List.mem_cons_self _ _)
    unfold addr_set_insert
    rw [if_neg (by omega), if_pos hx, ih (fun y hy => h y (List.mem_cons_of_mem _ hy))]
    rfl

theorem addr_set_find_last (key : Nat → Int) (k : Int) (a : Nat) (as : List Nat)
    (h : ∀ x ∈ as, key x ≠ k) (ha : key a = k) :
    addr_set_find key k (as ++ [a]) = some a := by
  induction as with
  | nil => simp [addr_set_find, ha]
  | cons x xs ih =>
    have hx : (key x == k) = false := by simpa using h x (List.mem_cons_self _ _)
    simp only [List.cons_append, addr_set_find, hx, Bool.false_eq_true, if_false]
    exact ih (fun y hy => h y (List.mem_cons_of_mem _ hy))

theorem find_of_mem_sorted (m : trie_node V) :
    ∀ cs : List (trie_node V), (cs.map trie_node.get_node_key).Pairwise (· < ·) → m ∈ cs →
      cs.find? (fun c => c.get_node_key == m.get_node_key) = some m := by
  intro cs
  induction cs with
  | nil => intro _ hm; exact absurd hm (List.not_mem_nil _)
  | cons x xs ih =>
    intro hs hm
    simp only [List.map_cons, List.pairwise_cons] at hs
    rcases List.mem_cons.1 hm with e | hm2
    · subst e
      simp
    · have hlt := hs.1 m.get_node_key (List.mem_map_of_mem _ hm2)
      have hb : (x.get_node_key == m.get_node_key) = false := by
        have : ¬ x.get_node_key = m.get_node_key := by omega
        simpa using this
      simp only [List.find?_cons, hb]
      exact ih hs.2 hm2

theorem get_child_of_mem_sorted (n m : trie_node V)
    (hs : n.get_children_keys.Pairwise (· < ·)) (hm : m ∈ n.children) :
    n.get_child m.get_node_key = some m :=
  find_of_mem_sorted m n.children hs hm

theorem sorted_child (n m : trie_node V) (hs : (⟨n⟩ : trie V).Sorted) (hm : m ∈ n.children) :
    (⟨m⟩ : trie V).Sorted := by
  have hk : n.get_children_keys.Pairwise (· < ·) :=
    hs [] _ _ (info_at_of_node ⟨n⟩ [] n rfl)
  have hg := get_child_of_mem_sorted n m hk hm
  intro r v ks hi
  apply hs (m.get_node_key :: r) v ks
  unfold trie.info_at trie.node_at at hi ⊢
  rw [descend_cons, hg]
  exact hi

theorem cell_key_congr (mem mem2 : List (node_cell V)) (x : Nat) (h : mem2[x]? = mem[x]?) :
    cell_key mem2 x = cell_key mem x := by
  unfold cell_key
  rw [h]

mutual
/-- The copy of a node with sorted children sets: it is allocated at the next
address, the objects that existed before are untouched, and the new objects form
the same tree with parent pointers among themselves. -/
theorem copy_node_spec :
    ∀ (n : trie_node V) (mem : List (node_cell V)), (⟨n⟩ : trie V).Sorted →
      ∃ mem1, copy_node n mem = .ok (mem.length, mem1) ∧ mem.length < mem1.length ∧
        (∀ i, i < mem.length → mem1[i]? = mem[i]?) ∧
        represents mem1 mem1.length mem.length none mem.length n
  | .mk k v cs, mem, hs => by
    have hkeys : (([] ++ cs).map trie_node.get_node_key).Pairwise (· < ·) :=
      hs [] _ _ (info_at_of_node ⟨.mk k v cs⟩ [] (.mk k v cs) rfl)
    have hch : ∀ c ∈ cs, (⟨c⟩ : trie V).Sorted :=
      fun c hc => sorted_child (.mk k v cs) c hs hc
    have hrep0 : represents_all (mem ++ [(⟨k, v, none, []⟩ : node_cell V)])
        (mem ++ [(⟨k, v, none, []⟩ : node_cell V)]).length (mem.length + 1) (some mem.length)
        [] ([] : List (trie_node V)) := by
      unfold represents_all
      trivial
    obtain ⟨mem1, as1, h1, h2, h3, h4, h5⟩ := copy_children_spec cs [] mem.length
      (mem ++ [⟨k, v, none, []⟩]) k v none [] (by simp) (by simp) hrep0 hkeys hch
    simp only [List.length_append, List.length_singleton] at h2
    refine ⟨mem1, ?_, by omega, ?_, ?_⟩
    · simp only [copy_node, h1, Res.ok_bind]
    · intro i hi
      rw [h3 i hi, List.getElem?_append_left hi]
    · unfold represents
      exact ⟨Nat.le_refl _, by omega, ⟨k, v, none, as1⟩, h4, rfl, rfl, rfl, by simpa using h5⟩
/-- The loop over the children, entered with the children `pre` already copied. -/
theorem copy_children_spec :
    ∀ (cs pre : List (trie_node V)) (this : Nat) (mem : List (node_cell V)) (k : Int)
      (v : Option V) (par : Option Nat) (as : List Nat),
      this < mem.length → mem[this]? = some ⟨k, v, par, as⟩ →
      represents_all mem mem.length (this + 1) (some this) as pre →
      ((pre ++ cs).map trie_node.get_node_key).Pairwise (· < ·) →
      (∀ c ∈ cs, (⟨c⟩ : trie V).Sorted) →
      ∃ mem1 as1, copy_children cs this mem = .ok mem1 ∧ mem.length ≤ mem1.length ∧
        (∀ i, i < this → mem1[i]? = mem[i]?) ∧ mem1[this]? = some ⟨k, v, par, as1⟩ ∧
        represents_all mem1 mem1.length (this + 1) (some this) as1 (pre ++ cs)
  | [], pre, this, mem, k, v, par, as, _, hcell, hrep, _, _ =>
    ⟨mem, as, rfl, Nat.le_refl _, fun _ _ => rfl, hcell, by simpa using hrep⟩
  | c :: cs, pre, this, mem, k, v, par, as, hlt, hcell, hrep, hkeys, hch => by
    obtain ⟨mem1, e1, l1, f1, r1⟩ := copy_node_spec c mem (hch c (List.mem_cons_self _ _))
    have hthis1 : mem1[this]? = some ⟨k, v, par, as⟩ := (f1 this hlt).trans hcell
    have hold := represents_all_keys mem mem.length (this + 1) (some this) pre as hrep
    have hkc : cell_key mem1 mem.length = c.get_node_key :=
      (represents_key mem1 mem1.length mem.length none mem.length c r1).1
    have hpre : ∀ y ∈ pre.map trie_node.get_node_key, y < c.get_node_key := by
      intro y hy
      simp only [List.map_append, List.map_cons] at hkeys
      exact (List.pairwise_append.1 hkeys).2.2 y hy _ (List.mem_cons_self _ _)
    have hk1 : ∀ x ∈ as, cell_key mem1 x < c.get_node_key := by
      intro x hx
      obtain ⟨a1, _, a3⟩ := hold x hx
      rw [cell_key_congr mem mem1 x (f1 x a3)]
      exact hpre _ a1
    have hins : addr_set_insert (cell_key mem1) mem.length as = as ++ [mem.length] :=
      addr_set_insert_last _ _ _ (fun x hx => by rw [hkc]; exact hk1 x hx)
    have hmem2 : ∀ i, (update_cell mem1 this (fun x => { x with _children := addr_set_insert (cell_key mem1) mem.length x._children }))[i]? =
        if i = this then some ⟨k, v, par, as ++ [mem.length]⟩ else mem1[i]? := by
      intro i
      rw [update_cell_get]
      by_cases hi : i = this
      · rw [if_pos hi, if_pos hi, hthis1]
        simp only [Option.map_some', hins]
      · rw [if_neg hi, if_neg hi]
    have hfind : addr_set_find (cell_key (update_cell mem1 this (fun x => { x with _children := addr_set_insert (cell_key mem1) mem.length x._children }))) c.get_node_key
        (as ++ [mem.length]) = some mem.length := by
      apply addr_set_find_last
      · intro x hx
        obtain ⟨_, a2, _⟩ := hold x hx
        rw [cell_key_congr mem1 _ x (by rw [hmem2 x, if_neg (by omega)])]
        have := hk1 x hx
        omega
      · rw [cell_key_congr mem1 _ mem.length (by rw [hmem2, if_neg (by omega)])]
        exact hkc
    have hlen3 : (update_cell (update_cell mem1 this (fun x => { x with _children := addr_set_insert (cell_key mem1) mem.length x._children })) mem.length
        (fun y => { y with _parent := some this })).length = mem1.length := by
      rw [update_cell_length, update_cell_length]
    have hmem3 : ∀ i, i ≠ mem.length → (update_cell (update_cell mem1 this (fun x => { x with _children := addr_set_insert (cell_key mem1) mem.length x._children }))
        mem.length (fun y => { y with _parent := some this }))[i]? =
        if i = this then some ⟨k, v, par, as ++ [mem.length]⟩ else mem1[i]? := by
      intro i hi
      rw [update_cell_get, if_neg hi, hmem2]
    have hrep3 : represents_all (update_cell (update_cell mem1 this (fun x => { x with _children := addr_set_insert (cell_key mem1) mem.length x._children }))
        mem.length (fun y => { y with _parent := some this }))
        (update_cell (update_cell mem1 this (fun x => { x with _children := addr_set_insert (cell_key mem1) mem.length x._children }))
        mem.length (fun y => { y with _parent := some this })).length
        (this + 1) (some this) (as ++ [mem.length]) (pre ++ [c]) := by
      rw [hlen3]
      apply represents_all_snoc
      · apply represents_lower _ _ mem.length (this + 1) _ _ _ (by omega)
        apply represents_reparent
        apply represents_frame mem1 _ mem1.length mem1.length (Nat.le_refl _) c _ _ _ _ r1
        intro i hi1 _
        rw [hmem2, if_neg (by omega)]
      · apply represents_all_frame mem _ mem.length mem1.length (by omega) pre _ _ _ _ hrep
        intro i hi1 hi2
        rw [hmem3 i (by omega), if_neg (by omega), f1 i hi2]
    have hkeys3 : (((pre ++ [c]) ++ cs).map trie_node.get_node_key).Pairwise (· < ·) := by
      simpa using hkeys
    obtain ⟨mem4, as4, g1, g2, g3, g4, g5⟩ := copy_children_spec cs (pre ++ [c]) this _ k v par
      (as ++ [mem.length]) (by rw [hlen3]; omega)
      (by rw [hmem3 this (by omega), if_pos rfl]) hrep3 hkeys3
      (fun c2 hc2 => hch c2 (List.mem_cons_of_mem _ hc2))
    refine ⟨mem4, as4, ?_, ?_, ?_, g4, by simpa using g5⟩
    · simp only [copy_children, e1, Res.ok_bind, hmem2 this, if_true, hfind]
      exact g1
    · rw [hlen3] at g2
      omega
    · intro i hi
      rw [g3 i hi, hmem3 i (by omega), if_neg (by omega), f1 i (by omega)]
end

theorem sorted_mk (k : Int) (v : Option V) (cs : List (trie_node V))
    (hk : (cs.map trie_node.get_node_key).Pairwise (· < ·))
    (hc : ∀ c ∈ cs, (⟨c⟩ : trie V).Sorted) : (⟨.mk k v cs⟩ : trie V).Sorted := by
  intro r w ks h
  cases r with
  | nil =>
    have e := info_at_of_node ⟨.mk k v cs⟩ [] (.mk k v cs) rfl
    rw [e] at h
    simp only [Option.some.injEq, Prod.mk.injEq] at h
    rw [← h.2]
    exact hk
  | cons c p =>
    unfold trie.info_at trie.node_at at h
    rw [descend_cons] at h
    cases hg : (trie_node.mk k v cs).get_child c with
    | none =>
      rw [hg] at h
      simp at h
    | some m =>
      rw [hg] at h
      have hm : m ∈ cs := List.mem_of_find?_eq_some hg
      exact hc m hm p w ks h

theorem represents_cell (mem : List (node_cell V)) (hi lo : Nat) (par : Option Nat)
    (a : Nat) (n : trie_node V) (h : represents mem hi lo par a n) :
    ∃ c, mem[a]? = some c ∧ c._value = n.get_value := by
  cases n with
  | mk k v cs =>
    unfold represents at h
    obtain ⟨_, _, c, h3, _, h5, _⟩ := h
    exact ⟨c, h3, h5⟩

theorem addr_set_find_represents (mem : List (node_cell V)) (hi lo : Nat) (par : Option Nat)
    (k : Int) :
    ∀ (ns : List (trie_node V)) (as : List Nat), represents_all mem hi lo par as ns →
      (addr_set_find (cell_key mem) k as = none ∧
        ns.find? (fun c => c.get_node_key == k) = none) ∨
      ∃ b m, addr_set_find (cell_key mem) k as = some b ∧
        ns.find? (fun c => c.get_node_key == k) = some m ∧ represents mem hi lo par b m
  | [], [], _ => Or.inl ⟨rfl, rfl⟩
  | [], _ :: _, h => by
    unfold represents_all at h
    exact h.elim
  | _ :: _, [], h => by
    unfold represents_all at h
    exact h.elim
  | n :: ns, a :: as, h => by
    unfold represents_all at h
    obtain ⟨h1, h2⟩ := h
    have hk := (represents_key _ _ _ _ _ _ h1).1
    cases e : (n.get_node_key == k) with
    | true =>
      refine Or.inr ⟨a, n, ?_, ?_, h1⟩
      · simp only [addr_set_find, hk, e, if_true]
      · simp only [List.find?_cons, e]
    | false =>
      simp only [addr_set_find, hk, e, List.find?_cons, Bool.false_eq_true, if_false]
      exact addr_set_find_represents mem hi lo par k ns as h2

theorem cell_find_represents (mem : List (node_cell V)) (hi : Nat) (key : List Int) :
    ∀ (n : trie_node V) (lo : Nat) (par : Option Nat) (a : Nat),
      represents mem hi lo par a n →
      (cell_find mem a key = none ∧ n.descend key = none) ∨
      ∃ b m par2, cell_find mem a key = some b ∧ n.descend key = some m ∧
        represents mem hi lo par2 b m := by
  induction key with
  | nil =>
    intro n lo par a h
    exact Or.inr ⟨a, n, par, rfl, rfl, h⟩
  | cons k ks ih =>
    intro n lo par a h
    cases n with
    | mk k0 v cs =>
      unfold represents at h
      obtain ⟨h1, h2, c, h3, h4, h5, h6, h7⟩ := h
      rw [descend_cons]
      simp only [cell_find, cell_get_child, h3, trie_node.get_child, trie_node.children]
      rcases addr_set_find_represents mem hi (a + 1) (some a) k cs c._children h7 with
        ⟨e1, e2⟩ | ⟨b, m, e1, e2, e3⟩
      · left
        rw [e1, e2]
        exact ⟨rfl, rfl⟩
      · rw [e1, e2]
        simp only [Option.some_bind]
        rcases ih m (a + 1) (some a) b e3 with ⟨g1, g2⟩ | ⟨b2, m2, par2, g1, g2, g3⟩
        · exact Or.inl ⟨g1, g2⟩
        · exact Or.inr ⟨b2, m2, par2, g1, g2,
            represents_lower _ _ _ _ _ _ _ (by omega) g3⟩

theorem cell_lookup_represents (mem : List (node_cell V)) (hi lo : Nat) (par : Option Nat)
    (a : Nat) (n : trie_node V) (h : represents mem hi lo par a n) (key : List Int) :
    cell_lookup mem a key = (n.descend key).map trie_node.get_value := by
  unfold cell_lookup
  rcases cell_find_represents mem hi key n lo par a h with ⟨g1, g2⟩ | ⟨b, m, par2, g1, g2, g3⟩
  · rw [g1, g2]
    rfl
  · obtain ⟨c, hc, hv⟩ := represents_cell _ _ _ _ _ _ g3
    rw [g1, g2]
    simp only [Option.some_bind, hc, Option.map_some', hv]

mutual
theorem represents_unique (mem : List (node_cell V)) :
    ∀ (n n2 : trie_node V) (hi hi2 lo lo2 : Nat) (par par2 : Option Nat) (a : Nat),
      represents mem hi lo par a n → represents mem hi2 lo2 par2 a n2 → n = n2
  | .mk k v cs, .mk k2 v2 cs2, hi, hi2, lo, lo2, par, par2, a, h, h2 => by
    unfold represents at h h2
    obtain ⟨_, _, c, e1, e2, e3, _, e4⟩ := h
    obtain ⟨_, _, c2, f1, f2, f3, _, f4⟩ := h2
    rw [e1] at f1
    simp only [Option.some.injEq] at f1
    subst f1
    rw [← e2, ← e3, ← f2, ← f3,
      represents_all_unique mem cs cs2 hi hi2 (a + 1) (a + 1) (some a) (some a) c._children e4 f4]
theorem represents_all_unique (mem : List (node_cell V)) :
    ∀ (ns ns2 : List (trie_node V)) (hi hi2 lo lo2 : Nat) (par par2 : Option Nat)
      (as : List Nat),
      represents_all mem hi lo par as ns → represents_all mem hi2 lo2 par2 as ns2 → ns = ns2
  | [], [], _, _, _, _, _, _, _, _, _ => rfl
  | [], _ :: _, _, _, _, _, _, _, [], _, h2 => by
    unfold represents_all at h2
    exact h2.elim
  | [], _ :: _, _, _, _, _, _, _, _ :: _, h, _ => by
    unfold represents_all at h
    exact h.elim
  | _ :: _, [], _, _, _, _, _, _, [], h, _ => by
    unfold represents_all at h
    exact h.elim
  | _ :: _, [], _, _, _, _, _, _, _ :: _, _, h2 => by
    unfold represents_all at h2
    exact h2.elim
  | _ :: _, _ :: _, _, _, _, _, _, _, [], h, _ => by
    unfold represents_all at h
    exact h.elim
  | n :: ns, n2 :: ns2, hi, hi2, lo, lo2, par, par2, a :: as, h, h2 => by
    unfold represents_all at h h2
    rw [represents_unique mem n n2 hi hi2 lo lo2 par par2 a h.1 h2.1,
      represents_all_unique mem ns ns2 hi hi2 lo lo2 par par2 as h.2 h2.2]
end

theorem cell_key_update_value (mem : List (node_cell V)) (b : Nat) (x : Option V) (i : Nat) :
    cell_key (update_cell mem b (fun c => { c with _value := x })) i = cell_key mem i := by
  unfold cell_key
  rw [update_cell_get]
  by_cases hi : i = b
  · subst hi
    rw [if_pos rfl]
    cases mem[i]? <;> rfl
  · rw [if_neg hi]

theorem cell_find_update_value (mem : List (node_cell V)) (b : Nat) (x : Option V)
    (key : List Int) :
    ∀ a, cell_find (update_cell mem b (fun c => { c with _value := x })) a key =
      cell_find mem a key := by
  have hk : cell_key (update_cell mem b (fun c => { c with _value := x })) = cell_key mem :=
    funext (cell_key_update_value mem b x)
  have hg : ∀ a k, cell_get_child (update_cell mem b (fun c => { c with _value := x })) a k =
      cell_get_child mem a k := by
    intro a k
    unfold cell_get_child
    rw [hk, update_cell_get]
    by_cases hi : a = b
    · subst hi
      rw [if_pos rfl]
      cases mem[a]? <;> rfl
    · rw [if_neg hi]
  induction key with
  | nil => intro a; rfl
  | cons k ks ih =>
    intro a
    simp only [cell_find, hg]
    cases cell_get_child mem a k with
    | none => rfl
    | some b2 => exact ih b2

/-- C16. Copy construction on a memory of node objects. Let `T1` (children sets in
ascending order of label, as `std::set` keeps them) live in the memory `mem0` with its
root object at `r1`. Then `trie(T1)` returns, its root object is the fresh address
`mem0.length`, and in the memory `mem1` after the call: the objects from that address
on form a tree with the node structure, labels and values of `T1`, in which the root
has no parent and the parent of every child is the copied owner, at an address at
which `mem0` has no object; that tree is the only one the new root stands for; every
lookup on the copy and on `T1` gives what the tree of `T1` gives; every memory that
agrees with `mem1` on the objects of `mem0` gives the lookups on `T1` that `mem0`
gives; and `T2[key] = value` for a key with a node succeeds, is seen by the lookup on
the copy, and leaves every lookup on `T1` unchanged. -/
theorem copy_deep_and_independent (T1 : trie V) (mem0 : List (node_cell V)) (r1 : Nat)
    (hs : T1.Sorted) (h1 : represents mem0 mem0.length 0 none r1 T1._base_node) :
    ∃ mem1, T1.copy mem0 = .ok (mem0.length, mem1) ∧
      represents mem1 mem1.length mem0.length none mem0.length T1._base_node ∧
      (∀ n hi lo par, represents mem1 hi lo par mem0.length n → n = T1._base_node) ∧
      (∀ key, cell_lookup mem1 mem0.length key = (T1.node_at key).map trie_node.get_value ∧
        cell_lookup mem0 r1 key = (T1.node_at key).map trie_node.get_value) ∧
      (∀ mem2 : List (node_cell V), (∀ i, i < mem0.length → mem2[i]? = mem1[i]?) →
        ∀ key, cell_lookup mem2 r1 key = cell_lookup mem0 r1 key) ∧
      (∀ key value, (T1.node_at key).isSome = true →
        ∃ mem2, cell_index_assign mem1 mem0.length key value = some mem2 ∧
          cell_lookup mem2 mem0.length key = some (some value) ∧
          ∀ k, cell_lookup mem2 r1 k = cell_lookup mem0 r1 k) := by
  obtain ⟨mem1, e, _, f, r⟩ := copy_node_spec T1._base_node mem0 hs
  have h5 : ∀ mem2 : List (node_cell V), (∀ i, i < mem0.length → mem2[i]? = mem1[i]?) →
      ∀ key, cell_lookup mem2 r1 key = cell_lookup mem0 r1 key := by
    intro mem2 hf key
    rw [cell_lookup_represents mem2 mem0.length 0 none r1 T1._base_node
        (represents_frame mem0 mem2 mem0.length mem0.length (Nat.le_refl _) _ 0 none r1
          (fun i _ hi => (hf i hi).trans (f i hi)) h1),
      cell_lookup_represents mem0 mem0.length 0 none r1 T1._base_node h1]
  refine ⟨mem1, e, r, ?_, ?_, h5, ?_⟩
  · intro n hi lo par h
    exact represents_unique mem1 n _ _ _ _ _ _ _ _ h r
  · intro key
    exact ⟨cell_lookup_represents mem1 _ _ _ _ _ r key,
      cell_lookup_represents mem0 _ _ _ _ _ h1 key⟩
  · intro key value hn
    rcases cell_find_represents mem1 mem1.length key T1._base_node mem0.length none
      mem0.length r with ⟨_, g2⟩ | ⟨b, m, par2, g1, _, g3⟩
    · unfold trie.node_at at hn
      rw [g2] at hn
      exact absurd hn (by simp)
    · obtain ⟨c, hc, _⟩ := represents_cell _ _ _ _ _ _ g3
      have hb := (represents_key _ _ _ _ _ _ g3).2.1
      refine ⟨update_cell mem1 b (fun c => { c with _value := some value }), ?_, ?_, ?_⟩
      · unfold cell_index_assign
        rw [g1]
        rfl
      · unfold cell_lookup
        rw [cell_find_update_value, g1]
        simp only [Option.some_bind, update_cell_get, if_true, hc, Option.map_some']
      · apply h5
        intro i hi
        rw [update_cell_get, if_neg (by omega)]

theorem copy_deep_and_independent_witness :
    (⟨.mk 0 none [.mk 120 (some 1) []]⟩ : trie Nat).Sorted ∧
    represents [(⟨0, none, none, [1]⟩ : node_cell Nat), ⟨120, some 1, some 0, []⟩] 2 0 none 0
      (.mk 0 none [.mk 120 (some 1) []]) ∧
    ∃ mem1, (⟨.mk 0 none [.mk 120 (some 1) []]⟩ : trie Nat).copy
        [⟨0, none, none, [1]⟩, ⟨120, some 1, some 0, []⟩] = .ok (2, mem1) ∧
      represents mem1 mem1.length 2 none 2 (.mk 0 none [.mk 120 (some 1) []]) ∧
      (∀ n hi lo par, represents mem1 hi lo par 2 n → n = .mk 0 none [.mk 120 (some 1) []]) ∧
      (∀ key, cell_lookup mem1 2 key =
          ((⟨.mk 0 none [.mk 120 (some 1) []]⟩ : trie Nat).node_at key).map
            trie_node.get_value ∧
        cell_lookup [⟨0, none, none, [1]⟩, ⟨120, some 1, some 0, []⟩] 0 key =
          ((⟨.mk 0 none [.mk 120 (some 1) []]⟩ : trie Nat).node_at key).map
            trie_node.get_value) ∧
      (∀ mem2 : List (node_cell Nat), (∀ i, i < 2 → mem2[i]? = mem1[i]?) →
        ∀ key, cell_lookup mem2 0 key =
          cell_lookup [⟨0, none, none, [1]⟩, ⟨120, some 1, some 0, []⟩] 0 key) ∧
      (∀ key value,
        ((⟨.mk 0 none [.mk 120 (some 1) []]⟩ : trie Nat).node_at key).isSome = true →
        ∃ mem2, cell_index_assign mem1 2 key value = some mem2 ∧
          cell_lookup mem2 2 key = some (some value) ∧
          ∀ k, cell_lookup mem2 0 k =
            cell_lookup [⟨0, none, none, [1]⟩, ⟨120, some 1, some 0, []⟩] 0 k) :=
  have hs : (⟨.mk 0 none [.mk 120 (some 1) []]⟩ : trie Nat).Sorted :=
    sorted_mk _ _ _ (by simp [trie_node.get_node_key])
      (fun c hc => by
        rw [List.mem_singleton.1 hc]
        exact sorted_mk _ _ _ (by simp) (fun _ h => absurd h (List.not_mem_nil _)))
  have h1 : represents [(⟨0, none, none, [1]⟩ : node_cell Nat), ⟨120, some 1, some 0, []⟩]
      2 0 none 0 (.mk 0 none [.mk 120 (some 1) []]) := by
    simp [represents, represents_all]
  ⟨hs, h1, copy_deep_and_independent ⟨.mk 0 none [.mk 120 (some 1) []]⟩
    [⟨0, none, none, [1]⟩, ⟨120, some 1, some 0, []⟩] 0 hs h1⟩

/-- The example of the copy on the memory that holds `T1` = {x:1} (`'x'` is 120): the
copy takes the addresses 2 and 3, and after `T2["x"] = 2` the lookup of "x" gives 2
on the copy and 1 on `T1`. -/
theorem copy_then_assign_example :
    (⟨.mk 0 none [.mk 120 (some 1) []]⟩ : trie Nat).copy
        [⟨0, none, none, [1]⟩, ⟨120, some 1, some 0, []⟩] =
      .ok (2, [⟨0, none, none, [1]⟩, ⟨120, some 1, some 0, []⟩,
        ⟨0, none, none, [3]⟩, ⟨120, some 1, some 2, []⟩]) ∧
    cell_index_assign [(⟨0, none, none, [1]⟩ : node_cell Nat), ⟨120, some 1, some 0, []⟩,
        ⟨0, none, none, [3]⟩, ⟨120, some 1, some 2, []⟩] 2 [120] 2 =
      some [⟨0, none, none, [1]⟩, ⟨120, some 1, some 0, []⟩,
        ⟨0, none, none, [3]⟩, ⟨120, some 2, some 2, []⟩] ∧
    cell_lookup [(⟨0, none, none, [1]⟩ : node_cell Nat), ⟨120, some 1, some 0, []⟩,
        ⟨0, none, none, [3]⟩, ⟨120, some 2, some 2, []⟩] 2 [120] = some (some 2) ∧
    cell_lookup [(⟨0, none, none, [1]⟩ : node_cell Nat), ⟨120, some 1, some 0, []⟩,
        ⟨0, none, none, [3]⟩, ⟨120, some 2, some 2, []⟩] 0 [120] = some (some 1) :=
  ⟨rfl, rfl, rfl, rfl⟩

/-! ## `insert_child` -/

theorem set_insert_present (new : trie_node V) (cs : List (trie_node V))
    (hs : (cs.map trie_node.get_node_key).Pairwise (· < ·))
    (hm : new.get_node_key ∈ cs.map trie_node.get_node_key) : set_insert new cs = cs := by
  induction cs with
  | nil => exact absurd hm (List.not_mem_nil _)
  | cons y ys ih =>
    simp only [List.map_cons, List.pairwise_cons] at hs
    simp only [List.map_cons, List.mem_cons] at hm
    unfold set_insert
    by_cases h1 : new.get_node_key < y.get_node_key
    · rcases hm with e | hm
      · omega
      · have := hs.1 _ hm
        omega
    · rw [if_neg h1]
      by_cases h2 : y.get_node_key < new.get_node_key
      · rw [if_pos h2, ih hs.2 (hm.resolve_left (by omega))]
      · rw [if_neg h2]

theorem cell_insert_child_spec (mem : List (node_cell V)) (this : Nat) (key : Int)
    (value : Option V) (x : node_cell V) (hx : mem[this]? = some x) :
    ∃ mem1, cell_insert_child mem this key value = .ok (mem.length, mem1) ∧
      mem1[mem.length]? = some ⟨key, value, some this, []⟩ ∧
      ∀ i, i < mem.length → i ≠ this → mem1[i]? = mem[i]? := by
  have hlt : this < mem.length := by
    rcases Nat.lt_or_ge this mem.length with h | h
    · exact h
    · rw [List.getElem?_eq_none h] at hx
      exact Option.noConfusion hx
  have h : cell_insert_child mem this key value = .ok (mem.length,
      update_cell (update_cell (mem ++ [⟨key, value, none, []⟩]) mem.length
        (fun y => { y with _parent := some this })) this
        (fun x => { x with _children := addr_set_insert (cell_key (update_cell
          (mem ++ [⟨key, value, none, []⟩]) mem.length
          (fun y => { y with _parent := some this }))) mem.length x._children })) := by
    simp only [cell_insert_child, hx]
  refine ⟨_, h, ?_, ?_⟩
  · rw [update_cell_get, if_neg (by omega), update_cell_get, if_pos rfl]
    simp
  · intro i hi hne
    rw [update_cell_get, if_neg hne, update_cell_get, if_neg (by omega),
      List.getElem?_append_left hi]

/-- C21, the code at the failing input. The node with the child "a" (value 1, itself
with a child "b") is asked `insert_child('a', 9)`: the children set is unchanged, but
the call returns the node it has just constructed, with value 9 and no children, not
the existing child; on the memory of node objects the existing child is at address
1 and the returned address is the fresh one, 3, whose parent is set to the node
although the node does not own it.  In general the returned object is always the
fresh one; with a child labelled `c` present the children set is unchanged; without
one the set gains exactly the new child, which `get_child(c)` then gives; and
`insert_node`, which tests `has_child` first, returns the existing child with the
flag false and changes nothing. -/
theorem insert_child_returns_fresh_node :
    (trie_node.mk 0 none [.mk 97 (some 1) [.mk 98 (some 2) []]] : trie_node Nat).get_child 97 =
        some (.mk 97 (some 1) [.mk 98 (some 2) []]) ∧
      (trie_node.mk 0 none [.mk 97 (some 1) [.mk 98 (some 2) []]] : trie_node Nat).insert_child
          97 (some 9) =
        (.mk 0 none [.mk 97 (some 1) [.mk 98 (some 2) []]], .mk 97 (some 9) []) ∧
      cell_get_child [(⟨0, none, none, [1]⟩ : node_cell Nat), ⟨97, some 1, some 0, [2]⟩,
          ⟨98, some 2, some 1, []⟩] 0 97 = some 1 ∧
      cell_insert_child [(⟨0, none, none, [1]⟩ : node_cell Nat), ⟨97, some 1, some 0, [2]⟩,
          ⟨98, some 2, some 1, []⟩] 0 97 (some 9) =
        .ok (3, [⟨0, none, none, [1]⟩, ⟨97, some 1, some 0, [2]⟩, ⟨98, some 2, some 1, []⟩,
          ⟨97, some 9, some 0, []⟩]) ∧
      (∀ (V : Type) (mem : List (node_cell V)) (this : Nat) (key : Int) (value : Option V)
        (x : node_cell V), mem[this]? = some x →
        ∃ mem1, cell_insert_child mem this key value = .ok (mem.length, mem1) ∧
          mem1[mem.length]? = some ⟨key, value, some this, []⟩ ∧
          ∀ i, i < mem.length → i ≠ this → mem1[i]? = mem[i]?) ∧
      (∀ (V : Type) (n m : trie_node V) (c : Int) (v : Option V),
        n.get_children_keys.Pairwise (· < ·) → n.get_child c = some m →
        (n.insert_child c v).1 = n ∧ (n.insert_child c v).2 = .mk c v []) ∧
      (∀ (V : Type) (n : trie_node V) (c : Int) (v : Option V), n.has_child c = false →
        (n.insert_child c v).2 = .mk c v [] ∧
        (n.insert_child c v).1.get_child c = some (n.insert_child c v).2 ∧
        (∀ c2, c2 ≠ c → (n.insert_child c v).1.get_child c2 = n.get_child c2) ∧
        ∀ x, x ∈ (n.insert_child c v).1.get_children_keys ↔ x = c ∨ x ∈ n.get_children_keys) ∧
      (∀ (V : Type) (t : trie V) (cur : List Int) (n : trie_node V) (c : Int) (v : Option V),
        t.node_at cur = some n → n.has_child c = true →
        t.insert_node cur c v = .ok (t, some (cur ++ [c]), false)) := by
  refine ⟨rfl, rfl, rfl, rfl, ?_, ?_, ?_, ?_⟩
  · intro V mem this key value x hx
    exact cell_insert_child_spec mem this key value x hx
  · intro V n m c v hs hg
    refine ⟨?_, rfl⟩
    have hm := mem_keys_of_get_child n m c hg
    cases n with
    | mk k w cs =>
      have e : set_insert (.mk c v []) (trie_node.mk k w cs).children =
          (trie_node.mk k w cs).children := set_insert_present (.mk c v []) cs hs hm
      unfold trie_node.insert_child
      rw [e]
      rfl
  · intro V n c v h
    refine ⟨rfl, ?_, ?_, ?_⟩
    · rw [get_child_insert_child n c v h c, if_pos rfl]
      rfl
    · intro c2 h2
      rw [get_child_insert_child n c v h c2, if_neg h2]
    · intro x
      exact mem_keys_set_insert (.mk c v []) n.children x
  · intro V t cur n c v hn h
    exact insert_node_old t cur n hn c v h

/-! ## The first positions, stepping back, the empty key, the label `'\0'` -/

/-- C22, the code at the failing input. On the empty trie `begin()` is `end()`, but
the loop of `rbegin()` runs no step when the root has no children, so `rbegin()`
is the position of the root node and differs from `rend()`; the same holds after
`clear()` on any trie. -/
theorem rbegin_of_empty_trie_is_root (V : Type) (fuel : Nat) :
    (trie.empty_trie : trie V).begin_ fuel = .ok trie_end ∧
      (trie.empty_trie : trie V).rbegin fuel = .ok ⟨some [], 0⟩ ∧
      (trie.empty_trie : trie V).node_at [] = some (trie.empty_trie : trie V)._base_node ∧
      (⟨some [], 0⟩ : trie_iterator)._ptr ≠ trie_end._ptr ∧
      (∀ t : trie V, t.clear.empty = true ∧ t.clear.rbegin fuel = .ok ⟨some [], 0⟩) := by
  refine ⟨by cases fuel <;> rfl, by cases fuel <;> rfl, rfl, by simp [trie_end], ?_⟩
  intro t
  refine ⟨rfl, ?_⟩
  unfold trie.rbegin
  exact while_loop_exit _ _ _ _ rfl

/-- C23, the code at the failing input. In the scenario, forward iteration from
`begin()` reaches "e" after "ad"; "e" is not the last element. `++it` moves to "f",
whose node has the child "g", and `--` from there descends into the last child: the
iterator is at "fg", not back at "e". -/
theorem dec_after_inc_descends :
    trie.empty_trie.insert_all
        [([97], 1), ([101], 5), ([102], 6), ([97, 98], 2), ([97, 99], 3), ([97, 100], 4),
          ([102, 103], 7)] = .ok scenario ∧
      scenario.forward_walk 20 =
        .ok [[97], [97, 98], [97, 99], [97, 100], [101], [102], [102, 103]] ∧
      operator_inc 20 scenario ⟨some [97, 100], 0⟩ = .ok ⟨some [101], 0⟩ ∧
      operator_inc 20 scenario ⟨some [101], 0⟩ = .ok ⟨some [102], 0⟩ ∧
      operator_dec 20 scenario ⟨some [102], 0⟩ = .ok ⟨some [102, 103], 0⟩ ∧
      (⟨some [102, 103], 0⟩ : trie_iterator)._ptr ≠ (⟨some [101], 0⟩ : trie_iterator)._ptr ∧
      (operator_inc 20 scenario ⟨some [97], 0⟩).bind (operator_dec 20 scenario) =
        .ok ⟨some [97], 98⟩ :=
  ⟨rfl, rfl, rfl, rfl, rfl, by decide, rfl⟩

/-- C24, the code at the failing input. `insert("", v)` is rejected with the pair
(`end()`, false) and the trie as it was, and `insert_or_assign("", v)` then calls
`assign_value` through that position, which is null: on every trie the call
faults. -/
theorem insert_or_assign_empty_key_faults [Inhabited V] (moved_from : V → V) (t : trie V)
    (v : V) :
    t.insert [] v = .ok (t, trie_end, false) ∧ t.insert_or_assign moved_from [] v = .fault :=
  ⟨rfl, rfl⟩

theorem walk_cycle (next : trie_iterator → Res trie_iterator) (a b : trie_iterator)
    (p q : List Int) (ha : a._ptr = some p) (hb : b._ptr = some q)
    (h1 : next a = .ok b) (h2 : next b = .ok a) :
    ∀ n, walk next n a = .timeout ∧ walk next n b = .timeout := by
  cases a with
  | mk pa ca =>
    cases b with
    | mk pb cb =>
      simp only at ha hb
      subst ha hb
      intro n
      induction n with
      | zero => exact ⟨rfl, rfl⟩
      | succ n ih =>
        simp only [walk, h1, h2, Res.ok_bind, ih.1, ih.2, Res.timeout_bind]
        exact ⟨trivial, trivial⟩

/-- C25, the code at the failing input. The marker `'\0'` is both "no marker" and
the label of an edge. In the trie built by `insert("a", 1)` and `insert("a\0", 2)`,
`begin()` is "a" and `++` moves to "a\0"; the next `++` climbs to "a" with the marker
`'\0'`, which the loop reads as "no marker", and stops there: the iteration is back
at "a", never reaches `end()`, and `size()` does not return.  In the trie that holds
only the key "\0", `++` from the position of the key returns the same position. -/
theorem zero_label_iteration_never_ends :
    (trie.empty_trie.insert_all [([97], 1), ([97, 0], 2)] =
        .ok (⟨.mk 0 none [.mk 97 (some 1) [.mk 0 (some 2) []]]⟩ : trie Nat)) ∧
      (∀ fuel,
        (⟨.mk 0 none [.mk 97 (some 1) [.mk 0 (some 2) []]]⟩ : trie Nat).begin_ fuel =
          .ok ⟨some [97], 0⟩ ∧
        operator_inc fuel (⟨.mk 0 none [.mk 97 (some 1) [.mk 0 (some 2) []]]⟩ : trie Nat)
          ⟨some [97], 0⟩ = .ok ⟨some [97, 0], 0⟩ ∧
        operator_inc fuel (⟨.mk 0 none [.mk 97 (some 1) [.mk 0 (some 2) []]]⟩ : trie Nat)
          ⟨some [97, 0], 0⟩ = .ok ⟨some [97], 0⟩ ∧
        (⟨.mk 0 none [.mk 97 (some 1) [.mk 0 (some 2) []]]⟩ : trie Nat).forward_walk fuel =
          .timeout ∧
        (⟨.mk 0 none [.mk 97 (some 1) [.mk 0 (some 2) []]]⟩ : trie Nat).size fuel =
          .timeout) ∧
      ((trie.empty_trie : trie Nat).insert_all [([0], 1)] =
        .ok ⟨.mk 0 none [.mk 0 (some 1) []]⟩) ∧
      (∀ fuel, 1 ≤ fuel →
        operator_inc fuel (⟨.mk 0 none [.mk 0 (some 1) []]⟩ : trie Nat) ⟨some [0], 0⟩ =
          .ok ⟨some [0], 0⟩) := by
  refine ⟨rfl, ?_, rfl, ?_⟩
  · intro fuel
    have hb : (⟨.mk 0 none [.mk 97 (some 1) [.mk 0 (some 2) []]]⟩ : trie Nat).begin_ fuel =
        .ok ⟨some [97], 0⟩ := by
      cases fuel <;> rfl
    have h1 : operator_inc fuel (⟨.mk 0 none [.mk 97 (some 1) [.mk 0 (some 2) []]]⟩ : trie Nat)
        ⟨some [97], 0⟩ = .ok ⟨some [97, 0], 0⟩ := by
      cases fuel <;> rfl
    have h2 : operator_inc fuel (⟨.mk 0 none [.mk 97 (some 1) [.mk 0 (some 2) []]]⟩ : trie Nat)
        ⟨some [97, 0], 0⟩ = .ok ⟨some [97], 0⟩ := by
      cases fuel <;> rfl
    have hw : (⟨.mk 0 none [.mk 97 (some 1) [.mk 0 (some 2) []]]⟩ : trie Nat).forward_walk
        fuel = .timeout := by
      unfold trie.forward_walk
      rw [hb, Res.ok_bind]
      exact (walk_cycle _ _ _ [97] [97, 0] rfl rfl h1 h2 fuel).1
    refine ⟨hb, h1, h2, hw, ?_⟩
    unfold trie.size
    rw [hw]
    rfl
  · intro fuel hf
    obtain ⟨f, rfl⟩ : ∃ f, fuel = f + 1 := ⟨fuel - 1, by omega⟩
    cases f <;> rfl

end HCPPTrie
